import Mathlib

/-!
# xedit: row store, highlight engine, viewport mapper and render composer

A shallow embedding of `xedit.c` (v3).  Bytes are natural numbers `0..255`;
a C string is the list of its bytes without the terminating NUL, and a read
one past the end of a string yields that NUL (`0`).  C `int`s are `Int`.
-/

namespace Xedit

/-! ## Constants and enumerations -/

/-- The tab stop: `#define XEDIT_TAB_STOP 8`. -/
def XEDIT_TAB_STOP : Nat := 8

/-- The classification tags of `enum xeditHighlight`. -/
inductive xeditHighlight where
  | HL_NORMAL
  | HL_COMMENT
  | HL_MLCOMMENT
  | HL_KEYWORDS
  | HL_TYPES
  | HL_STRING
  | HL_NUMBER
  deriving DecidableEq, Repr, Inhabited

open xeditHighlight

/-- Flag bit `#define HL_HIGHLIGHT_NUMBERS (1<<0)`. -/
def HL_HIGHLIGHT_NUMBERS : Nat := 1

/-- Flag bit `#define HL_HIGHLIGHT_STRINGS (1<<1)`. -/
def HL_HIGHLIGHT_STRINGS : Nat := 2

/-- The profile record `struct xeditSyntax`; a `char *` that may be `NULL` is an `Option`. -/
structure xeditSyntax where
  filetype : List Nat
  filematch : List (List Nat)
  keywords : List (List Nat)
  singleline_comment_start : Option (List Nat)
  multiline_comment_start : Option (List Nat)
  multiline_comment_end : Option (List Nat)
  flags : Nat
  deriving DecidableEq, Repr

/-- A row, `struct erow`; `size` and `rsize` are the lengths of `chars` and `render`. -/
structure erow where
  idx : Int
  chars : List Nat
  render : List Nat
  hl : List xeditHighlight
  hl_open_comment : Bool
  deriving DecidableEq, Repr

/-- The field `row->size`. -/
def erow.size (row : erow) : Nat := row.chars.length

/-- The field `row->rsize`. -/
def erow.rsize (row : erow) : Nat := row.render.length

/-- The editor state `struct xeditConfig` (without the saved terminal attributes); `syn` is `E.syntax`. -/
structure xeditConfig where
  cx : Int
  cy : Int
  rx : Int
  rowoff : Int
  coloff : Int
  screenrows : Int
  screencols : Int
  numrows : Int
  row : List erow
  dirty : Int
  filename : Option (List Nat)
  syn : Option xeditSyntax
  deriving DecidableEq, Repr

/-- The bytes of a string literal. -/
def cstr (s : List Char) : List Nat := s.map Char.toNat

/-- Read `s[i]` of a NUL-terminated string: the byte at `i`, the terminator at the end. -/
def byteAt (s : List Nat) (i : Nat) : Nat := s.getD i 0

/-! ## Row operations: tab expansion and the cursor column -/

/-- The loop of `XeditRowCxToRx` after `n` iterations (`j = 0 .. n-1`). -/
def XeditRowCxToRx.loop (chars : List Nat) : Nat → Int
  | 0 => 0
  | n + 1 =>
    let rx := XeditRowCxToRx.loop chars n
    let rx := if byteAt chars n = 9 then
        rx + (((XEDIT_TAB_STOP : Int) - 1) - (rx % (XEDIT_TAB_STOP : Int))) else rx
    rx + 1

/-- Function `int XeditRowCxToRx(erow *row, int cx)`: the loop runs while `j < cx`. -/
def XeditRowCxToRx (row : erow) (cx : Int) : Int :=
  XeditRowCxToRx.loop row.chars cx.toNat

/-- The inner loop `while (idx % XEDIT_TAB_STOP != 0) row->render[idx++] = ' ';` with `idx` the length
of the render written so far.  The loop runs fewer than `XEDIT_TAB_STOP` times. -/
def XeditUpdateRow.pad : Nat → List Nat → List Nat
  | 0, render => render
  | fuel + 1, render =>
    if render.length % XEDIT_TAB_STOP ≠ 0 then XeditUpdateRow.pad fuel (render ++ [32])
    else render

/-- The second loop of `XeditUpdateRow`: the render after the first `n` bytes of `chars`
have been copied. -/
def XeditUpdateRow.render (chars : List Nat) : Nat → List Nat
  | 0 => []
  | n + 1 =>
    let render := XeditUpdateRow.render chars n
    if byteAt chars n = 9 then XeditUpdateRow.pad XEDIT_TAB_STOP (render ++ [32])
    else render ++ [byteAt chars n]

/-- The first loop of `XeditUpdateRow`: the number of tab bytes. -/
def XeditUpdateRow.tabs (chars : List Nat) : Nat := (chars.filter (fun c => c = 9)).length

/-! ## Highlight engine -/

/-- The libc predicate `isspace` in the "C" locale (a `char` of 128 or more is negative
in C and fails every one of these tests, as it does here). -/
def isspace (c : Nat) : Bool := c = 32 || (9 ≤ c && c ≤ 13)

/-- The libc predicate `isdigit`. -/
def isdigit (c : Nat) : Bool := 48 ≤ c && c ≤ 57

/-- The libc predicate `iscntrl` in the "C" locale. -/
def iscntrl (c : Nat) : Bool := c < 32 || c = 127

/-- The sixteen punctuation bytes of the string searched by `strchr` in `IsSeperator`. -/
def separatorChars : List Nat :=
  cstr [',', '.', '(', ')', '+', '-', '/', '*', '=', '~', '%', '<', '>', '[', ']', ';']

/-- Function `int IsSeperator(int c)`. -/
def IsSeperator (c : Nat) : Bool :=
  isspace c || c = 0 || decide (c ∈ separatorChars)

/-- Test `strncmp(s1, s2, n) == 0` on NUL-terminated strings: the comparison stops at
the first difference, at a common NUL, or after `n` bytes. -/
def strncmpEq (s1 s2 : List Nat) : Nat → Bool
  | 0 => true
  | n + 1 =>
    if byteAt s1 0 ≠ byteAt s2 0 then false
    else if byteAt s1 0 = 0 then true
    else strncmpEq s1.tail s2.tail n

/-- Length `p ? strlen(p) : 0` of a string that may be `NULL`. -/
def cstrlen (p : Option (List Nat)) : Nat :=
  match p with
  | none => 0
  | some s => s.length

/-- Call `memset(&hl[i], v, n)` on the highlight array. -/
def memsetHl (hl : List xeditHighlight) (i : Nat) (v : xeditHighlight) : Nat →
    List xeditHighlight
  | 0 => hl
  | n + 1 => memsetHl (hl.set i v) (i + 1) v n

/-- The local variables of the scan loop of `XeditUpdateSyntax`, with the array `hl`. -/
structure ScanState where
  i : Nat
  prev_sep : Bool
  in_string : Nat
  in_comment : Bool
  hl : List xeditHighlight
  deriving DecidableEq, Repr

/-- How one pass through the body of the scan loop ends: at a `continue` (or the end of
the body), or at the `break` of the single-line comment. -/
inductive ScanStep where
  | next (st : ScanState)
  | stop (st : ScanState)
  deriving DecidableEq, Repr

/-- The keyword loop `for (j = 0; keywords[j]; j++)` at position `i`: the length and
the type tag of the first keyword that matches, if any. -/
def matchKeyword (render : List Nat) (i : Nat) : List (List Nat) → Option (Nat × Bool)
  | [] => none
  | kw :: rest =>
    let klen := kw.length
    let type : Bool := decide (kw.getLast? = some 124)
    let klen := if type then klen - 1 else klen
    if strncmpEq (render.drop i) kw klen && IsSeperator (byteAt render (i + klen)) then
      some (klen, type)
    else matchKeyword render i rest

/-- One pass through the body of `while (i < row->rsize)` in `XeditUpdateSyntax`. -/
def scanStep (syn : xeditSyntax) (render : List Nat) (st : ScanState) : ScanStep :=
  let scs := syn.singleline_comment_start
  let mcs := syn.multiline_comment_start
  let mce := syn.multiline_comment_end
  let scs_len := cstrlen scs
  let mcs_len := cstrlen mcs
  let mce_len := cstrlen mce
  let i := st.i
  let c := byteAt render i
  let prev_hl := if i > 0 then st.hl.getD (i - 1) HL_NORMAL else HL_NORMAL
  if scs_len ≠ 0 ∧ st.in_string = 0 ∧ st.in_comment = false ∧
      strncmpEq (render.drop i) (scs.getD []) scs_len = true then
    .stop { st with hl := memsetHl st.hl i HL_COMMENT (render.length - i) }
  else if mcs_len ≠ 0 ∧ mce_len ≠ 0 ∧ st.in_string = 0 ∧ st.in_comment = true then
    if strncmpEq (render.drop i) (mce.getD []) mce_len = true then
      .next { st with
        hl := memsetHl (st.hl.set i HL_MLCOMMENT) i HL_MLCOMMENT mce_len
        i := i + mce_len
        in_comment := false
        prev_sep := true }
    else
      .next { st with hl := st.hl.set i HL_MLCOMMENT, i := i + 1 }
  else if mcs_len ≠ 0 ∧ mce_len ≠ 0 ∧ st.in_string = 0 ∧
      strncmpEq (render.drop i) (mcs.getD []) mcs_len = true then
    .next { st with
      hl := memsetHl st.hl i HL_MLCOMMENT mcs_len
      i := i + mcs_len
      in_comment := true }
  else if Nat.land syn.flags HL_HIGHLIGHT_STRINGS ≠ 0 ∧ st.in_string ≠ 0 then
    if c = 92 ∧ i + 1 < render.length then
      .next { st with hl := (st.hl.set i HL_STRING).set (i + 1) HL_STRING, i := i + 2 }
    else
      .next { st with
        hl := st.hl.set i HL_STRING
        in_string := if c = st.in_string then 0 else st.in_string
        i := i + 1
        prev_sep := true }
  else if Nat.land syn.flags HL_HIGHLIGHT_STRINGS ≠ 0 ∧ (c = 34 ∨ c = 39) then
    .next { st with in_string := c, hl := st.hl.set i HL_STRING, i := i + 1 }
  else if Nat.land syn.flags HL_HIGHLIGHT_NUMBERS ≠ 0 ∧
      ((isdigit c = true ∧ (st.prev_sep = true ∨ prev_hl = HL_NUMBER)) ∨
        (c = 46 ∧ prev_hl = HL_NUMBER)) then
    .next { st with hl := st.hl.set i HL_NUMBER, i := i + 1, prev_sep := false }
  else
    match (if st.prev_sep = true then matchKeyword render i syn.keywords else none) with
    | some (klen, type) =>
      .next { st with
        hl := memsetHl st.hl i (if type then HL_TYPES else HL_KEYWORDS) klen
        i := i + klen
        prev_sep := false }
    | none => .next { st with prev_sep := IsSeperator c, i := i + 1 }

/-- The loop `while (i < row->rsize)` of `XeditUpdateSyntax`; `none` when the fuel runs
out before the loop ends. -/
def scanLoop (syn : xeditSyntax) (render : List Nat) : Nat → ScanState → Option ScanState
  | 0, _ => none
  | fuel + 1, st =>
    if st.i < render.length then
      match scanStep syn render st with
      | .next st1 => scanLoop syn render fuel st1
      | .stop st1 => some st1
    else some st

/-- The state in which the scan of a row starts: `hl` cleared to `HL_NORMAL`, `prev_sep = 1`,
`in_string = 0`, and `in_comment` as handed over by the previous row. -/
def scanInit (render : List Nat) (in_comment : Bool) : ScanState :=
  { i := 0, prev_sep := true, in_string := 0, in_comment := in_comment,
    hl := List.replicate render.length HL_NORMAL }

/-- The scan of one row under a profile: the highlight array and the value of
`in_comment` when the loop ends. -/
def highlightRow (syn : xeditSyntax) (render : List Nat) (in_comment : Bool) :
    Option (List xeditHighlight × Bool) :=
  (scanLoop syn render (2 * render.length + 2) (scanInit render in_comment)).map
    (fun st => (st.hl, st.in_comment))

/-- Read `a[k]` for a C index `k`; `none` outside the array. -/
def arrayAt {α : Type} (a : List α) (k : Int) : Option α :=
  if k < 0 then none else a[k.toNat]?

/-- Function `void XeditUpdateSyntax(erow *row)` with `row = &E.row[p]`.  The result is
`none` when an access leaves the row array or the fuel of the cascade runs out. -/
def XeditUpdateSyntax : Nat → xeditConfig → Nat → Option xeditConfig
  | 0, _, _ => none
  | fuel + 1, E, p =>
    match E.row[p]? with
    | none => none
    | some row =>
      match E.syn with
      | none =>
        some { E with row := E.row.set p { row with hl := List.replicate row.rsize HL_NORMAL } }
      | some syn =>
        match (if row.idx > 0 then (arrayAt E.row (row.idx - 1)).map (fun r => r.hl_open_comment)
               else some false) with
        | none => none
        | some in_comment0 =>
          match scanLoop syn row.render (2 * row.rsize + 2) (scanInit row.render in_comment0) with
          | none => none
          | some st =>
            let changed : Bool := row.hl_open_comment != st.in_comment
            let E1 := { E with
              row := E.row.set p { row with hl := st.hl, hl_open_comment := st.in_comment } }
            if changed = true ∧ row.idx + 1 < E.numrows then
              if row.idx + 1 < 0 then none
              else XeditUpdateSyntax fuel E1 (row.idx + 1).toNat
            else some E1

/-- Function `void XeditUpdateRow(erow *row)` with `row = &E.row[p]`. -/
def XeditUpdateRow (E : xeditConfig) (p : Nat) : Option xeditConfig :=
  match E.row[p]? with
  | none => none
  | some row =>
    XeditUpdateSyntax (E.row.length + 1)
      { E with row := E.row.set p { row with render := XeditUpdateRow.render row.chars row.size } }
      p

/-- Function `void XeditInsertRow(int at, char *s, size_t len)`; `E.row` holds the
`E.numrows` rows of the array. -/
def XeditInsertRow (E : xeditConfig) (at_ : Int) (s : List Nat) : Option xeditConfig :=
  if at_ < 0 ∨ at_ > E.numrows then some E
  else
    let a := at_.toNat
    let fresh : erow := { idx := at_, chars := s, render := [], hl := [], hl_open_comment := false }
    let rows := E.row.take a ++ fresh :: (E.row.drop a).map (fun r => { r with idx := r.idx + 1 })
    match XeditUpdateRow { E with row := rows } a with
    | none => none
    | some E1 => some { E1 with numrows := E1.numrows + 1, dirty := E1.dirty + 1 }

/-- Function `void XeditDelRow(int at)`. -/
def XeditDelRow (E : xeditConfig) (at_ : Int) : xeditConfig :=
  if at_ < 0 ∨ at_ ≥ E.numrows then E
  else
    let a := at_.toNat
    { E with
      row := E.row.take a ++ (E.row.drop (a + 1)).map (fun r => { r with idx := r.idx - 1 })
      numrows := E.numrows - 1
      dirty := E.dirty + 1 }

/-- Function `void XeditRowInsertChar(erow *row, int at, int c)` with `row = &E.row[p]`. -/
def XeditRowInsertChar (E : xeditConfig) (p : Nat) (at_ : Int) (c : Nat) : Option xeditConfig :=
  match E.row[p]? with
  | none => none
  | some row =>
    let a := if at_ < 0 ∨ at_ > row.size then row.size else at_.toNat
    match XeditUpdateRow
        { E with row := E.row.set p { row with chars := row.chars.take a ++ (c % 256) :: row.chars.drop a } }
        p with
    | none => none
    | some E1 => some { E1 with dirty := E1.dirty + 1 }

/-- Function `void XeditRowAppendString(erow *row, char *s, size_t len)`. -/
def XeditRowAppendString (E : xeditConfig) (p : Nat) (s : List Nat) : Option xeditConfig :=
  match E.row[p]? with
  | none => none
  | some row =>
    match XeditUpdateRow { E with row := E.row.set p { row with chars := row.chars ++ s } } p with
    | none => none
    | some E1 => some { E1 with dirty := E1.dirty + 1 }

/-- Function `void XeditRowDelChar(erow *row, int at)`. -/
def XeditRowDelChar (E : xeditConfig) (p : Nat) (at_ : Int) : Option xeditConfig :=
  match E.row[p]? with
  | none => none
  | some row =>
    if at_ < 0 ∨ at_ ≥ row.size then some E
    else
      match XeditUpdateRow
          { E with row := E.row.set p { row with chars := row.chars.eraseIdx at_.toNat } } p with
      | none => none
      | some E1 => some { E1 with dirty := E1.dirty + 1 }

/-! ## The built-in profile table -/

/-- Table `C_HL_extensions`. -/
def C_HL_extensions : List (List Nat) :=
  [cstr ['.', 'c'], cstr ['.', 'h'], cstr ['.', 'c', 'p', 'p']]

/-- Table `C_HL_keywords`; a trailing `|` (124) marks a type. -/
def C_HL_keywords : List (List Nat) :=
  [ cstr ['s', 'w', 'i', 't', 'c', 'h'], cstr ['i', 'f'], cstr ['w', 'h', 'i', 'l', 'e'],
    cstr ['f', 'o', 'r'], cstr ['b', 'r', 'e', 'a', 'k'],
    cstr ['c', 'o', 'n', 't', 'i', 'n', 'u', 'e'], cstr ['r', 'e', 't', 'u', 'r', 'n'],
    cstr ['e', 'l', 's', 'e'], cstr ['s', 't', 'r', 'u', 'c', 't'], cstr ['u', 'n', 'i', 'o', 'n'],
    cstr ['t', 'y', 'p', 'e', 'd', 'e', 'f'], cstr ['s', 't', 'a', 't', 'i', 'c'],
    cstr ['e', 'n', 'u', 'm'], cstr ['c', 'l', 'a', 's', 's'], cstr ['c', 'a', 's', 'e'],
    cstr ['i', 'n', 't', '|'], cstr ['l', 'o', 'n', 'g', '|'],
    cstr ['d', 'o', 'u', 'b', 'l', 'e', '|'], cstr ['f', 'l', 'o', 'a', 't', '|'],
    cstr ['c', 'h', 'a', 'r', '|'], cstr ['u', 'n', 's', 'i', 'g', 'n', 'e', 'd', '|'],
    cstr ['s', 'i', 'g', 'n', 'e', 'd', '|'], cstr ['v', 'o', 'i', 'd', '|'] ]

/-- The single entry of `HLDB`: the C profile. -/
def HLDB_c : xeditSyntax :=
  { filetype := cstr ['c']
    filematch := C_HL_extensions
    keywords := C_HL_keywords
    singleline_comment_start := some (cstr ['/', '/'])
    multiline_comment_start := some (cstr ['/', '*'])
    multiline_comment_end := some (cstr ['*', '/'])
    flags := Nat.lor HL_HIGHLIGHT_NUMBERS HL_HIGHLIGHT_STRINGS }

/-- Table `HLDB`. -/
def HLDB : List xeditSyntax := [HLDB_c]

/-- The libc call `strrchr(s, c)` for a byte `c` other than NUL: the part of `s` from the
last occurrence of `c` on, `none` (`NULL`) when `c` does not occur. -/
def strrchr : List Nat → Nat → Option (List Nat)
  | [], _ => none
  | b :: rest, c =>
    match strrchr rest c with
    | some r => some r
    | none => if b = c then some (b :: rest) else none

/-- The libc test `strstr(haystack, needle) != NULL`. -/
def strstr : List Nat → List Nat → Bool
  | [], needle => needle.isEmpty
  | b :: rest, needle => needle.isPrefixOf (b :: rest) || strstr rest needle

/-- The test of one `filematch` entry in `XeditSelectSyntaxHighlight`. -/
def XeditSelectSyntaxHighlight.matches (filename : List Nat) (fm : List Nat) : Bool :=
  let ext := strrchr filename 46
  let is_ext : Bool := decide (byteAt fm 0 = 46)
  (is_ext && decide (ext = some fm)) || (!is_ext && strstr filename fm)

/-- The two search loops of `XeditSelectSyntaxHighlight` over `HLDB` and `filematch`:
the first profile with a matching entry. -/
def XeditSelectSyntaxHighlight.find (filename : List Nat) : List xeditSyntax → Option xeditSyntax
  | [] => none
  | s :: rest =>
    if s.filematch.any (XeditSelectSyntaxHighlight.matches filename) then some s
    else XeditSelectSyntaxHighlight.find filename rest

/-- The loop `for (filerow = 0; filerow < E.numrows; filerow++) XeditUpdateSyntax(&E.row[filerow])`
with its remaining number of iterations. -/
def XeditSelectSyntaxHighlight.loop : Nat → xeditConfig → Nat → Option xeditConfig
  | 0, E, _ => some E
  | n + 1, E, filerow =>
    match XeditUpdateSyntax (E.row.length + 1) E filerow with
    | none => none
    | some E1 => XeditSelectSyntaxHighlight.loop n E1 (filerow + 1)

/-- Function `void XeditSelectSyntaxHighlight()`. -/
def XeditSelectSyntaxHighlight (E : xeditConfig) : Option xeditConfig :=
  let E0 := { E with syn := none }
  match E0.filename with
  | none => some E0
  | some filename =>
    match XeditSelectSyntaxHighlight.find filename HLDB with
    | none => some E0
    | some s => XeditSelectSyntaxHighlight.loop E0.numrows.toNat { E0 with syn := some s } 0

/-! ## Viewport -/

/-- The least value of an `int` (32 bits, two's complement). -/
def INT_MIN : Int := -2147483648

/-- The greatest value of an `int`. -/
def INT_MAX : Int := 2147483647

/-- A value that an `int` variable can hold. -/
def isInt (x : Int) : Prop := INT_MIN ≤ x ∧ x ≤ INT_MAX

instance (x : Int) : Decidable (isInt x) := by
  unfold isInt
  exact inferInstance

/-- The `int` that an addition or subtraction of two `int`s leaves when its exact result is
`x`: the result modulo `2^32` in two's complement, as the compiled code computes it. -/
def wrapInt (x : Int) : Int := (x + 2147483648) % 4294967296 - 2147483648

/-- Function `void XeditScroll()`, its sums and differences computed in `int`; `none` when
`E.row[E.cy]` is outside the row array. -/
def XeditScroll (E : xeditConfig) : Option xeditConfig :=
  match (if E.cy < E.numrows then (arrayAt E.row E.cy).map (fun row => XeditRowCxToRx row E.cx)
         else some 0) with
  | none => none
  | some rx =>
    let E := { E with rx := rx }
    let E := if E.cy < E.rowoff then { E with rowoff := E.cy } else E
    let E := if E.cy ≥ wrapInt (E.rowoff + E.screenrows) then
        { E with rowoff := wrapInt (wrapInt (E.cy - E.screenrows) + 1) }
      else E
    let E := if E.rx < E.coloff then { E with coloff := E.rx } else E
    let E := if E.rx ≥ wrapInt (E.coloff + E.screencols) then
        { E with coloff := wrapInt (wrapInt (E.rx - E.screencols) + 1) }
      else E
    some E

/-- The offset that `XeditScroll` leaves along one axis, for the cursor position `c`, the old
offset `off` and the window size `n`: the two `if` statements of the rows (and of the columns)
one after the other. -/
def XeditScroll.axis (c off n : Int) : Int :=
  let off1 := if c < off then c else off
  if c ≥ wrapInt (off1 + n) then wrapInt (wrapInt (c - n) + 1) else off1

/-! ## Render composer -/

/-- Function `void abAppend(struct abuf *ab, const char *s, int len)`, `s` being the `len`
bytes that are copied. -/
def abAppend (ab : List Nat) (s : List Nat) : List Nat := ab ++ s

/-- Function `int XeditSyntaxToColor(int hl)`. -/
def XeditSyntaxToColor (hl : xeditHighlight) : Int :=
  match hl with
  | HL_COMMENT => 36
  | HL_MLCOMMENT => 36
  | HL_KEYWORDS => 33
  | HL_TYPES => 32
  | HL_STRING => 35
  | HL_NUMBER => 31
  | _ => 37

/-- The conversion `%d` of `snprintf`. -/
def fmtInt (n : Int) : List Nat :=
  if n < 0 then 45 :: cstr (Nat.toDigits 10 (-n).toNat) else cstr (Nat.toDigits 10 n.toNat)

/-- The text `snprintf(buf, sizeof(buf), "\x1b[%dm", color)` writes. -/
def colorEscape (color : Int) : List Nat := [27, 91] ++ fmtInt color ++ [109]

/-- The value of a `char` holding the byte `b`, `char` being signed. -/
def schar (b : Nat) : Int := if b < 128 then (b : Int) else (b : Int) - 256

/-- The loop `for (j = 0; j < len; j++)` of `XeditDrawRows` over one row, with its number of
remaining iterations; `c[j]` is `render[coloff + j]` and `hl[j]` is `row.hl[coloff + j]`.
The result is `none` when one of the two arrays is read outside its bounds. -/
def XeditDrawRows.walk (render : List Nat) (hl : List xeditHighlight) (coloff : Int) :
    Nat → Nat → Int → List Nat → Option (List Nat)
  | 0, _, _, ab => some ab
  | n + 1, j, current_color, ab =>
    match arrayAt render (coloff + j) with
    | none => none
    | some cj =>
      if iscntrl cj = true then
        let sym := if schar cj ≤ 26 then 64 + cj else 63
        let ab := abAppend ab [27, 91, 55, 109]
        let ab := abAppend ab [sym]
        let ab := abAppend ab [27, 91, 109]
        let ab := if current_color ≠ -1 then abAppend ab (colorEscape current_color) else ab
        XeditDrawRows.walk render hl coloff n (j + 1) current_color ab
      else
        match arrayAt hl (coloff + j) with
        | none => none
        | some hj =>
          if hj = HL_NORMAL then
            let ab := if current_color ≠ -1 then abAppend ab [27, 91, 51, 57, 109] else ab
            XeditDrawRows.walk render hl coloff n (j + 1) (-1) (abAppend ab [cj])
          else
            let color := XeditSyntaxToColor hj
            let ab := if color ≠ current_color then abAppend ab (colorEscape color) else ab
            XeditDrawRows.walk render hl coloff n (j + 1) color (abAppend ab [cj])

/-- The text `"XEDIT %s: This is an empty buffer, nothing will be saved."` with
`XEDIT_VERSION` (`"v3"`) filled in. -/
def welcome : List Nat :=
  cstr ['X', 'E', 'D', 'I', 'T', ' ', 'v', '3', ':', ' ', 'T', 'h', 'i', 's', ' ', 'i', 's', ' ',
    'a', 'n', ' ', 'e', 'm', 'p', 't', 'y', ' ', 'b', 'u', 'f', 'f', 'e', 'r', ',', ' ',
    'n', 'o', 't', 'h', 'i', 'n', 'g', ' ', 'w', 'i', 'l', 'l', ' ', 'b', 'e', ' ',
    's', 'a', 'v', 'e', 'd', '.']

/-- The length `len` of the visible slice of a row in `XeditDrawRows`. -/
def XeditDrawRows.len (E : xeditConfig) (row : erow) : Int :=
  let len := (row.rsize : Int) - E.coloff
  let len := if len < 0 then 0 else len
  if len > E.screencols then E.screencols else len

/-- The body of the loop `for (y = 0; y < E.screenrows; y++)` of `XeditDrawRows`. -/
def XeditDrawRows.line (E : xeditConfig) (y : Int) (ab : List Nat) : Option (List Nat) :=
  let filerow := y + E.rowoff
  let drawn : Option (List Nat) :=
    if filerow ≥ E.numrows then
      if E.numrows = 0 ∧ y = E.screenrows / 3 then
        let welcomelen : Int := welcome.length
        let welcomelen := if welcomelen > E.screencols then E.screencols else welcomelen
        let padding := (E.screencols - welcomelen) / 2
        let ab := if padding ≠ 0 then abAppend ab [0] else ab
        let padding := if padding ≠ 0 then padding - 1 else padding
        let ab := abAppend ab (List.replicate padding.toNat 32)
        some (abAppend ab (welcome.take welcomelen.toNat))
      else some (abAppend ab [0])
    else
      match arrayAt E.row filerow with
      | none => none
      | some row =>
        match XeditDrawRows.walk row.render row.hl E.coloff (XeditDrawRows.len E row).toNat 0 (-1)
            ab with
        | none => none
        | some ab => some (abAppend ab [27, 91, 51, 57, 109])
  match drawn with
  | none => none
  | some ab =>
    let ab := abAppend ab [27, 91, 75]
    some (if y < E.screenrows - 1 then abAppend ab [13, 10] else ab)

/-- The loop `for (y = 0; y < E.screenrows; y++)` with its number of remaining iterations. -/
def XeditDrawRows.loop (E : xeditConfig) : Nat → Int → List Nat → Option (List Nat)
  | 0, _, ab => some ab
  | n + 1, y, ab =>
    match XeditDrawRows.line E y ab with
    | none => none
    | some ab => XeditDrawRows.loop E n (y + 1) ab

/-- Function `void XeditDrawRows(struct abuf *ab)`. -/
def XeditDrawRows (E : xeditConfig) (ab : List Nat) : Option (List Nat) :=
  XeditDrawRows.loop E E.screenrows.toNat 0 ab

/-! ## Measures and invariants used in the proofs -/

/-- The quantity that decreases in every pass through the scan loop. -/
def scanMeasure (render : List Nat) (st : ScanState) : Nat :=
  2 * (render.length - st.i) + (if st.prev_sep = true then 1 else 0)

/-- The part of a row that highlighting never changes: its index and its raw bytes. -/
def erow.text (r : erow) : Int × List Nat := (r.idx, r.chars)

/-- The rows of the array are numbered exactly: the row at offset `k` has `idx = k`. -/
def numberedRows (rows : List erow) : Prop :=
  ∀ (k : Nat) (r : erow), rows[k]? = some r → r.idx = (k : Int)

/-- A document whose rows are numbered exactly: `E.row` holds `E.numrows` rows and each
row's `idx` is its offset. -/
def numbered (E : xeditConfig) : Prop :=
  E.numrows = (E.row.length : Int) ∧ numberedRows E.row


/-! ## Concrete rows and documents used below -/

/-- An editor state with the given rows, profile and window, everything else zero. -/
def mkConfig (rows : List erow) (syn : Option xeditSyntax) (screenrows screencols : Int) :
    xeditConfig :=
  { cx := 0, cy := 0, rx := 0, rowoff := 0, coloff := 0, screenrows := screenrows,
    screencols := screencols, numrows := rows.length, row := rows, dirty := 0,
    filename := none, syn := syn }

/-- A row with the given index and raw bytes, not yet rendered. -/
def mkRow (idx : Int) (chars : List Nat) : erow :=
  { idx := idx, chars := chars, render := [], hl := [], hl_open_comment := false }

/-- The state `InitXedit` sets up (for a window of the given size), with a profile chosen. -/
def emptyConfig (syn : Option xeditSyntax) : xeditConfig := mkConfig [] syn 24 80


/-- A call of `XeditInsertRow` or of `XeditDelRow`. -/
inductive RowOp where
  | insert (at_ : Int) (s : List Nat)
  | delete (at_ : Int)
  deriving DecidableEq, Repr

/-- A sequence of `XeditInsertRow` and `XeditDelRow` calls, run in order. -/
def applyRowOps : xeditConfig → List RowOp → Option xeditConfig
  | E, [] => some E
  | E, RowOp.insert at_ s :: ops =>
    match XeditInsertRow E at_ s with
    | none => none
    | some E1 => applyRowOps E1 ops
  | E, RowOp.delete at_ :: ops => applyRowOps (XeditDelRow E at_) ops

/-- A pass of the highlight engine over the renders of all rows in order: each row is scanned
with the flag the previous row ended with (`false` before row 0), giving its highlight array
and its own flag. -/
def fullPass (syn : xeditSyntax) : Bool → List (List Nat) → Option (List (List xeditHighlight × Bool))
  | _, [] => some []
  | b, r :: rs =>
    match highlightRow syn r b with
    | none => none
    | some (hl, b1) => (fullPass syn b1 rs).map (fun rest => (hl, b1) :: rest)

/-- Boolean test of exact numbering from the offset `n` on. -/
def numberedFrom : Int → List erow → Bool
  | _, [] => true
  | n, r :: rs => decide (r.idx = n) && numberedFrom (n + 1) rs

/-- The two-row document `/*`, `x` as the editor holds it under the C profile. -/
def docOpenComment : xeditConfig :=
  { mkConfig
      [ { idx := 0, chars := [47, 42], render := [47, 42], hl := [HL_MLCOMMENT, HL_MLCOMMENT],
          hl_open_comment := true },
        { idx := 1, chars := [120], render := [120], hl := [HL_MLCOMMENT],
          hl_open_comment := true } ]
      (some HLDB_c) 24 80 with dirty := 2 }

/-- The one-row document `int` as the editor holds it under the C profile, with the file name
changed to `a.txt`. -/
def docIntTxt : xeditConfig :=
  { mkConfig
      [ { idx := 0, chars := [105, 110, 116], render := [105, 110, 116],
          hl := [HL_TYPES, HL_TYPES, HL_TYPES], hl_open_comment := false } ]
      (some HLDB_c) 24 80 with dirty := 1, filename := some (cstr ['a', '.', 't', 'x', 't']) }

/-- A state with the cursor on the second row, right of and below the window. -/
def docScroll : xeditConfig :=
  { mkConfig [mkRow 0 [97], mkRow 1 [9, 98, 99]] none 1 2 with cy := 1, cx := 3 }

/-- The two bytes `a`, `b` stand at positions `i`, `i + 1` of the row. -/
def occursAt (r : List Nat) (a b : Nat) (i : Nat) : Prop := byteAt r i = a ∧ byteAt r (i + 1) = b

instance (r : List Nat) (a b i : Nat) : Decidable (occursAt r a b i) := by
  unfold occursAt
  exact inferInstance

/-- The scan loop, started in the first state, comes to the second state at the head of the
loop after some number of passes through its body. -/
inductive ScanReach (syn : xeditSyntax) (render : List Nat) : ScanState → ScanState → Prop where
  | refl (st : ScanState) : ScanReach syn render st st
  | step (st st1 st2 : ScanState) (hi : st.i < render.length)
      (hs : scanStep syn render st = ScanStep.next st1) (hr : ScanReach syn render st1 st2) :
      ScanReach syn render st st2

/-- The flag the last row of a pass ended with, `b` when the pass had no row. -/
def lastFlag (b : Bool) (res : List (List xeditHighlight × Bool)) : Bool :=
  (res.getLast?.map Prod.snd).getD b

/-- The flag handed to the row that follows the rows `pre` in a pass under the C profile that
starts at row 0. -/
def seedAfter (pre : List (List Nat)) : Bool :=
  match fullPass HLDB_c false pre with
  | some res => lastFlag false res
  | none => false

/-- The row `x /* //`. -/
def rowOpens : List Nat := cstr ['x', ' ', '/', '*', ' ', '/', '/']

/-- The row `// b`. -/
def rowInside : List Nat := cstr ['/', '/', ' ', 'b']

/-- The row `// */ 1`. -/
def rowCloses : List Nat := cstr ['/', '/', ' ', '*', '/', ' ', '1']

/-- The scan state of the row `x /* //` at the head of the loop with the given `i` and
`prev_sep`, before any byte has been classified. -/
def rowOpensState (i : Nat) (prev_sep : Bool) : ScanState :=
  { i := i, prev_sep := prev_sep, in_string := 0, in_comment := false,
    hl := List.replicate 7 HL_NORMAL }

/-! ## Reading the output of the render composer -/

/-- A foreground-colour escape `ESC [ 3 d m` (SGR 30 to 39) starts the byte string. -/
def startsColourEsc (l : List Nat) : Bool :=
  byteAt l 0 = 27 && byteAt l 1 = 91 && byteAt l 2 = 51 && isdigit (byteAt l 3) &&
    byteAt l 4 = 109

/-- The number of foreground-colour escapes in a byte string. -/
def colourEscapes : List Nat → Nat
  | [] => 0
  | b :: rest => (if startsColourEsc (b :: rest) = true then 1 else 0) + colourEscapes rest

/-- The number of maximal runs of equal adjacent classifications, `prev` being the
classification of the byte before the list (if any). -/
def runsFrom (prev : Option xeditHighlight) : List xeditHighlight → Nat
  | [] => 0
  | h :: rest => (if prev = some h then 0 else 1) + runsFrom (some h) rest

/-- The number of maximal runs of identically classified adjacent bytes. -/
def runs (l : List xeditHighlight) : Nat := runsFrom none l

/-- The bytes left when the escape sequences are removed; the state is 0 in text, 1 after
`ESC`, 2 inside `ESC [` up to the final byte (64 to 126). -/
def stripEscapes : Nat → List Nat → List Nat
  | _, [] => []
  | 0, b :: rest => if b = 27 then stripEscapes 1 rest else b :: stripEscapes 0 rest
  | 1, b :: rest => if b = 91 then stripEscapes 2 rest else stripEscapes 0 rest
  | s + 2, b :: rest =>
    if 64 ≤ b ∧ b ≤ 126 then stripEscapes 0 rest else stripEscapes (s + 2) rest

/-- The byte shown for a render byte: the glyph of a control byte, the byte itself otherwise. -/
def glyph (c : Nat) : Nat :=
  if iscntrl c = true then (if schar c ≤ 26 then 64 + c else 63) else c

/-- The colours `current_color` takes in `XeditDrawRows`: none (`-1`) or one of the five
colours of the classifications other than `HL_NORMAL`. -/
def walkColor (cur : Int) : Prop :=
  cur = -1 ∨ cur = 31 ∨ cur = 32 ∨ cur = 33 ∨ cur = 35 ∨ cur = 36

/-- The colour in which a byte of the given classification is drawn, `-1` for the default. -/
def colorOf (h : xeditHighlight) : Int := if h = HL_NORMAL then -1 else XeditSyntaxToColor h

/-- A row `"`, 0x01, 0x01, `"` highlighted as one string. -/
def rowCtrlString : erow :=
  { idx := 0, chars := [34, 1, 1, 34], render := [34, 1, 1, 34],
    hl := [HL_STRING, HL_STRING, HL_STRING, HL_STRING], hl_open_comment := false }

/-- What one pass through the body of the walk loop appends to the buffer for the byte `cj`
classified `hj`, and the value of `current_color` it leaves. -/
def walkChunk (cj : Nat) (hj : xeditHighlight) (cur : Int) : List Nat × Int :=
  if iscntrl cj = true then
    ([27, 91, 55, 109] ++ [if schar cj ≤ 26 then 64 + cj else 63] ++ [27, 91, 109] ++
      (if cur ≠ -1 then colorEscape cur else []), cur)
  else if hj = HL_NORMAL then
    ((if cur ≠ -1 then [27, 91, 51, 57, 109] else []) ++ [cj], -1)
  else
    ((if XeditSyntaxToColor hj ≠ cur then colorEscape (XeditSyntaxToColor hj) else []) ++ [cj],
      XeditSyntaxToColor hj)

/-- The number of colour escapes in `walkChunk`. -/
def walkChunkEscapes (cj : Nat) (hj : xeditHighlight) (cur : Int) : Nat :=
  if iscntrl cj = true then (if cur ≠ -1 then 1 else 0)
  else if colorOf hj ≠ cur then 1 else 0

/-- The colour of the classification before the slice, `-1` at its start. -/
def colorOfPrev (prev : Option xeditHighlight) : Int :=
  match prev with
  | none => -1
  | some h => colorOf h

/-- The editor state holding the single row `rowCtrlString` under the C profile. -/
def docCtrlString : xeditConfig :=
  { mkConfig [rowCtrlString] (some HLDB_c) 24 80 with dirty := 1 }

/-- A two-row document `a<TAB>"<0x01>"` and `int x;` as the editor holds it under the C profile,
scrolled one column to the right on a window of two lines and twelve columns. -/
def docDraw : xeditConfig :=
  { mkConfig
      [ { idx := 0, chars := [97, 9, 34, 1, 34],
          render := [97, 32, 32, 32, 32, 32, 32, 32, 34, 1, 34],
          hl := [HL_NORMAL, HL_NORMAL, HL_NORMAL, HL_NORMAL, HL_NORMAL, HL_NORMAL, HL_NORMAL,
            HL_NORMAL, HL_STRING, HL_STRING, HL_STRING],
          hl_open_comment := false },
        { idx := 1, chars := [105, 110, 116, 32, 120, 59],
          render := [105, 110, 116, 32, 120, 59],
          hl := [HL_TYPES, HL_TYPES, HL_TYPES, HL_NORMAL, HL_NORMAL, HL_NORMAL],
          hl_open_comment := false } ]
      (some HLDB_c) 2 12 with dirty := 2, coloff := 1 }

/-! ## Key decoder -/

/-- Key code `BACKSPACE = 127` of `enum xeditKey`. -/
def BACKSPACE : Int := 127

/-- Key code `ARROW_LEFT = 1000` of `enum xeditKey`. -/
def ARROW_LEFT : Int := 1000

/-- Key code `ARROW_RIGHT` of `enum xeditKey`. -/
def ARROW_RIGHT : Int := 1001

/-- Key code `ARROW_UP` of `enum xeditKey`. -/
def ARROW_UP : Int := 1002

/-- Key code `ARROW_DOWN` of `enum xeditKey`. -/
def ARROW_DOWN : Int := 1003

/-- Key code `DEL_KEY` of `enum xeditKey`. -/
def DEL_KEY : Int := 1004

/-- Key code `HOME_KEY` of `enum xeditKey`. -/
def HOME_KEY : Int := 1005

/-- Key code `END_KEY` of `enum xeditKey`. -/
def END_KEY : Int := 1006

/-- Key code `PAGE_UP` of `enum xeditKey`. -/
def PAGE_UP : Int := 1007

/-- Key code `PAGE_DOWN` of `enum xeditKey`. -/
def PAGE_DOWN : Int := 1008

/-- The macro `#define CTRL_KEY(k) ((k) & 0x1f)`. -/
def CTRL_KEY (k : Nat) : Nat := Nat.land k 0x1f

/-- What one call `read(STDIN_FILENO, &c, 1)` gives: a byte (return value 1), nothing within
the timeout (0), or a failure (-1) with `errno` equal to `EAGAIN` or not. -/
inductive ReadResult where
  | byte (b : Nat)
  | timeout
  | eagain
  | error
  deriving DecidableEq, Repr

/-- Why `XeditReadKey` does not return: `Die("read")` ended the process, or the first loop
waits for a byte that never comes. -/
inductive ReadStop where
  | die
  | blocked
  deriving DecidableEq, Repr

/-- One call of `read` on the pending results of the terminal; once they are used up every
further call times out. -/
def read1 : List ReadResult → ReadResult × List ReadResult
  | [] => (ReadResult.timeout, [])
  | r :: rest => (r, rest)

/-- The loop `while ((nread = read(STDIN_FILENO, &c, 1)) != 1)` of `XeditReadKey`: the byte
read into `c` and the results still pending. -/
def XeditReadKey.wait : List ReadResult → Except ReadStop (Nat × List ReadResult)
  | [] => Except.error ReadStop.blocked
  | ReadResult.byte b :: rest => Except.ok (b, rest)
  | ReadResult.timeout :: rest => XeditReadKey.wait rest
  | ReadResult.eagain :: rest => XeditReadKey.wait rest
  | ReadResult.error :: _ => Except.error ReadStop.die

/-- The `switch (seq[1])` after `ESC [ digit ~`; `none` when no case is taken. -/
def XeditReadKey.tilde (s1 : Nat) : Option Int :=
  if s1 = 49 then some HOME_KEY
  else if s1 = 51 then some DEL_KEY
  else if s1 = 52 then some END_KEY
  else if s1 = 53 then some PAGE_UP
  else if s1 = 54 then some PAGE_DOWN
  else if s1 = 55 then some HOME_KEY
  else if s1 = 56 then some END_KEY
  else none

/-- The `switch (seq[1])` after `ESC [` and a byte that is no digit. -/
def XeditReadKey.csi (s1 : Nat) : Option Int :=
  if s1 = 65 then some ARROW_UP
  else if s1 = 66 then some ARROW_DOWN
  else if s1 = 67 then some ARROW_RIGHT
  else if s1 = 68 then some ARROW_LEFT
  else if s1 = 72 then some HOME_KEY
  else if s1 = 70 then some END_KEY
  else none

/-- The `switch (seq[1])` after `ESC O`. -/
def XeditReadKey.ss3 (s1 : Nat) : Option Int :=
  if s1 = 72 then some HOME_KEY
  else if s1 = 70 then some END_KEY
  else none

/-- Function `int XeditReadKey()`: the key and the read results still pending. -/
def XeditReadKey (input : List ReadResult) : Except ReadStop (Int × List ReadResult) :=
  match XeditReadKey.wait input with
  | Except.error e => Except.error e
  | Except.ok (c, in1) =>
    if c = 27 then
      match read1 in1 with
      | (ReadResult.byte s0, in2) =>
        match read1 in2 with
        | (ReadResult.byte s1, in3) =>
          if s0 = 91 then
            if 48 ≤ s1 ∧ s1 ≤ 57 then
              match read1 in3 with
              | (ReadResult.byte s2, in4) =>
                if s2 = 126 then
                  match XeditReadKey.tilde s1 with
                  | some k => Except.ok (k, in4)
                  | none => Except.ok (27, in4)
                else Except.ok (27, in4)
              | (_, in4) => Except.ok (27, in4)
            else
              match XeditReadKey.csi s1 with
              | some k => Except.ok (k, in3)
              | none => Except.ok (27, in3)
          else if s0 = 79 then
            match XeditReadKey.ss3 s1 with
            | some k => Except.ok (k, in3)
            | none => Except.ok (27, in3)
          else Except.ok (27, in3)
        | (_, in3) => Except.ok (27, in3)
      | (_, in2) => Except.ok (27, in2)
    else Except.ok (schar c, in1)

/-- The pending read results that deliver the given bytes one after the other. -/
def keys (bs : List Nat) : List ReadResult := bs.map ReadResult.byte

/-- The recognised escape sequences, without the leading `ESC`, each with its key: `ESC [ d ~`
for the digits 1, 7 (Home), 3 (Delete), 4, 8 (End), 5 (PageUp), 6 (PageDown); `ESC [` and one
of `A B C D H F`; `ESC O` and one of `H F`. -/
def recognisedSequences : List (List Nat × Int) :=
  [ ([91, 49, 126], HOME_KEY), ([91, 55, 126], HOME_KEY), ([91, 51, 126], DEL_KEY),
    ([91, 52, 126], END_KEY), ([91, 56, 126], END_KEY), ([91, 53, 126], PAGE_UP),
    ([91, 54, 126], PAGE_DOWN), ([91, 65], ARROW_UP), ([91, 66], ARROW_DOWN),
    ([91, 67], ARROW_RIGHT), ([91, 68], ARROW_LEFT), ([91, 72], HOME_KEY), ([79, 72], HOME_KEY),
    ([91, 70], END_KEY), ([79, 70], END_KEY) ]

/-- A read result other than a byte: `read` did not return 1. -/
def ReadResult.noByte (r : ReadResult) : Prop := ∀ b, r ≠ ReadResult.byte b

/-! ## Scenario rows and derived quantities -/

/-- The row `int x = 1; // note`. -/
def rowIntNote : List Nat :=
  cstr ['i', 'n', 't', ' ', 'x', ' ', '=', ' ', '1', ';', ' ', '/', '/', ' ', 'n', 'o', 't', 'e']

/-- The render column `XeditScroll` computes for the cursor: that of `(cy, cx)` when the cursor
is on a row of the document, 0 otherwise. -/
def cursorRx (E : xeditConfig) : Int :=
  if E.cy < E.numrows then ((arrayAt E.row E.cy).map (fun row => XeditRowCxToRx row E.cx)).getD 0
  else 0

/-- The values that `XeditScroll` reads are `int`s: the cursor row, the two offsets, the
window size and the render column computed for the cursor. -/
def XeditScroll.ints (E : xeditConfig) : Prop :=
  isInt E.cy ∧ isInt E.rowoff ∧ isInt E.coloff ∧ isInt E.screenrows ∧ isInt E.screencols ∧
  isInt (cursorRx E)

instance (E : xeditConfig) : Decidable (XeditScroll.ints E) := by
  unfold XeditScroll.ints
  exact inferInstance

/-- A state with the cursor row close to `INT_MAX`, inside a window of ten rows whose end
`rowoff + screenrows` is above `INT_MAX`. -/
def docScrollWrap : xeditConfig :=
  { mkConfig [] none 10 80 with cy := 2147483644, rowoff := 2147483642 }

/-! ## The cascade of `XeditUpdateSyntax`, call by call -/

/-- The flag `XeditUpdateSyntax` takes over for the row at offset `p` of a document numbered
exactly: `hl_open_comment` of the row before it, false for row 0. -/
def prevFlag (rows : List erow) (p : Nat) : Bool :=
  match p with
  | 0 => false
  | k + 1 => ((rows[k]?).map (fun r => r.hl_open_comment)).getD false

/-- The offsets of the rows on which `XeditUpdateSyntax` runs, in the order of the calls: the
function `XeditUpdateSyntax` with only its calls recorded (first the call on `&E.row[p]`, then
those of the cascade). -/
def XeditUpdateSyntax.calls : Nat → xeditConfig → Nat → Option (List Nat)
  | 0, _, _ => none
  | fuel + 1, E, p =>
    match E.row[p]? with
    | none => none
    | some row =>
      match E.syn with
      | none => some [p]
      | some syn =>
        match (if row.idx > 0 then (arrayAt E.row (row.idx - 1)).map (fun r => r.hl_open_comment)
               else some false) with
        | none => none
        | some in_comment0 =>
          match scanLoop syn row.render (2 * row.rsize + 2) (scanInit row.render in_comment0) with
          | none => none
          | some st =>
            let changed : Bool := row.hl_open_comment != st.in_comment
            let E1 := { E with
              row := E.row.set p { row with hl := st.hl, hl_open_comment := st.in_comment } }
            if changed = true ∧ row.idx + 1 < E.numrows then
              if row.idx + 1 < 0 then none
              else (XeditUpdateSyntax.calls fuel E1 (row.idx + 1).toNat).map (fun l => p :: l)
            else some [p]

/-- The three-row document `/`, `x`, `y` as the editor holds it under the C profile, after a
`*` has been appended to the raw bytes and the render of row 0 and before `XeditUpdateSyntax`
is called on that row. -/
def docCascade : xeditConfig :=
  mkConfig
    [ { idx := 0, chars := [47, 42], render := [47, 42], hl := [HL_NORMAL],
        hl_open_comment := false },
      { idx := 1, chars := [120], render := [120], hl := [HL_NORMAL], hl_open_comment := false },
      { idx := 2, chars := [121], render := [121], hl := [HL_NORMAL], hl_open_comment := false } ]
    (some HLDB_c) 24 80

/-- The row `"he said \"hi`, which ends inside a string. -/
def rowHeSaid : List Nat := [34, 104, 101, 32, 115, 97, 105, 100, 32, 92, 34, 104, 105]

/-- The row `there\""`. -/
def rowThere : List Nat := [116, 104, 101, 114, 101, 92, 34, 34]

/-! ## What a terminal shows for the output of the render composer -/

/-- The graphic state of the terminal: the foreground colour (`-1` for the default) and whether
inverse video is on. -/
structure TermState where
  fg : Int
  inverse : Bool
  deriving DecidableEq, Repr

/-- The effect of `ESC [ n m` with the decimal digits of `n` given (none: 0): 0 resets colour and
inverse video, 7 switches inverse video on, 30 to 37 set the foreground colour, 39 sets the
default foreground colour. -/
def sgr (params : List Nat) (t : TermState) : TermState :=
  let n : Nat := params.foldl (fun (acc d : Nat) => 10 * acc + (d - 48)) 0
  if n = 0 then { fg := -1, inverse := false }
  else if n = 7 then { t with inverse := true }
  else if n = 39 then { t with fg := -1 }
  else if 30 ≤ n ∧ n ≤ 37 then { t with fg := (n : Int) }
  else t

/-- The cells a terminal shows for a byte string: each byte that is not part of an escape
sequence, with the foreground colour and the inverse-video flag in force.  The first argument is
0 in text, 1 after `ESC`, 2 inside `ESC [`, where the second collects the parameter bytes. -/
def shown : Nat → List Nat → TermState → List Nat → List (Nat × Int × Bool)
  | _, _, _, [] => []
  | 0, _, t, b :: rest =>
    if b = 27 then shown 1 [] t rest else (b, t.fg, t.inverse) :: shown 0 [] t rest
  | 1, _, t, b :: rest => if b = 91 then shown 2 [] t rest else shown 0 [] t rest
  | s + 2, ps, t, b :: rest =>
    if 64 ≤ b ∧ b ≤ 126 then shown 0 [] (if b = 109 then sgr ps t else t) rest
    else shown (s + 2) (ps ++ [b]) t rest

/-- The cells expected for a slice of render bytes with their classifications when
`current_color` is `cur` before it: a control byte is its glyph in inverse video in the colour
`cur`, any other byte is itself in the colour of its classification, which is then the colour
before the next byte. -/
def cellsFrom (cur : Int) : List (Nat × xeditHighlight) → List (Nat × Int × Bool)
  | [] => []
  | (c, h) :: rest =>
    if iscntrl c = true then (glyph c, cur, true) :: cellsFrom cur rest
    else (c, colorOf h, false) :: cellsFrom (colorOf h) rest

/-! ## The keyword loop, keyword by keyword -/

/-- The type tag of a keyword in the keyword loop: `keywords[j][klen - 1] == '|'`. -/
def keywordType (kw : List Nat) : Bool := decide (kw.getLast? = some 124)

/-- The number of bytes compared for a keyword: `klen` after `if (type) klen--`. -/
def keywordLen (kw : List Nat) : Nat := if keywordType kw then kw.length - 1 else kw.length

/-- The test of the keyword loop for one keyword at position `i`:
`!strncmp(&row->render[i], keywords[j], klen) && IsSeperator(row->render[i + klen])`. -/
def keywordMatches (render : List Nat) (i : Nat) (kw : List Nat) : Bool :=
  strncmpEq (render.drop i) kw (keywordLen kw) && IsSeperator (byteAt render (i + keywordLen kw))

/-- The bytes compared for a keyword are no separators (so none of them is NUL). -/
def keywordWord (kw : List Nat) : Prop :=
  keywordLen kw ≤ kw.length ∧ ∀ k, k < keywordLen kw → IsSeperator (byteAt kw k) = false

/-- The row `integer`. -/
def rowInteger : List Nat := cstr ['i', 'n', 't', 'e', 'g', 'e', 'r']

/-- The row `iffy`. -/
def rowIffy : List Nat := cstr ['i', 'f', 'f', 'y']

/-- The row `xint`. -/
def rowXint : List Nat := cstr ['x', 'i', 'n', 't']

/-- The row `int if`. -/
def rowIntIf : List Nat := cstr ['i', 'n', 't', ' ', 'i', 'f']

/-! ## Runs of number bytes -/

/-- The bytes `i..j` of a highlight array are all `HL_NUMBER`: a stretch of a number run. -/
def numberRun (hl : List xeditHighlight) (i j : Nat) : Prop :=
  ∀ k, i ≤ k → k ≤ j → hl[k]? = some HL_NUMBER

/-- The number of `.` bytes among the bytes `i..j` of a render. -/
def dotsIn (render : List Nat) (i j : Nat) : Nat :=
  ((render.drop i).take (j + 1 - i)).count 46

/-- The row `1.2.3`. -/
def rowVersion : List Nat := cstr ['1', '.', '2', '.', '3']

/-- The row `x 1..2`. -/
def rowDotDot : List Nat := cstr ['x', ' ', '1', '.', '.', '2']

/-! ## A string with an escaped quote -/

/-- The row `"a\"b" x`: a string with an escaped quote, then a blank and `x`. -/
def rowEscapedQuote : List Nat := [34, 97, 92, 34, 98, 34, 32, 120]

/-! ## The scan with every access to `render` and `hl` checked -/

/-- Read `row->render[i]`: the buffer holds the `rsize` bytes of the render and the
terminator, so the indices `0 .. rsize` are inside it; `none` outside. -/
def readRender (render : List Nat) (i : Nat) : Option Nat :=
  if i ≤ render.length then some (byteAt render i) else none

/-- Read `row->hl[i]`: the array holds `rsize` entries; `none` outside. -/
def readHl (hl : List xeditHighlight) (i : Nat) : Option xeditHighlight := hl[i]?

/-- Write `row->hl[i] = v`; `none` outside the array. -/
def writeHl (hl : List xeditHighlight) (i : Nat) (v : xeditHighlight) :
    Option (List xeditHighlight) :=
  if i < hl.length then some (hl.set i v) else none

/-- Call `memset(&hl[i], v, n)` with every write checked. -/
def memsetChecked (hl : List xeditHighlight) (i : Nat) (v : xeditHighlight) :
    Nat → Option (List xeditHighlight)
  | 0 => some hl
  | n + 1 =>
    match writeHl hl i v with
    | none => none
    | some hl1 => memsetChecked hl1 (i + 1) v n

/-- Test `strncmp(&row->render[i], s, n) == 0` with every read of `render` checked: the bytes
are read one after the other, up to the first difference, a common NUL, or `n` bytes. -/
def strncmpChecked (render : List Nat) (i : Nat) (s : List Nat) : Nat → Option Bool
  | 0 => some true
  | n + 1 =>
    match readRender render i with
    | none => none
    | some a =>
      if a ≠ byteAt s 0 then some false
      else if a = 0 then some true
      else strncmpChecked render (i + 1) s.tail n

/-- The keyword loop with every read of `render` checked; `IsSeperator(row->render[i + klen])`
is evaluated only when the `strncmp` before `&&` has matched. -/
def matchKeywordChecked (render : List Nat) (i : Nat) :
    List (List Nat) → Option (Option (Nat × Bool))
  | [] => some none
  | kw :: rest =>
    let klen := kw.length
    let type : Bool := decide (kw.getLast? = some 124)
    let klen := if type then klen - 1 else klen
    match strncmpChecked render i kw klen with
    | none => none
    | some false => matchKeywordChecked render i rest
    | some true =>
      match readRender render (i + klen) with
      | none => none
      | some c1 =>
        if IsSeperator c1 then some (some (klen, type))
        else matchKeywordChecked render i rest

/-- One pass through the body of the scan loop of `XeditUpdateSyntax` with every access to
`render` and `hl` checked; `none` when an access is outside its array. -/
def scanStepChecked (syn : xeditSyntax) (render : List Nat) (st : ScanState) :
    Option ScanStep :=
  let scs := syn.singleline_comment_start
  let mcs := syn.multiline_comment_start
  let mce := syn.multiline_comment_end
  let scs_len := cstrlen scs
  let mcs_len := cstrlen mcs
  let mce_len := cstrlen mce
  let i := st.i
  match readRender render i with
  | none => none
  | some c =>
  match (if i > 0 then readHl st.hl (i - 1) else some HL_NORMAL) with
  | none => none
  | some prev_hl =>
  match (if scs_len ≠ 0 ∧ st.in_string = 0 ∧ st.in_comment = false then
      strncmpChecked render i (scs.getD []) scs_len else some false) with
  | none => none
  | some true =>
    (memsetChecked st.hl i HL_COMMENT (render.length - i)).map
      (fun hl => .stop { st with hl := hl })
  | some false =>
  if mcs_len ≠ 0 ∧ mce_len ≠ 0 ∧ st.in_string = 0 ∧ st.in_comment = true then
    match writeHl st.hl i HL_MLCOMMENT with
    | none => none
    | some hl1 =>
      match strncmpChecked render i (mce.getD []) mce_len with
      | none => none
      | some true =>
        (memsetChecked hl1 i HL_MLCOMMENT mce_len).map
          (fun hl => .next { st with hl := hl, i := i + mce_len, in_comment := false,
                                     prev_sep := true })
      | some false => some (.next { st with hl := hl1, i := i + 1 })
  else
  match (if mcs_len ≠ 0 ∧ mce_len ≠ 0 ∧ st.in_string = 0 then
      strncmpChecked render i (mcs.getD []) mcs_len else some false) with
  | none => none
  | some true =>
    (memsetChecked st.hl i HL_MLCOMMENT mcs_len).map
      (fun hl => .next { st with hl := hl, i := i + mcs_len, in_comment := true })
  | some false =>
  if Nat.land syn.flags HL_HIGHLIGHT_STRINGS ≠ 0 ∧ st.in_string ≠ 0 then
    match writeHl st.hl i HL_STRING with
    | none => none
    | some hl1 =>
      if c = 92 ∧ i + 1 < render.length then
        (writeHl hl1 (i + 1) HL_STRING).map (fun hl => .next { st with hl := hl, i := i + 2 })
      else
        some (.next { st with
          hl := hl1
          in_string := if c = st.in_string then 0 else st.in_string
          i := i + 1
          prev_sep := true })
  else if Nat.land syn.flags HL_HIGHLIGHT_STRINGS ≠ 0 ∧ (c = 34 ∨ c = 39) then
    (writeHl st.hl i HL_STRING).map
      (fun hl => .next { st with in_string := c, hl := hl, i := i + 1 })
  else if Nat.land syn.flags HL_HIGHLIGHT_NUMBERS ≠ 0 ∧
      ((isdigit c = true ∧ (st.prev_sep = true ∨ prev_hl = HL_NUMBER)) ∨
        (c = 46 ∧ prev_hl = HL_NUMBER)) then
    (writeHl st.hl i HL_NUMBER).map
      (fun hl => .next { st with hl := hl, i := i + 1, prev_sep := false })
  else
    match (if st.prev_sep = true then matchKeywordChecked render i syn.keywords
           else some none) with
    | none => none
    | some (some (klen, type)) =>
      (memsetChecked st.hl i (if type then HL_TYPES else HL_KEYWORDS) klen).map
        (fun hl => .next { st with hl := hl, i := i + klen, prev_sep := false })
    | some none => some (.next { st with prev_sep := IsSeperator c, i := i + 1 })

/-- The loop `while (i < row->rsize)` with the checked body; `none` when an access is outside
its array or the fuel runs out. -/
def scanLoopChecked (syn : xeditSyntax) (render : List Nat) :
    Nat → ScanState → Option ScanState
  | 0, _ => none
  | fuel + 1, st =>
    if st.i < render.length then
      match scanStepChecked syn render st with
      | none => none
      | some (.next st1) => scanLoopChecked syn render fuel st1
      | some (.stop st1) => some st1
    else some st

/-- A C string: no NUL byte before its end. -/
def cString (s : List Nat) : Prop := ∀ b, b ∈ s → b ≠ 0

/-- The strings of a profile are C strings. -/
def xeditSyntax.cStrings (syn : xeditSyntax) : Prop :=
  cString (syn.singleline_comment_start.getD []) ∧
  cString (syn.multiline_comment_start.getD []) ∧
  cString (syn.multiline_comment_end.getD []) ∧
  ∀ kw, kw ∈ syn.keywords → cString kw

/-! ## Documents whose highlighting equals a full pass -/

/-- A consistently highlighted document: the rows are numbered exactly, and every row's `hl`
and `hl_open_comment` are what a pass of the highlight engine over all rows from row 0 gives
(`fullPass` on the renders under the active profile); with no profile every `hl` is
`HL_NORMAL` throughout. -/
def highlighted (E : xeditConfig) : Prop :=
  numbered E ∧
  (∀ syn, E.syn = some syn →
    fullPass syn false (E.row.map (fun r => r.render)) =
      some (E.row.map (fun r => (r.hl, r.hl_open_comment)))) ∧
  (E.syn = none → ∀ (q : Nat) (r : erow), E.row[q]? = some r →
    r.hl = List.replicate r.rsize HL_NORMAL)

/-- The three-row document `/`, `x`, `y` as the editor holds it under the C profile. -/
def docSlash : xeditConfig :=
  mkConfig
    [ { idx := 0, chars := [47], render := [47], hl := [HL_NORMAL], hl_open_comment := false },
      { idx := 1, chars := [120], render := [120], hl := [HL_NORMAL], hl_open_comment := false },
      { idx := 2, chars := [121], render := [121], hl := [HL_NORMAL], hl_open_comment := false } ]
    (some HLDB_c) 24 80

/-! ## Successive key reads -/

/-- The keys that `n` successive calls of `XeditReadKey` return on the pending read results (the
main loop calls it once per `XeditProcessKeypress`); the list ends early when a call does not
return. -/
def XeditReadKey.events : Nat → List ReadResult → List Int
  | 0, _ => []
  | n + 1, input =>
    match XeditReadKey input with
    | Except.ok (k, rest) => k :: XeditReadKey.events n rest
    | Except.error _ => []

/-! ## Editor operations at the cursor -/

/-- Function `void XeditInsertNewLine()`.  With `E.cx != 0` the tail `&row->chars[E.cx]` of the
cursor row becomes a new row below it and the cursor row is cut at `E.cx`; the result is `none`
when the cursor row is outside the row array or `E.cx` is outside its bytes. -/
def XeditInsertNewLine (E : xeditConfig) : Option xeditConfig :=
  let done : Option xeditConfig :=
    if E.cx = 0 then XeditInsertRow E E.cy []
    else
      match arrayAt E.row E.cy with
      | none => none
      | some row =>
        if E.cx < 0 ∨ E.cx > row.size then none
        else
          match XeditInsertRow E (E.cy + 1) (row.chars.drop E.cx.toNat) with
          | none => none
          | some E1 =>
            match arrayAt E1.row E1.cy with
            | none => none
            | some row1 =>
              XeditUpdateRow
                { E1 with row := E1.row.set E1.cy.toNat { row1 with chars := row1.chars.take E1.cx.toNat } }
                E1.cy.toNat
  done.map (fun E2 => { E2 with cy := E2.cy + 1, cx := 0 })

/-- Function `void XeditDelChar()`; the result is `none` when a row it uses is outside the row
array. -/
def XeditDelChar (E : xeditConfig) : Option xeditConfig :=
  if E.cy = E.numrows then some E
  else if E.cx = 0 ∧ E.cy = 0 then some E
  else if E.cy < 0 then none
  else if E.cx > 0 then
    (XeditRowDelChar E E.cy.toNat (E.cx - 1)).map (fun E1 => { E1 with cx := E1.cx - 1 })
  else
    match arrayAt E.row (E.cy - 1), arrayAt E.row E.cy with
    | some prev, some row =>
      match XeditRowAppendString { E with cx := (prev.size : Int) } (E.cy - 1).toNat row.chars with
      | none => none
      | some E1 =>
        let E2 := XeditDelRow E1 E1.cy
        some { E2 with cy := E2.cy - 1 }
    | _, _ => none

/-- The document `ab`, `cd` under the C profile with the cursor on row 0, column 1. -/
def docNewLine : xeditConfig :=
  { mkConfig
      [ { idx := 0, chars := [97, 98], render := [97, 98], hl := [HL_NORMAL, HL_NORMAL],
          hl_open_comment := false },
        { idx := 1, chars := [99, 100], render := [99, 100], hl := [HL_NORMAL, HL_NORMAL],
          hl_open_comment := false } ]
      (some HLDB_c) 24 80 with cx := 1 }

/-- The one-row document `int` as the editor holds it without a profile, with the file name
`a.c`. -/
def docIntPlainC : xeditConfig :=
  { mkConfig
      [ { idx := 0, chars := [105, 110, 116], render := [105, 110, 116],
          hl := [HL_NORMAL, HL_NORMAL, HL_NORMAL], hl_open_comment := false } ]
      none 24 80 with dirty := 1, filename := some (cstr ['a', '.', 'c']) }
/-! # Theorems -/


/-! ## Tab expansion and cursor column -/

theorem pad_length_le (fuel : Nat) (render : List Nat) :
    (XeditUpdateRow.pad fuel render).length ≤ render.length + (8 - render.length % 8) % 8 := by
  induction fuel generalizing render with
  | zero => simp [XeditUpdateRow.pad]
  | succ f ih =>
    unfold XeditUpdateRow.pad
    split
    · rename_i h
      have h1 := ih (render ++ [32])
      simp only [XEDIT_TAB_STOP, List.length_append, List.length_singleton] at h h1
      omega
    · omega

theorem tabs_take_succ (chars : List Nat) (n : Nat) (h : n < chars.length) :
    XeditUpdateRow.tabs (chars.take (n + 1)) =
      XeditUpdateRow.tabs (chars.take n) + (if byteAt chars n = 9 then 1 else 0) := by
  simp only [XeditUpdateRow.tabs, byteAt, List.take_succ, List.getD_eq_getElem?_getD,
    List.getElem?_eq_getElem h, Option.toList_some, List.filter_append, List.length_append,
    Option.getD_some]
  by_cases h9 : chars[n] = 9 <;> simp [h9]

theorem render_length_le_aux (chars : List Nat) (n : Nat) (h : n ≤ chars.length) :
    (XeditUpdateRow.render chars n).length ≤ n + 7 * XeditUpdateRow.tabs (chars.take n) := by
  induction n with
  | zero => simp [XeditUpdateRow.render]
  | succ k ih =>
    have hk : k < chars.length := h
    have ih1 := ih (Nat.le_of_lt hk)
    rw [tabs_take_succ chars k hk]
    simp only [XeditUpdateRow.render]
    split
    · have hp := pad_length_le XEDIT_TAB_STOP (XeditUpdateRow.render chars k ++ [32])
      simp only [List.length_append, List.length_singleton] at hp
      omega
    · simp only [List.length_append, List.length_singleton]
      omega

/-- C2 (as stated, refuted): the raw bytes `a`, TAB render to eight bytes, not to
`2 + 7 * 1 = 9`. -/
theorem C2_render_length_counterexample :
    ¬ (∀ chars : List Nat, (XeditUpdateRow.render chars chars.length).length =
        chars.length + 7 * XeditUpdateRow.tabs chars) := by
  intro h
  have h1 := h [97, 9]
  revert h1
  decide

/-- C2 (amended): for every raw byte sequence the render built by `XeditUpdateRow` under tab
stop 8 has length at most `len(raw) + 7 * tabs(raw)`. -/
theorem C2_render_length_le (chars : List Nat) :
    (XeditUpdateRow.render chars chars.length).length ≤
      chars.length + 7 * XeditUpdateRow.tabs chars := by
  have h := render_length_le_aux chars chars.length (Nat.le_refl _)
  simpa using h

theorem XeditScroll_of_rx (E : xeditConfig) (rx : Int)
    (h : (if E.cy < E.numrows then
        (arrayAt E.row E.cy).map (fun row => XeditRowCxToRx row E.cx) else some 0) = some rx) :
    ∃ E1, XeditScroll E = some E1 ∧ E1.rx = rx ∧ E1.cy = E.cy ∧ E1.cx = E.cx ∧
      E1.numrows = E.numrows ∧ E1.row = E.row ∧ E1.screenrows = E.screenrows ∧
      E1.screencols = E.screencols ∧
      E1.rowoff = XeditScroll.axis E.cy E.rowoff E.screenrows ∧
      E1.coloff = XeditScroll.axis rx E.coloff E.screencols := by
  unfold XeditScroll XeditScroll.axis
  rw [h]
  refine ⟨_, rfl, ?_⟩
  dsimp only
  split_ifs <;> simp_all

theorem cursorRx_of_row (E : xeditConfig)
    (hrow : E.cy < E.numrows → ∃ row, arrayAt E.row E.cy = some row) :
    (if E.cy < E.numrows then
      (arrayAt E.row E.cy).map (fun row => XeditRowCxToRx row E.cx) else some 0) =
      some (cursorRx E) := by
  unfold cursorRx
  split_ifs with hcy
  · obtain ⟨row, hrow1⟩ := hrow hcy
    simp [hrow1]
  · rfl

theorem axis_in_window (c off n : Int) (hc : isInt c) (ho : isInt off) (hn : isInt n)
    (h1 : 1 ≤ n) :
    XeditScroll.axis c off n ≤ c ∧ c < XeditScroll.axis c off n + n ∧
      isInt (XeditScroll.axis c off n) := by
  unfold isInt INT_MIN INT_MAX at *
  unfold XeditScroll.axis wrapInt
  dsimp only
  split_ifs <;> omega

theorem axis_idempotent (c off n : Int) (hc : isInt c) (ho : isInt off) (hn : isInt n)
    (h1 : 1 ≤ n) :
    XeditScroll.axis c (XeditScroll.axis c off n) n = XeditScroll.axis c off n := by
  unfold isInt INT_MIN INT_MAX at *
  unfold XeditScroll.axis wrapInt
  dsimp only
  split_ifs <;> omega

theorem axis_unchanged (c off n : Int) (hc : isInt c) (h1 : off ≤ c) (h2 : c < off + n)
    (h3 : off + n ≤ INT_MAX) :
    XeditScroll.axis c off n = off := by
  unfold isInt INT_MIN INT_MAX at *
  unfold XeditScroll.axis wrapInt
  dsimp only
  split_ifs <;> omega

/-- C9: for every state of `int` values with at least one screen row and one screen column,
`XeditScroll` (which returns whenever the cursor row it reads exists, its sums computed in
`int`) leaves the cursor inside the window: `rowoff <= cy < rowoff + screenrows` and
`coloff <= rx < coloff + screencols`, `rx` being the render column computed for the cursor. -/
theorem C9_scroll_cursor_in_window (E : xeditConfig) (hr : 1 ≤ E.screenrows)
    (hc : 1 ≤ E.screencols) (hint : XeditScroll.ints E)
    (hrow : E.cy < E.numrows → ∃ row, arrayAt E.row E.cy = some row) :
    ∃ E1, XeditScroll E = some E1 ∧
      E1.cy = E.cy ∧ E1.cx = E.cx ∧ E1.screenrows = E.screenrows ∧
      E1.screencols = E.screencols ∧
      E1.rx = (if E.cy < E.numrows then
        ((arrayAt E.row E.cy).map (fun row => XeditRowCxToRx row E.cx)).getD 0 else 0) ∧
      E1.rowoff ≤ E1.cy ∧ E1.cy < E1.rowoff + E1.screenrows ∧
      E1.coloff ≤ E1.rx ∧ E1.rx < E1.coloff + E1.screencols := by
  obtain ⟨i1, i2, i3, i4, i5, i6⟩ := hint
  obtain ⟨E1, h1, e1, e2, e3, _, _, e6, e7, e8, e9⟩ :=
    XeditScroll_of_rx E (cursorRx E) (cursorRx_of_row E hrow)
  obtain ⟨a1, a2, _⟩ := axis_in_window E.cy E.rowoff E.screenrows i1 i2 i4 hr
  obtain ⟨b1, b2, _⟩ := axis_in_window (cursorRx E) E.coloff E.screencols i6 i3 i5 hc
  refine ⟨E1, h1, e2, e3, e6, e7, e1, ?_, ?_, ?_, ?_⟩
  · rw [e8, e2]; exact a1
  · rw [e8, e2, e6]; exact a2
  · rw [e9, e1]; exact b1
  · rw [e9, e1, e7]; exact b2

/-! ## The scan loop returns -/

theorem scanStep_decreases (syn : xeditSyntax) (render : List Nat) (st st1 : ScanState)
    (hi : st.i < render.length) (h : scanStep syn render st = ScanStep.next st1) :
    scanMeasure render st1 < scanMeasure render st := by
  unfold scanStep at h
  dsimp only at h
  split_ifs at h with h1 h2 h3 h4 h5 h6 h7 h8
  all_goals (try (injection h with h; subst h; simp only [scanMeasure]; split_ifs <;> omega))
  all_goals (split at h <;> injection h with h <;> subst h <;> simp only [scanMeasure] <;>
    split_ifs <;> simp_all <;> omega)

theorem scanLoop_total (syn : xeditSyntax) (render : List Nat) (fuel : Nat) (st : ScanState)
    (h : scanMeasure render st < fuel) : ∃ st1, scanLoop syn render fuel st = some st1 := by
  induction fuel generalizing st with
  | zero => omega
  | succ f ih =>
    unfold scanLoop
    split_ifs with hi
    · cases hs : scanStep syn render st with
      | next st1 =>
        have hd := scanStep_decreases syn render st st1 hi hs
        exact ih st1 (by omega)
      | stop st1 => exact ⟨st1, rfl⟩
    · exact ⟨st, rfl⟩

theorem scanInit_measure (render : List Nat) (b : Bool) :
    scanMeasure render (scanInit render b) < 2 * render.length + 2 := by
  simp [scanMeasure, scanInit]

theorem highlightRow_total (syn : xeditSyntax) (render : List Nat) (b : Bool) :
    ∃ res, highlightRow syn render b = some res := by
  obtain ⟨st, hst⟩ := scanLoop_total syn render _ _ (scanInit_measure render b)
  exact ⟨(st.hl, st.in_comment), by simp [highlightRow, hst]⟩

/-! ## The cascade of `XeditUpdateSyntax`: what it leaves alone, and that it returns -/

theorem map_text_set (rows : List erow) (p : Nat) (row r1 : erow) (hp : rows[p]? = some row)
    (ht : r1.text = row.text) : (rows.set p r1).map erow.text = rows.map erow.text := by
  apply List.ext_getElem?
  intro k
  simp only [List.getElem?_map, List.getElem?_set]
  split_ifs with h1 h2
  · subst h1
    simp [hp, ht]
  · subst h1
    obtain ⟨hlt, _⟩ := List.getElem?_eq_some.mp hp
    omega
  · rfl

theorem numberedRows_of_map_text (rows rows1 : List erow)
    (h : rows1.map erow.text = rows.map erow.text) (hn : numberedRows rows) :
    numberedRows rows1 := by
  intro k r hr
  have h1 : (rows1.map erow.text)[k]? = (rows.map erow.text)[k]? := by rw [h]
  simp only [List.getElem?_map, hr, Option.map_some'] at h1
  cases hk : rows[k]? with
  | none => simp [hk] at h1
  | some r0 =>
    simp only [hk, Option.map_some', Option.some.injEq, erow.text, Prod.mk.injEq] at h1
    rw [h1.1]
    exact hn k r0 hk

theorem XeditUpdateSyntax_frame (fuel : Nat) (E E1 : xeditConfig) (p : Nat)
    (h : XeditUpdateSyntax fuel E p = some E1) :
    E1 = { E with row := E1.row } ∧ E1.row.map erow.text = E.row.map erow.text := by
  induction fuel generalizing E p with
  | zero => simp [XeditUpdateSyntax] at h
  | succ f ih =>
    unfold XeditUpdateSyntax at h
    split at h
    · simp at h
    · rename_i row hrow
      split at h
      · injection h with h
        subst h
        exact ⟨rfl, map_text_set _ _ _ _ hrow rfl⟩
      · rename_i syn hsyn
        split at h
        · simp at h
        · split at h
          · simp at h
          · rename_i st hst
            dsimp only at h
            split_ifs at h with hc hneg
            · obtain ⟨h1, h2⟩ := ih _ _ h
              refine ⟨?_, ?_⟩
              · rw [h1]
              · rw [h2]
                exact map_text_set _ _ _ _ hrow rfl
            · injection h with h
              subst h
              exact ⟨rfl, map_text_set _ _ _ _ hrow rfl⟩

theorem XeditUpdateSyntax_total (fuel : Nat) (E : xeditConfig) (p : Nat)
    (hnum : numberedRows E.row) (hn : E.numrows ≤ (E.row.length : Int))
    (hp : p < E.row.length) (hf : E.row.length - p < fuel) :
    ∃ E1, XeditUpdateSyntax fuel E p = some E1 := by
  induction fuel generalizing E p with
  | zero => omega
  | succ f ih =>
    unfold XeditUpdateSyntax
    have hrow : E.row[p]? = some E.row[p] := List.getElem?_eq_getElem hp
    have hidx : E.row[p].idx = (p : Int) := hnum p _ hrow
    rw [hrow]
    dsimp only
    cases hsyn : E.syn with
    | none => exact ⟨_, rfl⟩
    | some syn =>
      dsimp only
      have hseed : ∃ b, (if E.row[p].idx > 0 then
          (arrayAt E.row (E.row[p].idx - 1)).map (fun r => r.hl_open_comment)
          else some false) = some b := by
        split_ifs with h0
        · have hlt : (E.row[p].idx - 1).toNat < E.row.length := by omega
          refine ⟨E.row[(E.row[p].idx - 1).toNat].hl_open_comment, ?_⟩
          have hnn : ¬ (E.row[p].idx - 1 < 0) := by omega
          rw [arrayAt, if_neg hnn, List.getElem?_eq_getElem hlt]
          rfl
        · exact ⟨false, rfl⟩
      obtain ⟨b, hb⟩ := hseed
      rw [hb]
      dsimp only
      obtain ⟨st, hst⟩ := scanLoop_total syn E.row[p].render (2 * E.row[p].rsize + 2)
        (scanInit E.row[p].render b) (scanInit_measure _ b)
      rw [hst]
      dsimp only
      split_ifs with hc hneg
      · omega
      · apply ih
        · apply numberedRows_of_map_text E.row _ _ hnum
          exact map_text_set _ _ _ _ hrow rfl
        · simpa using hn
        · simp only [List.length_set]
          omega
        · simp only [List.length_set]
          omega
      · exact ⟨_, rfl⟩
/-! ## Row store: insert and delete -/

theorem numberedRows_insert (rows : List erow) (a : Nat) (fresh : erow) (ha : a ≤ rows.length)
    (hf : fresh.idx = (a : Int)) (hn : numberedRows rows) :
    numberedRows (rows.take a ++ fresh :: (rows.drop a).map (fun r => { r with idx := r.idx + 1 })) := by
  intro k r hr
  rcases Nat.lt_trichotomy k a with hlt | heq | hgt
  · rw [List.getElem?_append_left (by simp; omega)] at hr
    rw [List.getElem?_take_of_lt hlt] at hr
    exact hn k r hr
  · subst heq
    rw [List.getElem?_append_right (by simp)] at hr
    simp only [List.length_take, Nat.min_eq_left ha, Nat.sub_self, List.getElem?_cons_zero,
      Option.some.injEq] at hr
    rw [← hr, hf]
  · rw [List.getElem?_append_right (by simp; omega)] at hr
    simp only [List.length_take, Nat.min_eq_left ha] at hr
    obtain ⟨d, hd⟩ : ∃ d, k - a = d + 1 := ⟨k - a - 1, by omega⟩
    rw [hd, List.getElem?_cons_succ, List.getElem?_map, List.getElem?_drop] at hr
    cases hg : rows[a + d]? with
    | none => simp [hg] at hr
    | some r0 =>
      simp only [hg, Option.map_some', Option.some.injEq] at hr
      have := hn _ _ hg
      rw [← hr]
      simp only
      omega

theorem numberedRows_delete (rows : List erow) (a : Nat) (hn : numberedRows rows) :
    numberedRows (rows.take a ++ (rows.drop (a + 1)).map (fun r => { r with idx := r.idx - 1 })) := by
  intro k r hr
  rcases Nat.lt_or_ge k a with hlt | hge
  · by_cases hk : k < rows.length
    · rw [List.getElem?_append_left (by simp; omega)] at hr
      rw [List.getElem?_take_of_lt hlt] at hr
      exact hn k r hr
    · rw [List.getElem?_append_right (by simp; omega)] at hr
      simp only [List.getElem?_map, List.getElem?_drop] at hr
      rw [List.getElem?_eq_none (by simp; omega)] at hr
      simp at hr
  · rw [List.getElem?_append_right (by simp; omega)] at hr
    simp only [List.getElem?_map, List.getElem?_drop, List.length_take] at hr
    cases hg : rows[a + 1 + (k - min a rows.length)]? with
    | none => simp [hg] at hr
    | some r0 =>
      simp only [hg, Option.map_some', Option.some.injEq] at hr
      have h1 := hn _ _ hg
      obtain ⟨hlt, _⟩ := List.getElem?_eq_some.mp hg
      rw [← hr]
      simp only
      omega

theorem XeditUpdateRow_spec (E : xeditConfig) (p : Nat) (hnum : numberedRows E.row)
    (hn : E.numrows ≤ (E.row.length : Int)) (hp : p < E.row.length) :
    ∃ E1, XeditUpdateRow E p = some E1 ∧ E1 = { E with row := E1.row } ∧
      E1.row.map erow.text = E.row.map erow.text := by
  unfold XeditUpdateRow
  have hrow : E.row[p]? = some E.row[p] := List.getElem?_eq_getElem hp
  rw [hrow]
  dsimp only
  have hm := map_text_set E.row p E.row[p]
    { E.row[p] with render := XeditUpdateRow.render E.row[p].chars E.row[p].size } hrow rfl
  obtain ⟨E1, hE1⟩ := XeditUpdateSyntax_total (E.row.length + 1)
    { E with row := E.row.set p { E.row[p] with render := XeditUpdateRow.render E.row[p].chars E.row[p].size } } p
    (numberedRows_of_map_text _ _ hm hnum) (by simpa using hn) (by simpa using hp)
    (by simp only [List.length_set]; omega)
  refine ⟨E1, hE1, ?_⟩
  obtain ⟨h1, h2⟩ := XeditUpdateSyntax_frame _ _ _ _ hE1
  refine ⟨?_, ?_⟩
  · rw [h1]
  · rw [h2, hm]

theorem XeditInsertRow_spec (E : xeditConfig) (at_ : Int) (s : List Nat) (hE : numbered E)
    (h0 : 0 ≤ at_) (h1 : at_ ≤ E.numrows) :
    ∃ E1, XeditInsertRow E at_ s = some E1 ∧
      E1 = { E with row := E1.row, numrows := E.numrows + 1, dirty := E.dirty + 1 } ∧
      E1.row.map erow.text =
        (E.row.take at_.toNat ++ mkRow at_ s ::
          (E.row.drop at_.toNat).map (fun r => { r with idx := r.idx + 1 })).map erow.text := by
  obtain ⟨hlen, hnum⟩ := hE
  unfold XeditInsertRow
  rw [if_neg (by omega)]
  dsimp only
  have ha : at_.toNat ≤ E.row.length := by omega
  obtain ⟨E1, hE1, hf1, hf2⟩ := XeditUpdateRow_spec
    { E with row := E.row.take at_.toNat ++ ({ idx := at_, chars := s, render := [], hl := [], hl_open_comment := false } : erow) :: (E.row.drop at_.toNat).map (fun r => { r with idx := r.idx + 1 }) } at_.toNat
    (numberedRows_insert E.row at_.toNat _ ha (by simp; omega) hnum)
    (by simp; omega) (by simp; omega)
  rw [hE1]
  refine ⟨_, rfl, ?_, ?_⟩
  · rw [hf1]
  · rw [hf2]
    rfl
theorem XeditInsertRow_numbered (E : xeditConfig) (at_ : Int) (s : List Nat) (hE : numbered E) :
    ∃ E1, XeditInsertRow E at_ s = some E1 ∧ numbered E1 := by
  by_cases hr : at_ < 0 ∨ at_ > E.numrows
  · exact ⟨E, by simp [XeditInsertRow, hr], hE⟩
  · obtain ⟨E1, h1, h2, h3⟩ := XeditInsertRow_spec E at_ s hE (by omega) (by omega)
    refine ⟨E1, h1, ?_, ?_⟩
    · have hl := congrArg List.length h3
      simp only [List.length_map, List.length_append, List.length_cons, List.length_take,
        List.length_drop] at hl
      rw [h2]
      simp only
      have := hE.1
      omega
    · apply numberedRows_of_map_text _ _ h3
      have := hE.1
      exact numberedRows_insert E.row at_.toNat _ (by omega) (by simp [mkRow]; omega) hE.2

theorem XeditDelRow_numbered (E : xeditConfig) (at_ : Int) (hE : numbered E) :
    numbered (XeditDelRow E at_) := by
  unfold XeditDelRow
  split_ifs with hr
  · exact hE
  · have := hE.1
    refine ⟨?_, numberedRows_delete E.row at_.toNat hE.2⟩
    simp only [List.length_append, List.length_take, List.length_map, List.length_drop]
    omega

theorem applyRowOps_numbered (ops : List RowOp) (E : xeditConfig) (hE : numbered E) :
    ∃ E1, applyRowOps E ops = some E1 ∧ numbered E1 := by
  induction ops generalizing E with
  | nil => exact ⟨E, rfl, hE⟩
  | cons op ops ih =>
    cases op with
    | insert at_ s =>
      obtain ⟨E1, h1, h2⟩ := XeditInsertRow_numbered E at_ s hE
      obtain ⟨E2, h3, h4⟩ := ih E1 h2
      exact ⟨E2, by simp [applyRowOps, h1, h3], h4⟩
    | delete at_ =>
      obtain ⟨E2, h3, h4⟩ := ih _ (XeditDelRow_numbered E at_ hE)
      exact ⟨E2, by simp [applyRowOps, h3], h4⟩

theorem take_append_cons_cancel {α : Type} (X : List α) (a : Nat) (y : α) (Z : List α)
    (ha : a ≤ X.length) :
    (X.take a ++ y :: Z).take a = X.take a ∧ (X.take a ++ y :: Z).drop (a + 1) = Z := by
  have hlen : (X.take a).length = a := by simp; omega
  constructor
  · exact List.take_left' hlen
  · have : X.take a ++ y :: Z = (X.take a ++ [y]) ++ Z := by simp
    rw [this]
    exact List.drop_left' (by simp; omega)

theorem insert_delete_text (E E1 : xeditConfig) (at_ : Int) (s : List Nat) (hE : numbered E)
    (h0 : 0 ≤ at_) (h1 : at_ ≤ E.numrows)
    (h2 : E1 = { E with row := E1.row, numrows := E.numrows + 1, dirty := E.dirty + 1 })
    (h3 : E1.row.map erow.text =
        (E.row.take at_.toNat ++ mkRow at_ s ::
          (E.row.drop at_.toNat).map (fun r => { r with idx := r.idx + 1 })).map erow.text) :
    (XeditDelRow E1 at_).numrows = E.numrows ∧
      (XeditDelRow E1 at_).row.map erow.text = E.row.map erow.text := by
  have hlen := hE.1
  have hn1 : E1.numrows = E.numrows + 1 := by rw [h2]
  have ha : at_.toNat ≤ (E.row.map erow.text).length := by simp; omega
  unfold XeditDelRow
  rw [if_neg (by omega)]
  dsimp only
  refine ⟨by omega, ?_⟩
  have hdec : ∀ l : List erow, (l.map (fun r => { r with idx := r.idx - 1 })).map erow.text =
      (l.map erow.text).map (fun t => (t.1 - 1, t.2)) := by
    intro l
    simp [erow.text, Function.comp_def]
  have hinc : ∀ l : List erow, (l.map (fun r => { r with idx := r.idx + 1 })).map erow.text =
      (l.map erow.text).map (fun t => (t.1 + 1, t.2)) := by
    intro l
    simp [erow.text, Function.comp_def]
  rw [List.map_append, hdec, List.map_take, List.map_drop, h3, List.map_append, List.map_cons,
    hinc, List.map_take, List.map_drop]
  obtain ⟨c1, c2⟩ := take_append_cons_cancel (E.row.map erow.text) at_.toNat (mkRow at_ s).text
    (((E.row.map erow.text).drop at_.toNat).map (fun t => (t.1 + 1, t.2))) ha
  rw [c1, c2, List.map_map]
  have hid : ((fun t : Int × List Nat => (t.1 - 1, t.2)) ∘ fun t => (t.1 + 1, t.2)) = id := by
    funext t
    simp
  rw [hid, List.map_id, List.take_append_drop]

/-- C3: on a document whose rows are numbered exactly, for every position `at` and every byte
string `s`, `XeditInsertRow(at, s)` returns and a following `XeditDelRow(at)` leaves `numrows`,
the raw bytes of every row and the `idx` of every row as they were before the two calls. -/
theorem C3_insert_then_delete_restores (E : xeditConfig) (at_ : Int) (s : List Nat)
    (hE : numbered E) :
    ∃ E1, XeditInsertRow E at_ s = some E1 ∧
      (XeditDelRow E1 at_).numrows = E.numrows ∧
      (XeditDelRow E1 at_).row.map (fun r => r.chars) = E.row.map (fun r => r.chars) ∧
      (XeditDelRow E1 at_).row.map (fun r => r.idx) = E.row.map (fun r => r.idx) := by
  have key : ∃ E1, XeditInsertRow E at_ s = some E1 ∧
      (XeditDelRow E1 at_).numrows = E.numrows ∧
      (XeditDelRow E1 at_).row.map erow.text = E.row.map erow.text := by
    by_cases hr : at_ < 0 ∨ at_ > E.numrows
    · refine ⟨E, by simp [XeditInsertRow, hr], ?_⟩
      have hd : XeditDelRow E at_ = E := by
        unfold XeditDelRow
        rw [if_pos (by omega)]
      rw [hd]
      exact ⟨rfl, rfl⟩
    · obtain ⟨E1, h1, h2, h3⟩ := XeditInsertRow_spec E at_ s hE (by omega) (by omega)
      exact ⟨E1, h1, insert_delete_text E E1 at_ s hE (by omega) (by omega) h2 h3⟩
  obtain ⟨E1, h1, h2, h3⟩ := key
  refine ⟨E1, h1, h2, ?_, ?_⟩
  · have := congrArg (List.map Prod.snd) h3
    simpa [erow.text, Function.comp_def] using this
  · have := congrArg (List.map Prod.fst) h3
    simpa [erow.text, Function.comp_def] using this
theorem text_getElem? (rows1 rows2 : List erow) (h : rows1.map erow.text = rows2.map erow.text)
    (j : Nat) : (rows1[j]?).map erow.text = (rows2[j]?).map erow.text := by
  have h1 : (rows1.map erow.text)[j]? = (rows2.map erow.text)[j]? := by rw [h]
  simpa using h1

theorem numberedFrom_sound (rows : List erow) (n : Nat) (h : numberedFrom (n : Int) rows = true) :
    ∀ (k : Nat) (r : erow), rows[k]? = some r → r.idx = ((n + k : Nat) : Int) := by
  induction rows generalizing n with
  | nil => intro k r hr; simp at hr
  | cons r0 rs ih =>
    simp only [numberedFrom, Bool.and_eq_true, decide_eq_true_eq] at h
    intro k r hr
    cases k with
    | zero =>
      simp only [List.getElem?_cons_zero, Option.some.injEq] at hr
      rw [← hr, h.1]
      simp
    | succ k =>
      simp only [List.getElem?_cons_succ] at hr
      have := ih (n + 1) (by simpa using h.2) k r hr
      rw [this]
      congr 1
      omega

theorem numbered_of_check (E : xeditConfig) (h1 : E.numrows = (E.row.length : Int))
    (h2 : numberedFrom 0 E.row = true) : numbered E := by
  refine ⟨h1, ?_⟩
  intro k r hr
  have := numberedFrom_sound E.row 0 (by simpa using h2) k r hr
  simpa using this

theorem docOpenComment_numbered : numbered docOpenComment :=
  numbered_of_check _ (by decide) (by decide)

theorem C3_insert_then_delete_restores_witness :
    numbered docOpenComment ∧
      ∃ E1, XeditInsertRow docOpenComment 1 [42, 47] = some E1 ∧
        (XeditDelRow E1 1).numrows = docOpenComment.numrows ∧
        (XeditDelRow E1 1).row.map (fun r => r.chars) = docOpenComment.row.map (fun r => r.chars) ∧
        (XeditDelRow E1 1).row.map (fun r => r.idx) = docOpenComment.row.map (fun r => r.idx) :=
  ⟨docOpenComment_numbered,
    C3_insert_then_delete_restores docOpenComment 1 [42, 47] docOpenComment_numbered⟩

theorem C9_scroll_cursor_in_window_witness :
    1 ≤ docScroll.screenrows ∧ 1 ≤ docScroll.screencols ∧ XeditScroll.ints docScroll ∧
      ∃ E1, XeditScroll docScroll = some E1 ∧
        E1.cy = docScroll.cy ∧ E1.cx = docScroll.cx ∧ E1.screenrows = docScroll.screenrows ∧
        E1.screencols = docScroll.screencols ∧
        E1.rx = (if docScroll.cy < docScroll.numrows then
          ((arrayAt docScroll.row docScroll.cy).map
            (fun row => XeditRowCxToRx row docScroll.cx)).getD 0 else 0) ∧
        E1.rowoff ≤ E1.cy ∧ E1.cy < E1.rowoff + E1.screenrows ∧
        E1.coloff ≤ E1.rx ∧ E1.rx < E1.coloff + E1.screencols :=
  ⟨by decide, by decide, by decide,
    C9_scroll_cursor_in_window docScroll (by decide) (by decide) (by decide)
      (fun _ => ⟨_, rfl⟩)⟩

/-- C1 (the code departs from it): the document `/*`, `x` is built by two `XeditInsertRow` calls
and satisfies the property (its flags are those of a pass from row 0).  After `XeditDelRow(0)`
the remaining row `x` still has `hl_open_comment` set although no comment is open in the
document; after `XeditInsertRow(1, "*/")` instead, the row `x`, now third, still has the flag set
although the comment is closed on the row before it. -/
theorem C1_row_mutation_leaves_stale_flag :
    applyRowOps (emptyConfig (some HLDB_c)) [RowOp.insert 0 [47, 42], RowOp.insert 1 [120]] =
        some docOpenComment ∧
      fullPass HLDB_c false (docOpenComment.row.map (fun r => r.render)) =
        some (docOpenComment.row.map (fun r => (r.hl, r.hl_open_comment))) ∧
      (XeditDelRow docOpenComment 0).row.map (fun r => (r.render, r.hl_open_comment)) =
        [([120], true)] ∧
      (fullPass HLDB_c false [[120]]).map (fun l => l.map Prod.snd) = some [false] ∧
      (XeditInsertRow docOpenComment 1 [42, 47]).map
          (fun E => E.row.map (fun r => (r.render, r.hl_open_comment))) =
        some [([47, 42], true), ([42, 47], false), ([120], true)] ∧
      (fullPass HLDB_c false [[47, 42], [42, 47], [120]]).map (fun l => l.map Prod.snd) =
        some [true, false, false] := by
  refine ⟨?_, ?_, ?_, ?_, ?_, ?_⟩ <;> decide

/-- C6 (as stated, refuted): the row `int` was highlighted under the C profile and the file
name is now `a.txt`, which matches no profile.  `XeditSelectSyntaxHighlight` clears the
profile and returns without visiting the row, whose `hl` keeps the three `HL_TYPES` entries of
the previous profile, where the engine run on that row without a profile gives `HL_NORMAL`. -/
theorem C6_no_match_keeps_stale_highlight :
    applyRowOps (emptyConfig (some HLDB_c)) [RowOp.insert 0 [105, 110, 116]] =
        some { docIntTxt with filename := none } ∧
      (XeditSelectSyntaxHighlight docIntTxt).map (fun E => (E.syn, E.row.map (fun r => r.hl))) =
        some (none, [[HL_TYPES, HL_TYPES, HL_TYPES]]) ∧
      (XeditUpdateSyntax 2 { docIntTxt with syn := none } 0).map
          (fun E => E.row.map (fun r => r.hl)) =
        some [[HL_NORMAL, HL_NORMAL, HL_NORMAL]] := by
  refine ⟨?_, ?_, ?_⟩ <;> decide
/-! ## Block comments across rows -/

theorem byteAt_drop (r : List Nat) (i j : Nat) : byteAt (r.drop i) j = byteAt r (i + j) := by
  simp [byteAt, List.getD_eq_getElem?_getD, List.getElem?_drop]

theorem strncmpEq_two (r : List Nat) (i a b : Nat) (ha : a ≠ 0) (hb : b ≠ 0) :
    strncmpEq (r.drop i) [a, b] 2 = true ↔ occursAt r a b i := by
  have h1 : byteAt (r.drop i) 0 = byteAt r i := by rw [byteAt_drop]; rfl
  have h2 : byteAt (r.drop i).tail 0 = byteAt r (i + 1) := by
    rw [List.tail_drop, byteAt_drop]
  simp only [strncmpEq, h1, h2, occursAt]
  have e1 : byteAt [a, b] 0 = a := rfl
  have e2 : byteAt [a, b].tail 0 = b := rfl
  rw [e1, e2]
  by_cases c1 : byteAt r i = a
  · by_cases c2 : byteAt r (i + 1) = b
    · simp [c1, c2, ha, hb]
    · simp [c1, c2, ha]
  · simp [c1]

theorem HLDB_c_scs : HLDB_c.singleline_comment_start = some [47, 47] := by decide

theorem HLDB_c_mcs : HLDB_c.multiline_comment_start = some [47, 42] := by decide

theorem HLDB_c_mce : HLDB_c.multiline_comment_end = some [42, 47] := by decide

theorem HLDB_c_flags : HLDB_c.flags = 3 := by decide

theorem scanStep_c_in_comment (r : List Nat) (st : ScanState) (hc : st.in_comment = true)
    (hs : st.in_string = 0) :
    ∃ st1, scanStep HLDB_c r st = ScanStep.next st1 ∧ st1.in_string = 0 ∧
      (occursAt r 42 47 st.i → st1.i = st.i + 2 ∧ st1.in_comment = false) ∧
      (¬ occursAt r 42 47 st.i → st1.i = st.i + 1 ∧ st1.in_comment = true) := by
  have hm := strncmpEq_two r st.i 42 47 (by decide) (by decide)
  unfold scanStep
  simp only [HLDB_c_scs, HLDB_c_mcs, HLDB_c_mce, cstrlen, hc, hs, Option.getD_some,
    List.length_cons, List.length_nil]
  by_cases ho : occursAt r 42 47 st.i
  · have := hm.mpr ho
    simp_all
  · have : ¬ strncmpEq (List.drop st.i r) [42, 47] 2 = true := fun h => ho (hm.mp h)
    simp_all
theorem occursAt_lt_length (r : List Nat) (a b i : Nat) (ha : a ≠ 0) (h : occursAt r a b i) :
    i < r.length := by
  by_contra hge
  have : byteAt r i = 0 := by
    simp [byteAt, List.getD_eq_getElem?_getD, List.getElem?_eq_none (Nat.le_of_not_lt hge)]
  exact ha (h.1.symm.trans this)

theorem scanStep_c_opens (r : List Nat) (st : ScanState) (hc : st.in_comment = false)
    (hs : st.in_string = 0) (ho : occursAt r 47 42 st.i) :
    ∃ st1, scanStep HLDB_c r st = ScanStep.next st1 ∧ st1.in_string = 0 ∧
      st1.i = st.i + 2 ∧ st1.in_comment = true := by
  have hm := (strncmpEq_two r st.i 47 42 (by decide) (by decide)).mpr ho
  have hn : ¬ strncmpEq (List.drop st.i r) [47, 47] 2 = true := by
    intro h
    have h1 := (strncmpEq_two r st.i 47 47 (by decide) (by decide)).mp h
    have := h1.2.symm.trans ho.2
    omega
  unfold scanStep
  simp only [HLDB_c_scs, HLDB_c_mcs, HLDB_c_mce, cstrlen, hc, hs, Option.getD_some,
    List.length_cons, List.length_nil]
  simp_all

theorem scanStep_c_outside (r : List Nat) (st : ScanState) (hc : st.in_comment = false)
    (ho : ¬ occursAt r 47 42 st.i) :
    (∀ st1, scanStep HLDB_c r st = ScanStep.next st1 → st1.in_comment = false ∧ st.i ≤ st1.i) ∧
    (∀ st1, scanStep HLDB_c r st = ScanStep.stop st1 → st1.in_comment = false) := by
  have hn : ¬ strncmpEq (List.drop st.i r) [47, 42] 2 = true := fun h =>
    ho ((strncmpEq_two r st.i 47 42 (by decide) (by decide)).mp h)
  constructor
  · intro st1 h
    unfold scanStep at h
    simp only [HLDB_c_scs, HLDB_c_mcs, HLDB_c_mce, cstrlen, hc, Option.getD_some,
      List.length_cons, List.length_nil] at h
    split_ifs at h
    all_goals (try (injection h with h; subst h; simp; done))
    all_goals (try (exfalso; simp_all; done))
    all_goals (split at h <;> injection h with h <;> subst h <;> simp)
  · intro st1 h
    unfold scanStep at h
    simp only [HLDB_c_scs, HLDB_c_mcs, HLDB_c_mce, cstrlen, hc, Option.getD_some,
      List.length_cons, List.length_nil] at h
    split_ifs at h
    all_goals (try (injection h with h; subst h; simp [hc]))
    all_goals (split at h <;> contradiction)

theorem comment_stays_open (r : List Nat) (fuel : Nat) (st res : ScanState)
    (hc : st.in_comment = true) (hs : st.in_string = 0)
    (hno : ∀ j, st.i ≤ j → ¬ occursAt r 42 47 j)
    (h : scanLoop HLDB_c r fuel st = some res) : res.in_comment = true := by
  induction fuel generalizing st with
  | zero => simp [scanLoop] at h
  | succ f ih =>
    unfold scanLoop at h
    split_ifs at h with hi
    · obtain ⟨st1, e1, e2, _, e4⟩ := scanStep_c_in_comment r st hc hs
      obtain ⟨e5, e6⟩ := e4 (hno st.i (Nat.le_refl _))
      rw [e1] at h
      exact ih st1 e6 e2 (fun j hj => hno j (by omega)) h
    · injection h with h
      rw [← h]
      exact hc

theorem comment_closes (r : List Nat) (k fuel : Nat) (st res : ScanState)
    (hc : st.in_comment = true) (hs : st.in_string = 0) (hk : st.i ≤ k)
    (hat : occursAt r 42 47 k) (hno : ∀ j, st.i ≤ j → j < k → ¬ occursAt r 42 47 j)
    (h : scanLoop HLDB_c r fuel st = some res) :
    ∃ fuel1 st1, scanLoop HLDB_c r fuel1 st1 = some res ∧ st1.i = k + 2 ∧
      st1.in_comment = false := by
  induction fuel generalizing st with
  | zero => simp [scanLoop] at h
  | succ f ih =>
    have hlt := occursAt_lt_length r 42 47 k (by decide) hat
    unfold scanLoop at h
    rw [if_pos (by omega)] at h
    obtain ⟨st1, e1, e2, e3, e4⟩ := scanStep_c_in_comment r st hc hs
    rw [e1] at h
    by_cases hik : st.i = k
    · obtain ⟨e5, e6⟩ := e3 (hik ▸ hat)
      exact ⟨f, st1, h, by omega, e6⟩
    · obtain ⟨e5, e6⟩ := e4 (hno st.i (Nat.le_refl _) (by omega))
      exact ih st1 e6 e2 (by omega) (fun j hj hjk => hno j (by omega) hjk) h

theorem comment_not_reopened (r : List Nat) (fuel : Nat) (st res : ScanState)
    (hc : st.in_comment = false) (hno : ∀ j, st.i ≤ j → ¬ occursAt r 47 42 j)
    (h : scanLoop HLDB_c r fuel st = some res) : res.in_comment = false := by
  induction fuel generalizing st with
  | zero => simp [scanLoop] at h
  | succ f ih =>
    unfold scanLoop at h
    split_ifs at h with hi
    · obtain ⟨e1, e2⟩ := scanStep_c_outside r st hc (hno st.i (Nat.le_refl _))
      cases hstep : scanStep HLDB_c r st with
      | next st1 =>
        rw [hstep] at h
        obtain ⟨e3, e4⟩ := e1 st1 hstep
        exact ih st1 e3 (fun j hj => hno j (by omega)) h
      | stop st1 =>
        rw [hstep] at h
        injection h with h
        rw [← h]
        exact e2 st1 hstep
    · injection h with h
      rw [← h]
      exact hc

theorem scanLoop_of_reach (syn : xeditSyntax) (r : List Nat) (st st1 : ScanState)
    (hr : ScanReach syn r st st1) :
    ∀ (fuel : Nat) (res : ScanState), scanLoop syn r fuel st = some res →
      ∃ fuel1, scanLoop syn r fuel1 st1 = some res := by
  induction hr with
  | refl st => exact fun fuel res h => ⟨fuel, h⟩
  | step st sa sb hi hs _ ih =>
    intro fuel res h
    cases fuel with
    | zero => simp [scanLoop] at h
    | succ f =>
      unfold scanLoop at h
      rw [if_pos hi, hs] at h
      exact ih f res h
theorem highlightRow_flag_of_loop (r : List Nat) (seed b : Bool)
    (h : ∀ res, scanLoop HLDB_c r (2 * r.length + 2) (scanInit r seed) = some res →
      res.in_comment = b) :
    ∃ hl, highlightRow HLDB_c r seed = some (hl, b) := by
  obtain ⟨st, hst⟩ := scanLoop_total HLDB_c r _ _ (scanInit_measure r seed)
  refine ⟨st.hl, ?_⟩
  simp [highlightRow, hst, h st hst]

theorem highlightRow_flag_open (r : List Nat) (seed : Bool) (st : ScanState)
    (hreach : ScanReach HLDB_c r (scanInit r seed) st) (hs : st.in_string = 0)
    (hc : st.in_comment = false) (ho : occursAt r 47 42 st.i)
    (hno : ∀ j, ¬ occursAt r 42 47 j) :
    ∃ hl, highlightRow HLDB_c r seed = some (hl, true) := by
  apply highlightRow_flag_of_loop
  intro res hres
  obtain ⟨f1, h1⟩ := scanLoop_of_reach HLDB_c r _ _ hreach _ _ hres
  obtain ⟨st1, e1, e2, e3, e4⟩ := scanStep_c_opens r st hc hs ho
  have hlt := occursAt_lt_length r 47 42 st.i (by decide) ho
  cases f1 with
  | zero => simp [scanLoop] at h1
  | succ f =>
    unfold scanLoop at h1
    rw [if_pos hlt, e1] at h1
    exact comment_stays_open r f st1 res e4 e2 (fun j _ => hno j) h1

theorem highlightRow_flag_inside (r : List Nat) (hno : ∀ j, ¬ occursAt r 42 47 j) :
    ∃ hl, highlightRow HLDB_c r true = some (hl, true) := by
  apply highlightRow_flag_of_loop
  intro res hres
  exact comment_stays_open r _ _ res rfl rfl (fun j _ => hno j) hres

theorem highlightRow_flag_close (r : List Nat) (k : Nat) (hat : occursAt r 42 47 k)
    (hfirst : ∀ j, j < k → ¬ occursAt r 42 47 j)
    (hlater : ∀ j, k + 2 ≤ j → ¬ occursAt r 47 42 j) :
    ∃ hl, highlightRow HLDB_c r true = some (hl, false) := by
  apply highlightRow_flag_of_loop
  intro res hres
  obtain ⟨f1, st1, h1, h2, h3⟩ := comment_closes r k _ _ res rfl rfl (Nat.zero_le k) hat
    (fun j _ hj => hfirst j hj) hres
  exact comment_not_reopened r f1 st1 res h3 (fun j hj => hlater j (by omega)) h1

theorem fullPass_total (syn : xeditSyntax) (rows : List (List Nat)) (b : Bool) :
    ∃ res, fullPass syn b rows = some res ∧ res.length = rows.length := by
  induction rows generalizing b with
  | nil => exact ⟨[], rfl, rfl⟩
  | cons r rs ih =>
    obtain ⟨⟨hl, b1⟩, h1⟩ := highlightRow_total syn r b
    obtain ⟨rest, h2, h3⟩ := ih b1
    exact ⟨(hl, b1) :: rest, by simp [fullPass, h1, h2], by simp [h3]⟩

theorem fullPass_append (syn : xeditSyntax) (pre rest : List (List Nat)) (b : Bool)
    (res1 : List (List xeditHighlight × Bool)) (h1 : fullPass syn b pre = some res1) :
    fullPass syn b (pre ++ rest) = (fullPass syn (lastFlag b res1) rest).map (fun l => res1 ++ l) := by
  induction pre generalizing b res1 with
  | nil =>
    simp only [fullPass, Option.some.injEq] at h1
    subst h1
    simp [lastFlag]
  | cons r rs ih =>
    simp only [fullPass] at h1
    simp only [List.cons_append, fullPass]
    cases hr : highlightRow syn r b with
    | none => simp [hr] at h1
    | some p =>
      obtain ⟨hl, b1⟩ := p
      simp only [hr] at h1 ⊢
      cases hrs : fullPass syn b1 rs with
      | none => simp [hrs] at h1
      | some res2 =>
        simp only [hrs, Option.map_some', Option.some.injEq] at h1
        subst h1
        rw [show rs.append rest = rs ++ rest from rfl, ih b1 res2 hrs]
        have hl2 : lastFlag b ((hl, b1) :: res2) = lastFlag b1 res2 := by
          cases res2 with
          | nil => simp [lastFlag]
          | cons x xs =>
            have hy : (x :: xs).getLast? = some ((x :: xs).getLast (by simp)) :=
              List.getLast?_eq_getLast _ (by simp)
            simp only [lastFlag, List.getLast?_cons_cons, hy, Option.map_some', Option.getD_some]
        rw [hl2]
        cases fullPass syn (lastFlag b1 res2) rest <;> simp

/-- C5: in a pass of the C profile over a document from row 0, if the scan of row N meets a
`/*` while outside any string and comment, rows N and N+1 contain no `*/`, and row N+2 contains
a first `*/` with no `/*` after it, then the pass returns with `hl_open_comment` true for rows N
and N+1 and false for row N+2.  Nothing is assumed about `//`: it may occur anywhere on the
three rows. -/
theorem C5_block_comment_over_three_rows (pre post : List (List Nat)) (r0 r1 r2 : List Nat)
    (hopen : ∃ st, ScanReach HLDB_c r0 (scanInit r0 (seedAfter pre)) st ∧ st.in_string = 0 ∧
      st.in_comment = false ∧ occursAt r0 47 42 st.i)
    (hno0 : ∀ j, ¬ occursAt r0 42 47 j) (hno1 : ∀ j, ¬ occursAt r1 42 47 j)
    (hclose : ∃ k, occursAt r2 42 47 k ∧ (∀ j, j < k → ¬ occursAt r2 42 47 j) ∧
      ∀ j, k + 2 ≤ j → ¬ occursAt r2 47 42 j) :
    ∃ res, fullPass HLDB_c false (pre ++ r0 :: r1 :: r2 :: post) = some res ∧
      (res[pre.length]?).map Prod.snd = some true ∧
      (res[pre.length + 1]?).map Prod.snd = some true ∧
      (res[pre.length + 2]?).map Prod.snd = some false := by
  obtain ⟨res1, hp1, hlen1⟩ := fullPass_total HLDB_c pre false
  have hseed : seedAfter pre = lastFlag false res1 := by simp [seedAfter, hp1]
  obtain ⟨st, hreach, hs, hc, ho⟩ := hopen
  rw [hseed] at hreach
  obtain ⟨hl0, e0⟩ := highlightRow_flag_open r0 _ st hreach hs hc ho hno0
  obtain ⟨hl1, e1⟩ := highlightRow_flag_inside r1 hno1
  obtain ⟨k, hat, hfirst, hlater⟩ := hclose
  obtain ⟨hl2, e2⟩ := highlightRow_flag_close r2 k hat hfirst hlater
  obtain ⟨res3, hp3, _⟩ := fullPass_total HLDB_c post false
  refine ⟨res1 ++ (hl0, true) :: (hl1, true) :: (hl2, false) :: res3, ?_, ?_, ?_, ?_⟩
  · rw [fullPass_append HLDB_c pre _ false res1 hp1]
    simp [fullPass, e0, e1, e2, hp3]
  · rw [← hlen1, List.getElem?_append_right (Nat.le_refl _)]
    simp
  · rw [← hlen1, List.getElem?_append_right (by omega)]
    simp
  · rw [← hlen1, List.getElem?_append_right (by omega)]
    simp
theorem not_occursAt_of_bounded (r : List Nat) (a b : Nat) (ha : a ≠ 0)
    (h : ∀ j, j < r.length → ¬ occursAt r a b j) : ∀ j, ¬ occursAt r a b j := by
  intro j hj
  exact h j (occursAt_lt_length r a b j ha hj) hj

theorem C5_block_comment_over_three_rows_witness :
    ∃ res, fullPass HLDB_c false ([[105]] ++ rowOpens :: rowInside :: rowCloses :: []) = some res ∧
      (res[1]?).map Prod.snd = some true ∧
      (res[2]?).map Prod.snd = some true ∧
      (res[3]?).map Prod.snd = some false :=
  C5_block_comment_over_three_rows [[105]] [] rowOpens rowInside rowCloses
    ⟨rowOpensState 2 true,
      ScanReach.step (scanInit rowOpens (seedAfter [[105]])) (rowOpensState 1 false)
        (rowOpensState 2 true) (by decide) (by decide)
        (ScanReach.step (rowOpensState 1 false) (rowOpensState 2 true) (rowOpensState 2 true)
          (by decide) (by decide) (ScanReach.refl _)),
      rfl, rfl, by decide⟩
    (not_occursAt_of_bounded rowOpens 42 47 (by decide) (by decide))
    (not_occursAt_of_bounded rowInside 42 47 (by decide) (by decide))
    ⟨3, by decide, by decide, fun j hj =>
      not_occursAt_of_bounded rowCloses 47 42 (by decide) (by decide) j⟩
/-! ## Render composer -/

theorem walk_acc (render : List Nat) (hl : List xeditHighlight) (coloff : Int) (n j : Nat)
    (cur : Int) (ab x : List Nat) :
    XeditDrawRows.walk render hl coloff n j cur (ab ++ x) =
      (XeditDrawRows.walk render hl coloff n j cur x).map (fun out => ab ++ out) := by
  induction n generalizing j cur x with
  | zero => simp [XeditDrawRows.walk]
  | succ n ih =>
    rw [XeditDrawRows.walk, XeditDrawRows.walk]
    cases arrayAt render (coloff + j) with
    | none => rfl
    | some cj =>
      dsimp only
      by_cases hc : iscntrl cj = true
      · rw [if_pos hc, if_pos hc]
        split_ifs
        all_goals (simp only [abAppend, List.append_assoc]; exact ih _ _ _)
      · rw [if_neg hc, if_neg hc]
        cases arrayAt hl (coloff + j) with
        | none => rfl
        | some hj =>
          dsimp only
          split_ifs
          all_goals (simp only [abAppend, List.append_assoc]; exact ih _ _ _)

theorem walk_nil_acc (render : List Nat) (hl : List xeditHighlight) (coloff : Int) (n j : Nat)
    (cur : Int) (ab : List Nat) :
    XeditDrawRows.walk render hl coloff n j cur ab =
      (XeditDrawRows.walk render hl coloff n j cur []).map (fun out => ab ++ out) := by
  have := walk_acc render hl coloff n j cur ab []
  simpa using this
theorem walk_step (render : List Nat) (hl : List xeditHighlight) (coloff : Int) (n j : Nat)
    (cur : Int) (cj : Nat) (hj : xeditHighlight) (h1 : arrayAt render (coloff + j) = some cj)
    (h2 : arrayAt hl (coloff + j) = some hj) :
    XeditDrawRows.walk render hl coloff (n + 1) j cur [] =
      (XeditDrawRows.walk render hl coloff n (j + 1) (walkChunk cj hj cur).2 []).map
        (fun out => (walkChunk cj hj cur).1 ++ out) := by
  rw [XeditDrawRows.walk, h1]
  dsimp only
  by_cases hc : iscntrl cj = true
  · rw [if_pos hc, walk_nil_acc]
    simp only [walkChunk, if_pos hc, abAppend, List.nil_append]
    split_ifs <;> simp
  · rw [if_neg hc, h2]
    dsimp only
    by_cases hn : hj = HL_NORMAL
    · rw [if_pos hn, walk_nil_acc]
      simp only [walkChunk, if_neg hc, if_pos hn, abAppend, List.nil_append]
    · rw [if_neg hn, walk_nil_acc]
      simp only [walkChunk, if_neg hc, if_neg hn, abAppend, List.nil_append]

theorem colorEscape_values :
    colorEscape 31 = [27, 91, 51, 49, 109] ∧ colorEscape 32 = [27, 91, 51, 50, 109] ∧
      colorEscape 33 = [27, 91, 51, 51, 109] ∧ colorEscape 35 = [27, 91, 51, 53, 109] ∧
      colorEscape 36 = [27, 91, 51, 54, 109] := by
  decide

theorem not_cntrl_ne_esc (c : Nat) (h : ¬ iscntrl c = true) : c ≠ 27 := by
  intro h27
  subst h27
  exact h (by decide)

theorem colourEscapes_cons_ne (b : Nat) (rest : List Nat) (h : b ≠ 27) :
    colourEscapes (b :: rest) = colourEscapes rest := by
  simp [colourEscapes, startsColourEsc, byteAt, h]

theorem colourEscapes_color (d : Nat) (rest : List Nat) (hd : isdigit d = true) :
    colourEscapes (27 :: 91 :: 51 :: d :: 109 :: rest) = 1 + colourEscapes rest := by
  have hd27 : d ≠ 27 := by
    intro h
    subst h
    exact absurd hd (by decide)
  rw [colourEscapes, colourEscapes_cons_ne 91 _ (by decide), colourEscapes_cons_ne 51 _ (by decide),
    colourEscapes_cons_ne d _ hd27, colourEscapes_cons_ne 109 _ (by decide)]
  simp [startsColourEsc, byteAt, hd]

theorem colourEscapes_glyph (s : Nat) (rest : List Nat) :
    colourEscapes (27 :: 91 :: 55 :: 109 :: s :: 27 :: 91 :: 109 :: rest) = colourEscapes rest := by
  have hs : colourEscapes (s :: 27 :: 91 :: 109 :: rest) = colourEscapes (27 :: 91 :: 109 :: rest) := by
    rw [colourEscapes]
    simp [startsColourEsc, byteAt]
  rw [colourEscapes, colourEscapes_cons_ne 91 _ (by decide), colourEscapes_cons_ne 55 _ (by decide),
    colourEscapes_cons_ne 109 _ (by decide), hs, colourEscapes,
    colourEscapes_cons_ne 91 _ (by decide), colourEscapes_cons_ne 109 _ (by decide)]
  simp [startsColourEsc, byteAt]

theorem walkChunk_color (cj : Nat) (hj : xeditHighlight) (cur : Int) (hcur : walkColor cur) :
    walkColor (walkChunk cj hj cur).2 := by
  unfold walkChunk
  by_cases hc : iscntrl cj = true
  · simp only [if_pos hc]
    exact hcur
  · simp only [if_neg hc]
    by_cases hn : hj = HL_NORMAL
    · simp only [if_pos hn]
      exact Or.inl rfl
    · simp only [if_neg hn]
      cases hj <;> simp_all [XeditSyntaxToColor, walkColor]

theorem walkChunk_escapes (cj : Nat) (hj : xeditHighlight) (cur : Int) (rest : List Nat)
    (hcur : walkColor cur) :
    colourEscapes ((walkChunk cj hj cur).1 ++ rest) =
      walkChunkEscapes cj hj cur + colourEscapes rest := by
  obtain ⟨e31, e32, e33, e35, e36⟩ := colorEscape_values
  unfold walkChunk walkChunkEscapes
  by_cases hc : iscntrl cj = true
  · simp only [if_pos hc]
    rcases hcur with h | h | h | h | h | h <;> subst h <;>
      simp [colourEscapes_glyph, colourEscapes_color, e31, e32, e33, e35, e36, isdigit]
  · have hne := not_cntrl_ne_esc cj hc
    simp only [if_neg hc]
    by_cases hn : hj = HL_NORMAL
    · subst hn
      simp only [if_true, colorOf]
      rcases hcur with h | h | h | h | h | h <;> subst h <;>
        simp [colourEscapes_color, colourEscapes_cons_ne _ _ hne, isdigit]
    · simp only [if_neg hn, colorOf]
      cases hj <;> simp at hn <;> simp only [XeditSyntaxToColor] <;>
        split_ifs <;>
        simp_all [colourEscapes_color, colourEscapes_cons_ne _ _ hne, isdigit, e31, e32, e33,
          e35, e36]
theorem arrayAt_nat {α : Type} (l : List α) (c j : Nat) :
    arrayAt l ((c : Int) + (j : Int)) = l[c + j]? := by
  unfold arrayAt
  rw [if_neg (by omega)]
  congr 1

theorem drop_take_succ {α : Type} (l : List α) (k n : Nat) (a : α) (h : l[k]? = some a) :
    (l.drop k).take (n + 1) = a :: (l.drop (k + 1)).take n := by
  obtain ⟨hk, ha⟩ := List.getElem?_eq_some.mp h
  rw [List.drop_eq_getElem_cons hk, List.take_succ_cons, ha]

theorem walk_total (render : List Nat) (hl : List xeditHighlight) (c n j : Nat) (cur : Int)
    (hlen : hl.length = render.length) (hb : c + j + n ≤ render.length) :
    ∃ out, XeditDrawRows.walk render hl (c : Int) n j cur [] = some out := by
  induction n generalizing j cur with
  | zero => exact ⟨[], rfl⟩
  | succ n ih =>
    have h1 : render[c + j]? = some render[c + j] := List.getElem?_eq_getElem (by omega)
    have h2 : hl[c + j]? = some hl[c + j] := List.getElem?_eq_getElem (by omega)
    rw [walk_step render hl c n j cur _ _ ((arrayAt_nat render c j).trans h1)
      ((arrayAt_nat hl c j).trans h2)]
    obtain ⟨out, ho⟩ := ih (j + 1) (walkChunk render[c + j] hl[c + j] cur).2 (by omega)
    exact ⟨_, by rw [ho]; rfl⟩

theorem walk_potential (cj : Nat) (hj : xeditHighlight) (cur : Int)
    (prev : Option xeditHighlight) :
    walkChunkEscapes cj hj cur +
        (if (walkChunk cj hj cur).2 = colorOfPrev (some hj) then 0 else 1) ≤
      (if prev = some hj then 0 else 1) + (if iscntrl cj = true then 1 else 0) +
        (if cur = colorOfPrev prev then 0 else 1) := by
  unfold walkChunkEscapes walkChunk
  by_cases hc : iscntrl cj = true
  · simp only [if_pos hc]
    by_cases hp : prev = some hj
    · subst hp
      split_ifs <;> omega
    · simp only [if_neg hp]
      split_ifs <;> omega
  · simp only [if_neg hc, colorOfPrev]
    by_cases hn : hj = HL_NORMAL
    · subst hn
      simp only [if_true, colorOf]
      by_cases hp : prev = some HL_NORMAL
      · subst hp
        simp only [colorOfPrev, colorOf, if_true]
        split_ifs <;> omega
      · simp only [if_neg hp]
        split_ifs <;> omega
    · simp only [if_neg hn, colorOf]
      by_cases hp : prev = some hj
      · subst hp
        simp only [colorOfPrev, colorOf, if_neg hn, if_true]
        split_ifs <;> simp_all
      · simp only [if_neg hp]
        split_ifs <;> omega

theorem walk_escapes_le (render : List Nat) (hl : List xeditHighlight) (c : Nat)
    (hlen : hl.length = render.length) (n j : Nat) (cur : Int) (prev : Option xeditHighlight)
    (out : List Nat) (hcur : walkColor cur) (hb : c + j + n ≤ render.length)
    (h : XeditDrawRows.walk render hl (c : Int) n j cur [] = some out) :
    colourEscapes out ≤ runsFrom prev ((hl.drop (c + j)).take n) +
      ((render.drop (c + j)).take n).countP (fun b => iscntrl b) +
      (if cur = colorOfPrev prev then 0 else 1) := by
  induction n generalizing j cur prev out with
  | zero =>
    simp only [XeditDrawRows.walk, Option.some.injEq] at h
    subst h
    simp [colourEscapes]
  | succ n ih =>
    have h1 : render[c + j]? = some render[c + j] := List.getElem?_eq_getElem (by omega)
    have h2 : hl[c + j]? = some hl[c + j] := List.getElem?_eq_getElem (by omega)
    rw [walk_step render hl c n j cur _ _ ((arrayAt_nat render c j).trans h1)
      ((arrayAt_nat hl c j).trans h2)] at h
    cases ho : XeditDrawRows.walk render hl (c : Int) n (j + 1)
        (walkChunk render[c + j] hl[c + j] cur).2 [] with
    | none => simp [ho] at h
    | some out1 =>
      simp only [ho, Option.map_some', Option.some.injEq] at h
      subst h
      have ih1 := ih (j + 1) _ (some hl[c + j]) out1 (walkChunk_color _ _ _ hcur) (by omega) ho
      rw [walkChunk_escapes _ _ _ _ hcur, drop_take_succ hl (c + j) n _ h2,
        drop_take_succ render (c + j) n _ h1]
      have hp := walk_potential render[c + j] hl[c + j] cur prev
      simp only [runsFrom, List.countP_cons]
      have e : c + (j + 1) = c + j + 1 := by omega
      rw [e] at ih1
      split_ifs at hp ih1 ⊢ <;> omega
theorem drawLen_le (E : xeditConfig) (row : erow) (h0 : 0 ≤ E.coloff)
    (hn : (XeditDrawRows.len E row).toNat ≠ 0) :
    E.coloff.toNat + 0 + (XeditDrawRows.len E row).toNat ≤ row.render.length := by
  unfold XeditDrawRows.len erow.rsize at *
  dsimp only at *
  split_ifs at * <;> omega

/-- C7 (as stated, refuted): the row `"`, 0x01, 0x01, `"` is one run of `HL_STRING` (it is built
by `XeditInsertRow` under the C profile), yet the walk emits three colour escapes: `ESC[35m`
before the first byte and once more after each control-byte glyph. -/
theorem C7_colour_escapes_counterexample :
    applyRowOps (emptyConfig (some HLDB_c)) [RowOp.insert 0 [34, 1, 1, 34]] = some docCtrlString ∧
      ∃ out, XeditDrawRows.walk rowCtrlString.render rowCtrlString.hl docCtrlString.coloff
          (XeditDrawRows.len docCtrlString rowCtrlString).toNat 0 (-1) [] = some out ∧
        colourEscapes out = 3 ∧
        runs ((rowCtrlString.hl.drop docCtrlString.coloff.toNat).take
          (XeditDrawRows.len docCtrlString rowCtrlString).toNat) = 1 ∧
        ¬ (colourEscapes out ≤ runs ((rowCtrlString.hl.drop docCtrlString.coloff.toNat).take
          (XeditDrawRows.len docCtrlString rowCtrlString).toNat)) := by
  refine ⟨by decide, _, rfl, by decide, by decide, by decide⟩

/-- C7 (amended): for every row whose highlight array has the length of its render and every
viewport with `coloff >= 0`, the walk of `XeditDrawRows` over the visible slice returns, and the
number of foreground-colour escapes it emits (the `ESC[39m` appended after the loop is not part
of the walk) is at most the number of maximal runs of identically classified adjacent bytes in
the slice plus the number of control bytes in the slice; for a slice without control bytes it
is at most the number of runs. -/
theorem C7_colour_escapes_le_runs_plus_controls (E : xeditConfig) (row : erow)
    (h0 : 0 ≤ E.coloff) (hhl : row.hl.length = row.rsize) :
    ∃ out, XeditDrawRows.walk row.render row.hl E.coloff (XeditDrawRows.len E row).toNat 0 (-1)
        [] = some out ∧
      colourEscapes out ≤
        runs ((row.hl.drop E.coloff.toNat).take (XeditDrawRows.len E row).toNat) +
        ((row.render.drop E.coloff.toNat).take (XeditDrawRows.len E row).toNat).countP
          (fun b => iscntrl b) ∧
      ((∀ b, b ∈ (row.render.drop E.coloff.toNat).take (XeditDrawRows.len E row).toNat →
          iscntrl b = false) →
        colourEscapes out ≤
          runs ((row.hl.drop E.coloff.toNat).take (XeditDrawRows.len E row).toNat)) := by
  have hc : E.coloff = (E.coloff.toNat : Int) := by omega
  have key : ∃ out, XeditDrawRows.walk row.render row.hl E.coloff
      (XeditDrawRows.len E row).toNat 0 (-1) [] = some out ∧
      colourEscapes out ≤
        runs ((row.hl.drop E.coloff.toNat).take (XeditDrawRows.len E row).toNat) +
        ((row.render.drop E.coloff.toNat).take (XeditDrawRows.len E row).toNat).countP
          (fun b => iscntrl b) := by
    by_cases hn : (XeditDrawRows.len E row).toNat = 0
    · rw [hn]
      exact ⟨[], rfl, by simp [colourEscapes]⟩
    · have hb := drawLen_le E row h0 hn
      obtain ⟨out, ho⟩ := walk_total row.render row.hl E.coloff.toNat
        (XeditDrawRows.len E row).toNat 0 (-1) hhl hb
      rw [← hc] at ho
      refine ⟨out, ho, ?_⟩
      rw [hc] at ho
      have := walk_escapes_le row.render row.hl E.coloff.toNat hhl _ 0 (-1) none out
        (Or.inl rfl) hb ho
      simpa [runs, colorOfPrev] using this
  obtain ⟨out, ho, hle⟩ := key
  refine ⟨out, ho, hle, ?_⟩
  intro hnc
  have hz : ((row.render.drop E.coloff.toNat).take (XeditDrawRows.len E row).toNat).countP
      (fun b => iscntrl b) = 0 := by
    rw [List.countP_eq_zero]
    intro b hb
    simp [hnc b hb]
  omega

theorem C7_colour_escapes_le_runs_plus_controls_witness :
    (0 : Int) ≤ docCtrlString.coloff ∧ rowCtrlString.hl.length = rowCtrlString.rsize ∧
      ∃ out, XeditDrawRows.walk rowCtrlString.render rowCtrlString.hl docCtrlString.coloff
          (XeditDrawRows.len docCtrlString rowCtrlString).toNat 0 (-1) [] = some out ∧
        colourEscapes out ≤
          runs ((rowCtrlString.hl.drop docCtrlString.coloff.toNat).take
            (XeditDrawRows.len docCtrlString rowCtrlString).toNat) +
          ((rowCtrlString.render.drop docCtrlString.coloff.toNat).take
            (XeditDrawRows.len docCtrlString rowCtrlString).toNat).countP (fun b => iscntrl b) ∧
        ((∀ b, b ∈ (rowCtrlString.render.drop docCtrlString.coloff.toNat).take
              (XeditDrawRows.len docCtrlString rowCtrlString).toNat → iscntrl b = false) →
          colourEscapes out ≤
            runs ((rowCtrlString.hl.drop docCtrlString.coloff.toNat).take
              (XeditDrawRows.len docCtrlString rowCtrlString).toNat)) :=
  ⟨by decide, by decide,
    C7_colour_escapes_le_runs_plus_controls docCtrlString rowCtrlString (by decide) (by decide)⟩

theorem stripEscapes_color (d : Nat) (rest : List Nat) (hd : isdigit d = true) :
    stripEscapes 0 (27 :: 91 :: 51 :: d :: 109 :: rest) = stripEscapes 0 rest := by
  have h1 : ¬ (64 ≤ d ∧ d ≤ 126) := by
    simp only [isdigit, Bool.and_eq_true, decide_eq_true_eq] at hd
    omega
  simp [stripEscapes, h1]

theorem stripEscapes_glyph (s : Nat) (rest : List Nat) (hs : s ≠ 27) :
    stripEscapes 0 (27 :: 91 :: 55 :: 109 :: s :: 27 :: 91 :: 109 :: rest) =
      s :: stripEscapes 0 rest := by
  simp [stripEscapes, hs]

theorem walkChunk_strip (cj : Nat) (hj : xeditHighlight) (cur : Int) (rest : List Nat)
    (hcur : walkColor cur) :
    stripEscapes 0 ((walkChunk cj hj cur).1 ++ rest) = glyph cj :: stripEscapes 0 rest := by
  obtain ⟨e31, e32, e33, e35, e36⟩ := colorEscape_values
  unfold walkChunk glyph
  by_cases hc : iscntrl cj = true
  · simp only [if_pos hc]
    have hs : (if schar cj ≤ 26 then 64 + cj else 63) ≠ 27 := by
      split_ifs <;> omega
    rcases hcur with h | h | h | h | h | h <;> subst h <;>
      simp [stripEscapes_glyph _ _ hs, stripEscapes_color, e31, e32, e33, e35, e36, isdigit]
  · have hne := not_cntrl_ne_esc cj hc
    have hd : stripEscapes 0 (cj :: rest) = cj :: stripEscapes 0 rest := by
      simp [stripEscapes, hne]
    simp only [if_neg hc]
    by_cases hn : hj = HL_NORMAL
    · subst hn
      simp only [if_true]
      split_ifs <;> simp [stripEscapes_color, hd, isdigit]
    · simp only [if_neg hn]
      cases hj <;> simp at hn <;> simp only [XeditSyntaxToColor] <;>
        split_ifs <;>
        simp [stripEscapes_color, hd, isdigit, e31, e32, e33, e35, e36]

theorem walk_strip (render : List Nat) (hl : List xeditHighlight) (c : Nat)
    (hlen : hl.length = render.length) (n j : Nat) (cur : Int) (out tail : List Nat)
    (hcur : walkColor cur) (hb : c + j + n ≤ render.length)
    (h : XeditDrawRows.walk render hl (c : Int) n j cur [] = some out) :
    stripEscapes 0 (out ++ tail) =
      ((render.drop (c + j)).take n).map glyph ++ stripEscapes 0 tail := by
  induction n generalizing j cur out with
  | zero =>
    simp only [XeditDrawRows.walk, Option.some.injEq] at h
    subst h
    simp
  | succ n ih =>
    have h1 : render[c + j]? = some render[c + j] := List.getElem?_eq_getElem (by omega)
    have h2 : hl[c + j]? = some hl[c + j] := List.getElem?_eq_getElem (by omega)
    rw [walk_step render hl c n j cur _ _ ((arrayAt_nat render c j).trans h1)
      ((arrayAt_nat hl c j).trans h2)] at h
    cases ho : XeditDrawRows.walk render hl (c : Int) n (j + 1)
        (walkChunk render[c + j] hl[c + j] cur).2 [] with
    | none => simp [ho] at h
    | some out1 =>
      simp only [ho, Option.map_some', Option.some.injEq] at h
      subst h
      have ih1 := ih (j + 1) _ out1 (walkChunk_color _ _ _ hcur) (by omega) ho
      have e : c + (j + 1) = c + j + 1 := by omega
      rw [e] at ih1
      rw [List.append_assoc, walkChunk_strip _ _ _ _ hcur, ih1,
        drop_take_succ render (c + j) n _ h1]
      simp
theorem drawLen_toNat (E : xeditConfig) (row : erow) :
    (XeditDrawRows.len E row).toNat =
      (max 0 (min ((row.rsize : Int) - E.coloff) E.screencols)).toNat := by
  unfold XeditDrawRows.len
  dsimp only
  split_ifs <;> omega

/-- C8: for a screen line `y` whose row `rowoff + y` is a row of the document (its highlight
array as long as its render) and a viewport with `coloff >= 0`, the loop body of `XeditDrawRows`
returns without reading `render` or `hl` outside `[0, rsize)`, and the bytes it emits, once the
escape sequences are removed, are exactly the bytes of `render[coloff .. coloff + len)` in
order, each control byte shown as its glyph, where
`len = max(0, min(rsize - coloff, screencols))`, followed by the line break on every line but
the last. -/
theorem C8_line_emits_visible_slice (E : xeditConfig) (y : Int) (row : erow)
    (hlt : y + E.rowoff < E.numrows) (hrow : arrayAt E.row (y + E.rowoff) = some row)
    (h0 : 0 ≤ E.coloff) (hhl : row.hl.length = row.rsize) :
    ∃ out, XeditDrawRows.line E y [] = some out ∧
      stripEscapes 0 out =
        ((row.render.drop E.coloff.toNat).take
            (max 0 (min ((row.rsize : Int) - E.coloff) E.screencols)).toNat).map glyph ++
          (if y < E.screenrows - 1 then [13, 10] else []) := by
  have hc : E.coloff = (E.coloff.toNat : Int) := by omega
  rw [← drawLen_toNat]
  have hw : ∃ out, XeditDrawRows.walk row.render row.hl E.coloff
      (XeditDrawRows.len E row).toNat 0 (-1) [] = some out ∧
      ∀ tail, stripEscapes 0 (out ++ tail) =
        ((row.render.drop E.coloff.toNat).take (XeditDrawRows.len E row).toNat).map glyph ++
          stripEscapes 0 tail := by
    by_cases hn : (XeditDrawRows.len E row).toNat = 0
    · rw [hn]
      exact ⟨[], rfl, by simp⟩
    · have hb := drawLen_le E row h0 hn
      obtain ⟨out, ho⟩ := walk_total row.render row.hl E.coloff.toNat
        (XeditDrawRows.len E row).toNat 0 (-1) hhl hb
      refine ⟨out, by rw [hc]; exact ho, ?_⟩
      intro tail
      exact walk_strip row.render row.hl E.coloff.toNat hhl _ 0 (-1) out tail (Or.inl rfl) hb ho
  obtain ⟨out, ho, hs⟩ := hw
  unfold XeditDrawRows.line
  simp only [if_neg (not_le.mpr hlt), hrow, ho, abAppend]
  split_ifs with hy
  · refine ⟨_, rfl, ?_⟩
    rw [List.append_assoc, List.append_assoc, hs]
    simp [stripEscapes]
  · refine ⟨_, rfl, ?_⟩
    rw [List.append_assoc, hs]
    simp [stripEscapes]

theorem C8_line_emits_visible_slice_witness :
    (0 : Int) + docDraw.rowoff < docDraw.numrows ∧ (0 : Int) ≤ docDraw.coloff ∧
      ∃ out, XeditDrawRows.line docDraw 0 [] = some out ∧
        stripEscapes 0 out = [32, 32, 32, 32, 32, 32, 32, 34, 65, 34, 13, 10] :=
  ⟨by decide, by decide,
    C8_line_emits_visible_slice docDraw 0
      { idx := 0, chars := [97, 9, 34, 1, 34], render := [97, 32, 32, 32, 32, 32, 32, 32, 34, 1, 34], hl := [HL_NORMAL, HL_NORMAL, HL_NORMAL, HL_NORMAL, HL_NORMAL, HL_NORMAL, HL_NORMAL, HL_NORMAL, HL_STRING, HL_STRING, HL_STRING], hl_open_comment := false }
      (by decide) rfl (by decide) rfl⟩

/-! ## Key decoder -/

/-- C11: every recognised escape sequence is decoded to exactly one key event and exactly its
bytes are consumed (the read results after it are left pending): `ESC [ d ~` gives Home for
`d` in 1, 7, Delete for 3, End for 4, 8, PageUp for 5, PageDown for 6; `ESC [ A/B/C/D` give
Up/Down/Right/Left; `ESC [ H`, `ESC O H` give Home and `ESC [ F`, `ESC O F` give End.  In
particular `ESC [ 3 ~` yields one `DEL_KEY`. -/
theorem C11_recognised_sequences_decode :
    (∀ (p : List Nat × Int) (rest : List ReadResult), p ∈ recognisedSequences →
      XeditReadKey (keys (27 :: p.1) ++ rest) = Except.ok (p.2, rest)) ∧
    (∀ rest : List ReadResult,
      XeditReadKey (ReadResult.byte 27 :: ReadResult.byte 91 :: ReadResult.byte 51 ::
        ReadResult.byte 126 :: rest) = Except.ok (DEL_KEY, rest)) := by
  refine ⟨?_, fun rest => rfl⟩
  intro p rest hp
  simp only [recognisedSequences, List.mem_cons, List.mem_singleton, List.not_mem_nil,
    or_false] at hp
  rcases hp with h | h | h | h | h | h | h | h | h | h | h | h | h | h | h <;> subst h <;> rfl

theorem C11_recognised_sequences_decode_witness :
    XeditReadKey (keys (27 :: [91, 53, 126]) ++ [ReadResult.byte 120]) =
      Except.ok (PAGE_UP, [ReadResult.byte 120]) :=
  C11_recognised_sequences_decode.1 ([91, 53, 126], PAGE_UP) [ReadResult.byte 120] (by decide)

theorem tilde_some (s1 : Nat) (k : Int) (h : XeditReadKey.tilde s1 = some k) :
    ([91, s1, 126], k) ∈ recognisedSequences := by
  unfold XeditReadKey.tilde at h
  split_ifs at h with h1 h2 h3 h4 h5 h6 h7 <;> injection h with h <;> subst h
  · subst h1; decide
  · subst h2; decide
  · subst h3; decide
  · subst h4; decide
  · subst h5; decide
  · subst h6; decide
  · subst h7; decide

theorem csi_some (s1 : Nat) (k : Int) (h : XeditReadKey.csi s1 = some k) :
    ([91, s1], k) ∈ recognisedSequences := by
  unfold XeditReadKey.csi at h
  split_ifs at h with h1 h2 h3 h4 h5 h6 <;> injection h with h <;> subst h
  · subst h1; decide
  · subst h2; decide
  · subst h3; decide
  · subst h4; decide
  · subst h5; decide
  · subst h6; decide

theorem ss3_some (s1 : Nat) (k : Int) (h : XeditReadKey.ss3 s1 = some k) :
    ([79, s1], k) ∈ recognisedSequences := by
  unfold XeditReadKey.ss3 at h
  split_ifs at h with h1 h2 <;> injection h with h <;> subst h
  · subst h1; decide
  · subst h2; decide

theorem readKey_esc_returns (rest : List ReadResult) :
    ∃ k rest1, XeditReadKey (ReadResult.byte 27 :: rest) = Except.ok (k, rest1) ∧
      ((∀ p, p ∈ recognisedSequences → ¬ (keys p.1 <+: rest)) → k = 27) := by
  cases rest with
  | nil => exact ⟨27, [], rfl, fun _ => rfl⟩
  | cons r0 rest1 =>
    cases r0 with
    | timeout => exact ⟨27, rest1, rfl, fun _ => rfl⟩
    | eagain => exact ⟨27, rest1, rfl, fun _ => rfl⟩
    | error => exact ⟨27, rest1, rfl, fun _ => rfl⟩
    | byte s0 =>
      cases rest1 with
      | nil => exact ⟨27, [], rfl, fun _ => rfl⟩
      | cons r1 rest2 =>
        cases r1 with
        | timeout => exact ⟨27, rest2, rfl, fun _ => rfl⟩
        | eagain => exact ⟨27, rest2, rfl, fun _ => rfl⟩
        | error => exact ⟨27, rest2, rfl, fun _ => rfl⟩
        | byte s1 =>
          by_cases h91 : s0 = 91
          · subst h91
            by_cases hd : 48 ≤ s1 ∧ s1 ≤ 57
            · have hnil : ∀ rest3, XeditReadKey (ReadResult.byte 27 :: ReadResult.byte 91 ::
                  ReadResult.byte s1 :: rest3) =
                  (match read1 rest3 with
                    | (ReadResult.byte s2, in4) =>
                      if s2 = 126 then
                        match XeditReadKey.tilde s1 with
                        | some k => Except.ok (k, in4)
                        | none => Except.ok (27, in4)
                      else Except.ok (27, in4)
                    | (_, in4) => Except.ok (27, in4)) := by
                intro rest3
                simp [XeditReadKey, XeditReadKey.wait, read1, hd]
              rw [hnil]
              cases rest2 with
              | nil => exact ⟨27, [], rfl, fun _ => rfl⟩
              | cons r2 rest3 =>
                cases r2 with
                | timeout => exact ⟨27, rest3, rfl, fun _ => rfl⟩
                | eagain => exact ⟨27, rest3, rfl, fun _ => rfl⟩
                | error => exact ⟨27, rest3, rfl, fun _ => rfl⟩
                | byte s2 =>
                  simp only [read1]
                  by_cases h126 : s2 = 126
                  · subst h126
                    rw [if_pos rfl]
                    cases ht : XeditReadKey.tilde s1 with
                    | none => exact ⟨27, rest3, rfl, fun _ => rfl⟩
                    | some k =>
                      refine ⟨k, rest3, rfl, fun h => ?_⟩
                      exact absurd ⟨rest3, rfl⟩ (h _ (tilde_some s1 k ht))
                  · rw [if_neg h126]
                    exact ⟨27, rest3, rfl, fun _ => rfl⟩
            · have hcsi : XeditReadKey (ReadResult.byte 27 :: ReadResult.byte 91 ::
                  ReadResult.byte s1 :: rest2) =
                  (match XeditReadKey.csi s1 with
                    | some k => Except.ok (k, rest2)
                    | none => Except.ok (27, rest2)) := by
                simp [XeditReadKey, XeditReadKey.wait, read1, hd]
              rw [hcsi]
              cases ht : XeditReadKey.csi s1 with
              | none => exact ⟨27, rest2, rfl, fun _ => rfl⟩
              | some k =>
                refine ⟨k, rest2, rfl, fun h => ?_⟩
                exact absurd ⟨rest2, rfl⟩ (h _ (csi_some s1 k ht))
          · by_cases h79 : s0 = 79
            · subst h79
              have hss3 : XeditReadKey (ReadResult.byte 27 :: ReadResult.byte 79 ::
                  ReadResult.byte s1 :: rest2) =
                  (match XeditReadKey.ss3 s1 with
                    | some k => Except.ok (k, rest2)
                    | none => Except.ok (27, rest2)) := by
                simp [XeditReadKey, XeditReadKey.wait, read1]
              rw [hss3]
              cases ht : XeditReadKey.ss3 s1 with
              | none => exact ⟨27, rest2, rfl, fun _ => rfl⟩
              | some k =>
                refine ⟨k, rest2, rfl, fun h => ?_⟩
                exact absurd ⟨rest2, rfl⟩ (h _ (ss3_some s1 k ht))
            · refine ⟨27, rest2, ?_, fun _ => rfl⟩
              simp [XeditReadKey, XeditReadKey.wait, read1, h91, h79]

/-- C12: an input that starts with `ESC` never makes `XeditReadKey` fail, and unless a
recognised sequence follows the `ESC` the key returned is the literal `ESC` (27).  This covers
the short reads (no byte, or one byte only, after `ESC`; `ESC [ digit` and no further byte),
an unrecognised final byte (`ESC [ Z`, `ESC O x`, `ESC x y`), a digit after `ESC [` that is not
followed by `~`, and the unmapped digits 0, 2, 9 followed by `~`. -/
theorem C12_unrecognised_gives_esc :
    (∀ rest : List ReadResult, ∃ k rest1,
      XeditReadKey (ReadResult.byte 27 :: rest) = Except.ok (k, rest1) ∧
      ((∀ p, p ∈ recognisedSequences → ¬ (keys p.1 <+: rest)) → k = 27)) ∧
    XeditReadKey [ReadResult.byte 27] = Except.ok (27, []) ∧
    (∀ (r : ReadResult) (rest : List ReadResult), r.noByte →
      XeditReadKey (ReadResult.byte 27 :: r :: rest) = Except.ok (27, rest)) ∧
    (∀ a : Nat, XeditReadKey [ReadResult.byte 27, ReadResult.byte a] = Except.ok (27, [])) ∧
    (∀ (a : Nat) (r : ReadResult) (rest : List ReadResult), r.noByte →
      XeditReadKey (ReadResult.byte 27 :: ReadResult.byte a :: r :: rest) =
        Except.ok (27, rest)) ∧
    (∀ d : Nat, 48 ≤ d → d ≤ 57 →
      XeditReadKey [ReadResult.byte 27, ReadResult.byte 91, ReadResult.byte d] =
        Except.ok (27, [])) ∧
    (∀ (d : Nat) (r : ReadResult) (rest : List ReadResult), 48 ≤ d → d ≤ 57 → r.noByte →
      XeditReadKey (ReadResult.byte 27 :: ReadResult.byte 91 :: ReadResult.byte d :: r :: rest) =
        Except.ok (27, rest)) ∧
    (∀ rest : List ReadResult, XeditReadKey (keys [27, 91, 90] ++ rest) = Except.ok (27, rest)) ∧
    (∀ (x : Nat) (rest : List ReadResult), x ≠ 72 → x ≠ 70 →
      XeditReadKey (keys [27, 79, x] ++ rest) = Except.ok (27, rest)) ∧
    (∀ (x y : Nat) (rest : List ReadResult), x ≠ 91 → x ≠ 79 →
      XeditReadKey (keys [27, x, y] ++ rest) = Except.ok (27, rest)) ∧
    (∀ (d x : Nat) (rest : List ReadResult), 48 ≤ d → d ≤ 57 → x ≠ 126 →
      XeditReadKey (keys [27, 91, d, x] ++ rest) = Except.ok (27, rest)) ∧
    (∀ (d : Nat) (rest : List ReadResult), d = 48 ∨ d = 50 ∨ d = 57 →
      XeditReadKey (keys [27, 91, d, 126] ++ rest) = Except.ok (27, rest)) := by
  refine ⟨readKey_esc_returns, rfl, ?_, fun a => rfl, ?_, ?_, ?_, fun rest => rfl, ?_, ?_, ?_, ?_⟩
  · intro r rest hr
    cases r with
    | byte b => exact absurd rfl (hr b)
    | timeout => rfl
    | eagain => rfl
    | error => rfl
  · intro a r rest hr
    cases r with
    | byte b => exact absurd rfl (hr b)
    | timeout => rfl
    | eagain => rfl
    | error => rfl
  · intro d h1 h2
    simp [XeditReadKey, XeditReadKey.wait, read1, h1, h2]
  · intro d r rest h1 h2 hr
    cases r with
    | byte b => exact absurd rfl (hr b)
    | timeout => simp [XeditReadKey, XeditReadKey.wait, read1, h1, h2]
    | eagain => simp [XeditReadKey, XeditReadKey.wait, read1, h1, h2]
    | error => simp [XeditReadKey, XeditReadKey.wait, read1, h1, h2]
  · intro x rest h1 h2
    simp [XeditReadKey, XeditReadKey.wait, read1, keys, XeditReadKey.ss3, h1, h2]
  · intro x y rest h1 h2
    simp [XeditReadKey, XeditReadKey.wait, read1, keys, h1, h2]
  · intro d x rest h1 h2 h3
    simp [XeditReadKey, XeditReadKey.wait, read1, keys, h1, h2, h3]
  · intro d rest hd
    rcases hd with h | h | h <;> subst h <;> rfl

theorem C12_unrecognised_gives_esc_witness :
    (∀ p, p ∈ recognisedSequences → ¬ (keys p.1 <+: keys [91, 90, 65])) ∧
      ∃ k rest1, XeditReadKey (ReadResult.byte 27 :: keys [91, 90, 65]) = Except.ok (k, rest1) ∧
        ((∀ p, p ∈ recognisedSequences → ¬ (keys p.1 <+: keys [91, 90, 65])) → k = 27) :=
  ⟨by decide, C12_unrecognised_gives_esc.1 (keys [91, 90, 65])⟩

/-- C18 (as stated, refuted): the byte 200 is returned as the key -56, the value of the signed
`char c`, not as its ordinal value 200. -/
theorem C18_high_byte_counterexample :
    XeditReadKey [ReadResult.byte 200] = Except.ok (-56, []) ∧
      ¬ (XeditReadKey [ReadResult.byte 200] = Except.ok (200, [])) := by
  refine ⟨rfl, ?_⟩
  intro h
  have h1 : XeditReadKey [ReadResult.byte 200] = Except.ok (-56, []) := rfl
  rw [h1] at h
  injection h with h
  injection h with h2 _
  exact absurd h2 (by decide)

/-- C18 (amended): for every input byte `b` other than `ESC` (27), `XeditReadKey` consumes
exactly that one byte and returns the value of the `char` that holds it: the ordinal value `b`
for `b` in 0..127 (so 127 is `BACKSPACE`, and the control byte `k & 0x1f` of a letter `k` is
returned as such), and `b - 256` for `b` in 128..255. -/
theorem C18_plain_byte_returned (b : Nat) (rest : List ReadResult) (hb : b ≠ 27) :
    XeditReadKey (ReadResult.byte b :: rest) = Except.ok (schar b, rest) ∧
      (b < 128 → schar b = (b : Int)) ∧
      (128 ≤ b → schar b = (b : Int) - 256) ∧
      (b = 127 → schar b = BACKSPACE) ∧
      (∀ k : Nat, b = CTRL_KEY k → schar b = ((CTRL_KEY k : Nat) : Int)) := by
  refine ⟨?_, ?_, ?_, ?_, ?_⟩
  · simp [XeditReadKey, XeditReadKey.wait, hb]
  · intro h
    simp [schar, h]
  · intro h
    have : ¬ b < 128 := by omega
    simp [schar, this]
  · intro h
    subst h
    rfl
  · intro k hk
    have hlt : Nat.land k 0x1f < 32 := by
      have := @Nat.and_le_right k 0x1f
      show k &&& 0x1f < 32
      omega
    have : b < 128 := by
      rw [hk]
      unfold CTRL_KEY
      omega
    rw [← hk]
    simp [schar, this]

theorem C18_plain_byte_returned_witness :
    (17 : Nat) ≠ 27 ∧
      XeditReadKey (ReadResult.byte 17 :: [ReadResult.byte 120]) =
        Except.ok (schar 17, [ReadResult.byte 120]) ∧ schar 17 = ((CTRL_KEY 113 : Nat) : Int) :=
  ⟨by decide, (C18_plain_byte_returned 17 [ReadResult.byte 120] (by decide)).1,
    (C18_plain_byte_returned 17 [ReadResult.byte 120] (by decide)).2.2.2.2 113 (by decide)⟩

/-! ## Scenarios, no-op requests, tab expansion and scrolling -/

/-- C13: under the C profile the row `int x = 1; // note` (18 bytes), inserted as the first row
of the document, is classified `HL_TYPES` on bytes 0..2, `HL_NORMAL` on 3..7, `HL_NUMBER` on
byte 8, `HL_NORMAL` on 9..10 and `HL_COMMENT` on 11..17, with `hl_open_comment` false. -/
theorem C13_scenario_int_note :
    rowIntNote.length = 18 ∧
    (applyRowOps (emptyConfig (some HLDB_c)) [RowOp.insert 0 rowIntNote]).map
        (fun E => E.row.map (fun r => (r.chars, r.render, r.hl, r.hl_open_comment))) =
      some [(rowIntNote, rowIntNote,
        [HL_TYPES, HL_TYPES, HL_TYPES, HL_NORMAL, HL_NORMAL, HL_NORMAL, HL_NORMAL, HL_NORMAL,
          HL_NUMBER, HL_NORMAL, HL_NORMAL, HL_COMMENT, HL_COMMENT, HL_COMMENT, HL_COMMENT,
          HL_COMMENT, HL_COMMENT, HL_COMMENT], false)] ∧
    highlightRow HLDB_c rowIntNote false =
      some (List.replicate 3 HL_TYPES ++ List.replicate 5 HL_NORMAL ++ [HL_NUMBER] ++
        List.replicate 2 HL_NORMAL ++ List.replicate 7 HL_COMMENT, false) := by
  refine ⟨by decide, by decide, by decide⟩

/-- C15: `XeditInsertRow` with `at < 0` or `at > numrows` and `XeditDelRow` with `at < 0` or
`at >= numrows` return with the whole editor state unchanged (rows with their raw bytes, render,
hl, idx and hl_open_comment, `numrows`, the dirty counter and everything else). -/
theorem C15_out_of_range_is_noop (E : xeditConfig) (at_ : Int) (s : List Nat) :
    (at_ < 0 ∨ at_ > E.numrows → XeditInsertRow E at_ s = some E) ∧
    (at_ < 0 ∨ at_ ≥ E.numrows → XeditDelRow E at_ = E) := by
  constructor
  · intro h
    simp [XeditInsertRow, h]
  · intro h
    simp [XeditDelRow, h]

theorem C15_out_of_range_is_noop_witness :
    XeditInsertRow docOpenComment 3 [120] = some docOpenComment ∧
      XeditDelRow docOpenComment 2 = docOpenComment :=
  ⟨(C15_out_of_range_is_noop docOpenComment 3 [120]).1 (Or.inr (by decide)),
    (C15_out_of_range_is_noop docOpenComment 2 [120]).2 (Or.inr (by decide))⟩

theorem pad_eq_append (fuel : Nat) (render : List Nat) :
    ∃ k, XeditUpdateRow.pad fuel render = render ++ List.replicate k 32 := by
  induction fuel generalizing render with
  | zero => exact ⟨0, (List.append_nil render).symm⟩
  | succ f ih =>
    unfold XeditUpdateRow.pad
    split
    · obtain ⟨k, hk⟩ := ih (render ++ [32])
      refine ⟨k + 1, ?_⟩
      rw [hk, List.append_assoc]
      congr 1
    · exact ⟨0, (List.append_nil render).symm⟩

theorem take_succ_eq (chars : List Nat) (n : Nat) (h : n < chars.length) :
    chars.take (n + 1) = chars.take n ++ [byteAt chars n] := by
  rw [List.take_succ, List.getElem?_eq_getElem h]
  simp [byteAt, List.getD_eq_getElem?_getD, List.getElem?_eq_getElem h]

theorem render_no_tab_aux (chars : List Nat) (n : Nat) (h : n ≤ chars.length) :
    (9 ∉ XeditUpdateRow.render chars n) ∧
      ((chars.take n).filter (fun c => c ≠ 9)).Sublist (XeditUpdateRow.render chars n) := by
  induction n with
  | zero => simp [XeditUpdateRow.render]
  | succ k ih =>
    have hk : k < chars.length := h
    obtain ⟨ih1, ih2⟩ := ih (Nat.le_of_lt hk)
    rw [take_succ_eq chars k hk, List.filter_append]
    simp only [XeditUpdateRow.render]
    split
    · rename_i h9
      obtain ⟨m, hm⟩ := pad_eq_append XEDIT_TAB_STOP (XeditUpdateRow.render chars k ++ [32])
      rw [hm]
      constructor
      · simp only [List.mem_append, List.mem_singleton, List.mem_replicate]
        rintro ((h1 | h1) | h1)
        · exact ih1 h1
        · omega
        · omega
      · simp only [h9, ne_eq, not_true_eq_false, decide_False, List.filter_cons_of_neg,
          List.filter_nil, List.append_nil, Bool.false_eq_true, not_false_eq_true]
        rw [List.append_assoc]
        exact ih2.trans (List.sublist_append_left _ _)
    · rename_i h9
      constructor
      · simp only [List.mem_append, List.mem_singleton]
        rintro (h1 | h1)
        · exact ih1 h1
        · exact h9 h1.symm
      · have : List.filter (fun c => decide (c ≠ 9)) [byteAt chars k] = [byteAt chars k] := by
          simp [h9]
        rw [this]
        exact List.Sublist.append ih2 (List.Sublist.refl _)

/-- C16: for every raw byte sequence the render built by `XeditUpdateRow` contains no tab byte
(9), and the non-tab bytes of the raw sequence occur in the render in their order (they form a
subsequence of it). -/
theorem C16_render_no_tab (chars : List Nat) :
    (9 ∉ XeditUpdateRow.render chars chars.length) ∧
      (chars.filter (fun c => c ≠ 9)).Sublist (XeditUpdateRow.render chars chars.length) := by
  have h := render_no_tab_aux chars chars.length (Nat.le_refl _)
  simpa using h

/-- C17 (as stated, refuted): with `cy = 2147483644`, `rowoff = 2147483642` and ten screen
rows the cursor lies inside `[rowoff, rowoff + screenrows) x [coloff, coloff + screencols)`,
yet `XeditScroll` moves `rowoff` to `2147483635`: the `int` sum `rowoff + screenrows` is above
`INT_MAX` and the comparison with it sees a negative number. -/
theorem C17_scroll_moves_window_at_int_limit :
    1 ≤ docScrollWrap.screenrows ∧ 1 ≤ docScrollWrap.screencols ∧
    XeditScroll.ints docScrollWrap ∧
    (docScrollWrap.rowoff ≤ docScrollWrap.cy ∧
      docScrollWrap.cy < docScrollWrap.rowoff + docScrollWrap.screenrows ∧
      docScrollWrap.coloff ≤ cursorRx docScrollWrap ∧
      cursorRx docScrollWrap < docScrollWrap.coloff + docScrollWrap.screencols) ∧
    docScrollWrap.rowoff = 2147483642 ∧
    (XeditScroll docScrollWrap).map (fun E => (E.rowoff, E.coloff)) = some (2147483635, 0) ∧
    ¬ (∀ E : xeditConfig, 1 ≤ E.screenrows → 1 ≤ E.screencols → XeditScroll.ints E →
        (E.cy < E.numrows → ∃ row, arrayAt E.row E.cy = some row) →
        ∃ E1, XeditScroll E = some E1 ∧
          (E.rowoff ≤ E.cy ∧ E.cy < E.rowoff + E.screenrows ∧ E.coloff ≤ cursorRx E ∧
              cursorRx E < E.coloff + E.screencols →
            E1.rowoff = E.rowoff ∧ E1.coloff = E.coloff)) := by
  refine ⟨by decide, by decide, by decide, by decide, by decide, by decide, ?_⟩
  intro h
  obtain ⟨E1, h1, h2⟩ := h docScrollWrap (by decide) (by decide) (by decide)
    (fun hlt => absurd hlt (by decide))
  have h3 := (h2 (by decide)).1
  have h4 : (XeditScroll docScrollWrap).map (fun E => E.rowoff) = some 2147483635 := by decide
  rw [h1] at h4
  simp only [Option.map_some', Option.some.injEq] at h4
  rw [h3] at h4
  revert h4
  decide

/-- C17 (amended): for every state of `int` values with at least one screen row and one
screen column, `XeditScroll` (which returns whenever the cursor row it reads exists) applied
twice gives the same `rowoff`, `coloff` and `rx` as applied once; and when the cursor row
lies inside `[rowoff, rowoff + screenrows)` and the end `rowoff + screenrows` of the window is
at most `INT_MAX`, it leaves `rowoff` unchanged, and likewise `coloff` when the render column
of the cursor lies inside `[coloff, coloff + screencols)` and `coloff + screencols` is at most
`INT_MAX`. -/
theorem C17_scroll_idempotent (E : xeditConfig) (hr : 1 ≤ E.screenrows) (hc : 1 ≤ E.screencols)
    (hint : XeditScroll.ints E)
    (hrow : E.cy < E.numrows → ∃ row, arrayAt E.row E.cy = some row) :
    ∃ E1, XeditScroll E = some E1 ∧ E1.rx = cursorRx E ∧
      (∃ E2, XeditScroll E1 = some E2 ∧ E2.rowoff = E1.rowoff ∧ E2.coloff = E1.coloff ∧
        E2.rx = E1.rx) ∧
      (E.rowoff ≤ E.cy ∧ E.cy < E.rowoff + E.screenrows →
        E.rowoff + E.screenrows ≤ INT_MAX → E1.rowoff = E.rowoff) ∧
      (E.coloff ≤ cursorRx E ∧ cursorRx E < E.coloff + E.screencols →
        E.coloff + E.screencols ≤ INT_MAX → E1.coloff = E.coloff) := by
  have hrx := cursorRx_of_row E hrow
  obtain ⟨i1, i2, i3, i4, i5, i6⟩ := hint
  obtain ⟨E1, h1, e1, e2, e3, e4, e5, e6, e7, e8, e9⟩ := XeditScroll_of_rx E (cursorRx E) hrx
  have hrx1 : (if E1.cy < E1.numrows then
      (arrayAt E1.row E1.cy).map (fun row => XeditRowCxToRx row E1.cx) else some 0) =
      some (cursorRx E) := by
    rw [e2, e3, e4, e5]
    exact hrx
  obtain ⟨E2, h2, f1, _, _, _, _, _, _, f8, f9⟩ := XeditScroll_of_rx E1 (cursorRx E) hrx1
  refine ⟨E1, h1, e1, ⟨E2, h2, ?_, ?_, ?_⟩, ?_, ?_⟩
  · rw [f8, e2, e6, e8]
    exact axis_idempotent E.cy E.rowoff E.screenrows i1 i2 i4 hr
  · rw [f9, e7, e9]
    exact axis_idempotent (cursorRx E) E.coloff E.screencols i6 i3 i5 hc
  · rw [f1, e1]
  · rintro ⟨w1, w2⟩ w3
    rw [e8]
    exact axis_unchanged E.cy E.rowoff E.screenrows i1 w1 w2 w3
  · rintro ⟨w1, w2⟩ w3
    rw [e9]
    exact axis_unchanged (cursorRx E) E.coloff E.screencols i6 w1 w2 w3

theorem C17_scroll_idempotent_witness :
    1 ≤ docScroll.screenrows ∧ 1 ≤ docScroll.screencols ∧ XeditScroll.ints docScroll ∧
      ∃ E1, XeditScroll docScroll = some E1 ∧ E1.rx = cursorRx docScroll ∧
        (∃ E2, XeditScroll E1 = some E2 ∧ E2.rowoff = E1.rowoff ∧ E2.coloff = E1.coloff ∧
          E2.rx = E1.rx) ∧
        (docScroll.rowoff ≤ docScroll.cy ∧
            docScroll.cy < docScroll.rowoff + docScroll.screenrows →
          docScroll.rowoff + docScroll.screenrows ≤ INT_MAX → E1.rowoff = docScroll.rowoff) ∧
        (docScroll.coloff ≤ cursorRx docScroll ∧
            cursorRx docScroll < docScroll.coloff + docScroll.screencols →
          docScroll.coloff + docScroll.screencols ≤ INT_MAX → E1.coloff = docScroll.coloff) :=
  ⟨by decide, by decide, by decide,
    C17_scroll_idempotent docScroll (by decide) (by decide) (by decide) (fun _ => ⟨_, rfl⟩)⟩

/-! ## The cascade of `XeditUpdateSyntax`, call by call -/

theorem seed_eq_prevFlag (rows : List erow) (p : Nat) (row : erow) (hnum : numberedRows rows)
    (hrow : rows[p]? = some row) :
    (if row.idx > 0 then (arrayAt rows (row.idx - 1)).map (fun r => r.hl_open_comment)
      else some false) = some (prevFlag rows p) := by
  have hidx := hnum p row hrow
  obtain ⟨hp, _⟩ := List.getElem?_eq_some.mp hrow
  cases p with
  | zero =>
    rw [if_neg (by omega)]
    rfl
  | succ k =>
    rw [if_pos (by omega)]
    have hk : k < rows.length := by omega
    have e : row.idx - 1 = (k : Int) := by omega
    rw [e]
    unfold arrayAt
    rw [if_neg (by omega)]
    simp [prevFlag, List.getElem?_eq_getElem hk]

theorem XeditUpdateSyntax_unfold (f : Nat) (E : xeditConfig) (p : Nat) (row : erow)
    (syn : xeditSyntax) (st : ScanState) (hnum : numberedRows E.row)
    (hrow : E.row[p]? = some row) (hsyn : E.syn = some syn)
    (hst : scanLoop syn row.render (2 * row.rsize + 2)
      (scanInit row.render (prevFlag E.row p)) = some st) :
    (XeditUpdateSyntax (f + 1) E p =
      if (row.hl_open_comment != st.in_comment) = true ∧ (p : Int) + 1 < E.numrows then
        XeditUpdateSyntax f { E with row := E.row.set p { row with hl := st.hl, hl_open_comment := st.in_comment } } (p + 1)
      else some { E with row := E.row.set p { row with hl := st.hl, hl_open_comment := st.in_comment } }) ∧
    (XeditUpdateSyntax.calls (f + 1) E p =
      if (row.hl_open_comment != st.in_comment) = true ∧ (p : Int) + 1 < E.numrows then
        (XeditUpdateSyntax.calls f { E with row := E.row.set p { row with hl := st.hl, hl_open_comment := st.in_comment } } (p + 1)).map (fun l => p :: l)
      else some [p]) := by
  have hidx := hnum p row hrow
  have hseed := seed_eq_prevFlag E.row p row hnum hrow
  have hnn : ¬ (row.idx + 1 < 0) := by omega
  have htn : (row.idx + 1).toNat = p + 1 := by omega
  rw [hidx] at hseed hnn htn
  constructor
  · rw [XeditUpdateSyntax]
    simp only [hrow, hsyn, hseed, hst, hnn, if_false, htn, hidx]
  · rw [XeditUpdateSyntax.calls]
    simp only [hrow, hsyn, hseed, hst, hnn, if_false, htn, hidx]

theorem prevFlag_congr (rows1 rows2 : List erow) (p : Nat)
    (h : ∀ j, j < p → rows1[j]? = rows2[j]?) : prevFlag rows1 p = prevFlag rows2 p := by
  cases p with
  | zero => rfl
  | succ k => simp [prevFlag, h k (Nat.lt_succ_self k)]

theorem highlightRow_of_scanLoop (syn : xeditSyntax) (row : erow) (b : Bool) (st : ScanState)
    (hst : scanLoop syn row.render (2 * row.rsize + 2) (scanInit row.render b) = some st) :
    highlightRow syn row.render b = some (st.hl, st.in_comment) := by
  unfold erow.rsize at hst
  simp [highlightRow, hst]

theorem cascade_spec (fuel : Nat) (E : xeditConfig) (p : Nat) (hnum : numberedRows E.row)
    (hn : E.numrows = (E.row.length : Int)) (hp : p < E.row.length)
    (hf : E.row.length - p ≤ fuel) :
    ∃ E1 k, XeditUpdateSyntax fuel E p = some E1 ∧
      XeditUpdateSyntax.calls fuel E p = some (List.range' p k) ∧
      1 ≤ k ∧ p + k ≤ E.row.length ∧
      E1 = { E with row := E1.row } ∧ E1.row.length = E.row.length ∧
      (∀ j, j < p → E1.row[j]? = E.row[j]?) ∧
      (∀ j, p + k ≤ j → E1.row[j]? = E.row[j]?) ∧
      (∀ q r, p ≤ q → q < p + k → E.row[q]? = some r →
        ∃ r1, E1.row[q]? = some r1 ∧ r1.idx = r.idx ∧ r1.chars = r.chars ∧
          r1.render = r.render ∧
          (E.syn = none → r1.hl = List.replicate r.rsize HL_NORMAL ∧
            r1.hl_open_comment = r.hl_open_comment) ∧
          (∀ syn, E.syn = some syn →
            highlightRow syn r.render (prevFlag E1.row q) = some (r1.hl, r1.hl_open_comment)) ∧
          (q + 1 < p + k → r1.hl_open_comment ≠ r.hl_open_comment) ∧
          (q + 1 = p + k → q + 1 = E.row.length ∨ r1.hl_open_comment = r.hl_open_comment)) := by
  induction fuel generalizing E p with
  | zero => omega
  | succ f ih =>
    have hrow : E.row[p]? = some E.row[p] := List.getElem?_eq_getElem hp
    have hcases : E.syn = none ∨ ∃ syn, E.syn = some syn := by
      cases E.syn with
      | none => exact Or.inl rfl
      | some syn => exact Or.inr ⟨syn, rfl⟩
    rcases hcases with hsyn | ⟨syn, hsyn⟩
    · have hu1 : XeditUpdateSyntax (f + 1) E p = some { E with row := E.row.set p { E.row[p] with hl := List.replicate E.row[p].rsize HL_NORMAL } } := by
        rw [XeditUpdateSyntax]
        simp only [hrow, hsyn]
      have hu2 : XeditUpdateSyntax.calls (f + 1) E p = some [p] := by
        rw [XeditUpdateSyntax.calls]
        simp only [hrow, hsyn]
      refine ⟨_, 1, hu1, hu2, Nat.le_refl _, by omega, rfl, by simp, ?_, ?_, ?_⟩
      · intro j hj
        exact List.getElem?_set_ne (by omega)
      · intro j hj
        exact List.getElem?_set_ne (by omega)
      · intro q r hq1 hq2 hr
        have hqp : q = p := by omega
        subst hqp
        rw [hrow] at hr
        injection hr with hr
        subst hr
        refine ⟨_, List.getElem?_set_self hp, rfl, rfl, rfl, fun _ => ⟨rfl, rfl⟩, ?_, ?_, ?_⟩
        · intro syn hs
          rw [hsyn] at hs
          exact absurd hs (by simp)
        · intro h
          omega
        · intro _
          exact Or.inr rfl
    · obtain ⟨st, hst⟩ := scanLoop_total syn E.row[p].render (2 * E.row[p].rsize + 2)
        (scanInit E.row[p].render (prevFlag E.row p)) (scanInit_measure _ _)
      obtain ⟨hu1, hu2⟩ := XeditUpdateSyntax_unfold f E p E.row[p] syn st hnum hrow hsyn hst
      have hhl := highlightRow_of_scanLoop syn E.row[p] _ st hst
      obtain ⟨E0, hE0⟩ : ∃ E0 : xeditConfig, E0 = { E with row := E.row.set p { E.row[p] with hl := st.hl, hl_open_comment := st.in_comment } } := ⟨_, rfl⟩
      rw [← hE0] at hu1 hu2
      have hE0row : E0.row = E.row.set p { E.row[p] with hl := st.hl, hl_open_comment := st.in_comment } := by
        rw [hE0]
      have hE0len : E0.row.length = E.row.length := by
        rw [hE0row, List.length_set]
      have hE0p : E0.row[p]? = some { E.row[p] with hl := st.hl, hl_open_comment := st.in_comment } := by
        rw [hE0row]
        exact List.getElem?_set_self hp
      have hE0ne : ∀ j, j ≠ p → E0.row[j]? = E.row[j]? := by
        intro j hj
        rw [hE0row]
        exact List.getElem?_set_ne (by omega)
      have hE0eq : E0 = { E with row := E0.row } := by
        rw [hE0]
      have hE0syn : E0.syn = E.syn := by
        rw [hE0]
      have hE0num : E0.numrows = E.numrows := by
        rw [hE0]
      by_cases hcas : (E.row[p].hl_open_comment != st.in_comment) = true ∧ (p : Int) + 1 < E.numrows
      · rw [if_pos hcas] at hu1 hu2
        have hnum0 : numberedRows E0.row := by
          rw [hE0row]
          exact numberedRows_of_map_text E.row _ (map_text_set _ _ _ _ hrow rfl) hnum
        obtain ⟨E1, k, i1, i2, i3, i4, i5, i6, i7, i8, i9⟩ := ih E0 (p + 1) hnum0
          (by rw [hE0num, hE0len]; exact hn) (by omega) (by omega)
        refine ⟨E1, k + 1, by rw [hu1, i1], ?_, by omega, by omega, ?_, by omega, ?_, ?_, ?_⟩
        · rw [hu2, i2]
          rfl
        · rw [i5, hE0eq]
        · intro j hj
          rw [i7 j (by omega), hE0ne j (by omega)]
        · intro j hj
          rw [i8 j (by omega), hE0ne j (by omega)]
        · intro q r hq1 hq2 hr
          by_cases hqp : q = p
          · subst hqp
            rw [hrow] at hr
            injection hr with hr
            subst hr
            refine ⟨{ E.row[q] with hl := st.hl, hl_open_comment := st.in_comment }, by rw [i7 q (by omega), hE0p], rfl, rfl, rfl, ?_, ?_, ?_, ?_⟩
            · intro hs
              rw [hsyn] at hs
              exact absurd hs (by simp)
            · intro syn1 hs
              rw [hsyn] at hs
              injection hs with hs
              subst hs
              have hpf : prevFlag E1.row q = prevFlag E.row q :=
                prevFlag_congr _ _ _ (fun j hj => by rw [i7 j (by omega), hE0ne j (by omega)])
              rw [hpf]
              exact hhl
            · intro _ heq
              have h1 := hcas.1
              have heq1 : st.in_comment = E.row[q].hl_open_comment := heq
              rw [heq1] at h1
              simp at h1
            · intro h
              omega
          · have hr0 : E0.row[q]? = some r := by rw [hE0ne q hqp, hr]
            obtain ⟨r1, j1, j2, j3, j4, j5, j6, j7, j8⟩ := i9 q r (by omega) (by omega) hr0
            refine ⟨r1, j1, j2, j3, j4, ?_, ?_, ?_, ?_⟩
            · intro hs
              exact j5 (by rw [hE0syn, hs])
            · intro syn1 hs
              exact j6 syn1 (by rw [hE0syn, hs])
            · intro h
              exact j7 (by omega)
            · intro h
              rcases j8 (by omega) with h1 | h1
              · exact Or.inl (by omega)
              · exact Or.inr h1
      · rw [if_neg hcas] at hu1 hu2
        refine ⟨E0, 1, hu1, hu2, Nat.le_refl _, by omega, hE0eq, hE0len, ?_, ?_, ?_⟩
        · intro j hj
          exact hE0ne j (by omega)
        · intro j hj
          exact hE0ne j (by omega)
        · intro q r hq1 hq2 hr
          have hqp : q = p := by omega
          subst hqp
          rw [hrow] at hr
          injection hr with hr
          subst hr
          refine ⟨_, hE0p, rfl, rfl, rfl, ?_, ?_, ?_, ?_⟩
          · intro hs
            rw [hsyn] at hs
            exact absurd hs (by simp)
          · intro syn1 hs
            rw [hsyn] at hs
            injection hs with hs
            subst hs
            have hpf : prevFlag E0.row q = prevFlag E.row q :=
              prevFlag_congr _ _ _ (fun j hj => hE0ne j (by omega))
            rw [hpf]
            exact hhl
          · intro h
            omega
          · intro _
            by_cases hlast : q + 1 = E.row.length
            · exact Or.inl hlast
            · right
              have hc : ¬ (E.row[q].hl_open_comment != st.in_comment) = true := by
                intro hc
                exact hcas ⟨hc, by omega⟩
              have hc1 : E.row[q].hl_open_comment = st.in_comment := by simpa using hc
              exact hc1.symm

/-- C19: on a document whose rows satisfy `idx == position`, `XeditUpdateSyntax` called on row
`i` returns, and it does so within `numrows - i` calls (the fuel counts the nested calls).  The
calls are on the rows `i, i+1, ..., i+k-1` in this order with `1 <= k <= numrows - i`; the flag
`hl_open_comment` of every row visited before the last one was changed by its call, and the
last row visited is the last row of the document or has its flag unchanged. -/
theorem C19_cascade_terminates (E : xeditConfig) (i fuel : Nat) (hE : numbered E)
    (hi : i < E.row.length) (hf : E.row.length - i ≤ fuel) :
    ∃ E1 k, XeditUpdateSyntax fuel E i = some E1 ∧
      XeditUpdateSyntax.calls fuel E i = some (List.range' i k) ∧
      1 ≤ k ∧ (k : Int) ≤ E.numrows - (i : Int) ∧
      (∀ q r r1, i ≤ q → q + 1 < i + k → E.row[q]? = some r → E1.row[q]? = some r1 →
        r1.hl_open_comment ≠ r.hl_open_comment) ∧
      (∀ r r1, E.row[i + k - 1]? = some r → E1.row[i + k - 1]? = some r1 →
        i + k = E.row.length ∨ r1.hl_open_comment = r.hl_open_comment) := by
  obtain ⟨E1, k, c1, c2, c3, c4, _, _, _, _, c9⟩ := cascade_spec fuel E i hE.2 hE.1 hi hf
  refine ⟨E1, k, c1, c2, c3, ?_, ?_, ?_⟩
  · have := hE.1
    omega
  · intro q r r1 hq1 hq2 hr hr1
    obtain ⟨r2, d1, _, _, _, _, _, d7, _⟩ := c9 q r hq1 (by omega) hr
    rw [hr1] at d1
    injection d1 with d1
    subst d1
    exact d7 hq2
  · intro r r1 hr hr1
    obtain ⟨r2, d1, _, _, _, _, _, _, d8⟩ := c9 (i + k - 1) r (by omega) (by omega) hr
    rw [hr1] at d1
    injection d1 with d1
    subst d1
    rcases d8 (by omega) with h | h
    · exact Or.inl (by omega)
    · exact Or.inr h

theorem docCascade_numbered : numbered docCascade :=
  numbered_of_check _ (by decide) (by decide)

theorem C19_cascade_terminates_witness :
    numbered docCascade ∧ 0 < docCascade.row.length ∧
      XeditUpdateSyntax.calls 3 docCascade 0 = some [0, 1, 2] ∧
      ∃ E1 k, XeditUpdateSyntax 3 docCascade 0 = some E1 ∧
        XeditUpdateSyntax.calls 3 docCascade 0 = some (List.range' 0 k) ∧
        1 ≤ k ∧ (k : Int) ≤ docCascade.numrows - ((0 : Nat) : Int) ∧
        (∀ q r r1, 0 ≤ q → q + 1 < 0 + k → docCascade.row[q]? = some r → E1.row[q]? = some r1 →
          r1.hl_open_comment ≠ r.hl_open_comment) ∧
        (∀ r r1, docCascade.row[0 + k - 1]? = some r → E1.row[0 + k - 1]? = some r1 →
          0 + k = docCascade.row.length ∨ r1.hl_open_comment = r.hl_open_comment) :=
  ⟨docCascade_numbered, by decide, by decide,
    C19_cascade_terminates docCascade 0 3 docCascade_numbered (by decide) (by decide)⟩

/-- C14: on a document numbered exactly, the highlight array and the flag that
`XeditUpdateSyntax` leaves on the row it is called on are those of the scan of that row's render
started with the previous row's `hl_open_comment` under the profile: they depend on nothing
else.  The scan always starts with `in_string = 0`, so a string left open on the previous row
does not reach into the next one: for the rows `"he said \"hi` and `there\""` the second row's
bytes `there` (and the backslash) are `HL_NORMAL`. -/
theorem C14_highlight_depends_on_row_and_flag :
    (∀ (E : xeditConfig) (p fuel : Nat) (syn : xeditSyntax) (row : erow), numbered E →
      E.syn = some syn → E.row[p]? = some row → E.row.length - p ≤ fuel →
      ∃ E1 r1, XeditUpdateSyntax fuel E p = some E1 ∧ E1.row[p]? = some r1 ∧
        highlightRow syn row.render (prevFlag E.row p) = some (r1.hl, r1.hl_open_comment)) ∧
    (∀ (render : List Nat) (b : Bool), (scanInit render b).in_string = 0) ∧
    (applyRowOps (emptyConfig (some HLDB_c)) [RowOp.insert 0 rowHeSaid, RowOp.insert 1 rowThere]).map
        (fun E => E.row.map (fun r => (r.render, r.hl, r.hl_open_comment))) =
      some [(rowHeSaid, List.replicate 13 HL_STRING, false),
        (rowThere, [HL_NORMAL, HL_NORMAL, HL_NORMAL, HL_NORMAL, HL_NORMAL, HL_NORMAL, HL_STRING,
          HL_STRING], false)] := by
  refine ⟨?_, fun _ _ => rfl, by decide⟩
  intro E p fuel syn row hE hsyn hrow hf
  obtain ⟨hp, _⟩ := List.getElem?_eq_some.mp hrow
  obtain ⟨E1, k, c1, _, c3, _, _, _, c7, _, c9⟩ := cascade_spec fuel E p hE.2 hE.1 hp hf
  obtain ⟨r1, d1, _, _, _, _, d6, _, _⟩ := c9 p row (Nat.le_refl _) (by omega) hrow
  refine ⟨E1, r1, c1, d1, ?_⟩
  rw [← prevFlag_congr E1.row E.row p c7]
  exact d6 syn hsyn

theorem C14_highlight_depends_on_row_and_flag_witness :
    ∃ E1 r1, XeditUpdateSyntax 3 docCascade 1 = some E1 ∧ E1.row[1]? = some r1 ∧
      highlightRow HLDB_c [120] (prevFlag docCascade.row 1) = some (r1.hl, r1.hl_open_comment) :=
  C14_highlight_depends_on_row_and_flag.1 docCascade 1 3 HLDB_c
    { idx := 1, chars := [120], render := [120], hl := [HL_NORMAL], hl_open_comment := false }
    docCascade_numbered rfl rfl (by decide)

/-! ## What a terminal shows for the output of the render composer -/

theorem shown_color (d : Nat) (t : TermState) (rest : List Nat) (hd1 : 48 ≤ d) (hd2 : d ≤ 55) :
    shown 0 [] t (27 :: 91 :: 51 :: d :: 109 :: rest) =
      shown 0 [] { t with fg := ((30 + (d - 48) : Nat) : Int) } rest := by
  have h1 : ¬ (64 ≤ d ∧ d ≤ 126) := by omega
  have h2 : 10 * (51 - 48) + (d - 48) = 30 + (d - 48) := by omega
  have h3 : ¬ (30 + (d - 48) = 0) := by omega
  have h4 : ¬ (30 + (d - 48) = 7) := by omega
  have h5 : ¬ (30 + (d - 48) = 39) := by omega
  have h6 : 30 ≤ 30 + (d - 48) ∧ 30 + (d - 48) ≤ 37 := by omega
  simp [shown, h1, sgr, h3, h4, h5, h6]

theorem shown_default (t : TermState) (rest : List Nat) :
    shown 0 [] t (27 :: 91 :: 51 :: 57 :: 109 :: rest) = shown 0 [] { t with fg := -1 } rest := by
  simp [shown, sgr]

theorem shown_glyph (s : Nat) (t : TermState) (rest : List Nat) (hs : s ≠ 27) :
    shown 0 [] t (27 :: 91 :: 55 :: 109 :: s :: 27 :: 91 :: 109 :: rest) =
      (s, t.fg, true) :: shown 0 [] { fg := -1, inverse := false } rest := by
  simp [shown, sgr, hs]

theorem walkChunk_shown (cj : Nat) (hj : xeditHighlight) (cur : Int) (rest : List Nat)
    (hcur : walkColor cur) :
    shown 0 [] { fg := cur, inverse := false } ((walkChunk cj hj cur).1 ++ rest) =
      (if iscntrl cj = true then (glyph cj, cur, true) else (cj, colorOf hj, false)) ::
        shown 0 [] { fg := (walkChunk cj hj cur).2, inverse := false } rest := by
  obtain ⟨e31, e32, e33, e35, e36⟩ := colorEscape_values
  unfold walkChunk glyph
  by_cases hc : iscntrl cj = true
  · simp only [if_pos hc]
    have hs : (if schar cj ≤ 26 then 64 + cj else 63) ≠ 27 := by
      split_ifs <;> omega
    rcases hcur with h | h | h | h | h | h <;> subst h <;>
      simp [shown_glyph _ _ _ hs, shown_color, e31, e32, e33, e35, e36]
  · have hne := not_cntrl_ne_esc cj hc
    have hd : ∀ t : TermState, shown 0 [] t (cj :: rest) = (cj, t.fg, t.inverse) :: shown 0 [] t rest := by
      intro t
      simp [shown, hne]
    simp only [if_neg hc]
    by_cases hn : hj = HL_NORMAL
    · subst hn
      simp only [if_true, colorOf]
      split_ifs <;> simp_all [shown_default, hd]
    · simp only [if_neg hn, colorOf]
      cases hj <;> simp at hn <;> simp only [XeditSyntaxToColor] <;>
        split_ifs <;>
        simp_all [shown_color, hd, e31, e32, e33, e35, e36]

theorem walkChunk_snd (cj : Nat) (hj : xeditHighlight) (cur : Int) :
    (walkChunk cj hj cur).2 = if iscntrl cj = true then cur else colorOf hj := by
  unfold walkChunk colorOf
  split_ifs <;> rfl

theorem walk_shown (render : List Nat) (hl : List xeditHighlight) (c : Nat)
    (hlen : hl.length = render.length) (n j : Nat) (cur : Int) (out : List Nat)
    (hcur : walkColor cur) (hb : c + j + n ≤ render.length)
    (h : XeditDrawRows.walk render hl (c : Int) n j cur [] = some out) :
    shown 0 [] { fg := cur, inverse := false } out =
      cellsFrom cur (((render.drop (c + j)).take n).zip ((hl.drop (c + j)).take n)) := by
  induction n generalizing j cur out with
  | zero =>
    simp only [XeditDrawRows.walk, Option.some.injEq] at h
    subst h
    simp [shown, cellsFrom]
  | succ n ih =>
    have h1 : render[c + j]? = some render[c + j] := List.getElem?_eq_getElem (by omega)
    have h2 : hl[c + j]? = some hl[c + j] := List.getElem?_eq_getElem (by omega)
    rw [walk_step render hl c n j cur _ _ ((arrayAt_nat render c j).trans h1)
      ((arrayAt_nat hl c j).trans h2)] at h
    cases ho : XeditDrawRows.walk render hl (c : Int) n (j + 1)
        (walkChunk render[c + j] hl[c + j] cur).2 [] with
    | none => simp [ho] at h
    | some out1 =>
      simp only [ho, Option.map_some', Option.some.injEq] at h
      subst h
      have ih1 := ih (j + 1) _ out1 (walkChunk_color _ _ _ hcur) (by omega) ho
      have e : c + (j + 1) = c + j + 1 := by omega
      rw [e] at ih1
      rw [walkChunk_shown _ _ _ _ hcur, ih1, drop_take_succ render (c + j) n _ h1,
        drop_take_succ hl (c + j) n _ h2, List.zip_cons_cons, cellsFrom, walkChunk_snd]
      split_ifs <;> rfl

theorem cellsFrom_filter (cur : Int) (pairs : List (Nat × xeditHighlight)) :
    (cellsFrom cur pairs).filter (fun cell => !cell.2.2) =
      (pairs.filter (fun p => !iscntrl p.1)).map (fun p => (p.1, colorOf p.2, false)) := by
  induction pairs generalizing cur with
  | nil => simp [cellsFrom]
  | cons p rest ih =>
    obtain ⟨c, h⟩ := p
    unfold cellsFrom
    by_cases hc : iscntrl c = true
    · simp [hc, ih]
    · simp [hc, ih]

theorem cntrl_schar_le (v : Nat) (hv : iscntrl v = true) : schar v ≤ 26 ↔ v ≤ 26 := by
  have h1 : v < 32 ∨ v = 127 := by
    simpa [iscntrl] using hv
  have h2 : v < 128 := by omega
  simp only [schar, if_pos h2]
  omega

/-- C20: for a control byte `v` read from the slice, one pass of the walk of `XeditDrawRows`
appends `ESC[7m`, the glyph (`'@' + v` when `v <= 26`, `'?'` otherwise), `ESC[m`, and then, when
`current_color` is not `-1`, the escape of that colour, and leaves `current_color` as it was.
For a row whose highlight array has the length of its render and `coloff >= 0`, a terminal that
starts in the default colour shows for the output of the walk: every control byte of the slice
as its glyph in inverse video, and every other byte in the colour of its classification, not in
inverse video, exactly as for the slice with the control bytes left out. -/
theorem C20_control_glyph_keeps_colour (E : xeditConfig) (row : erow) (h0 : 0 ≤ E.coloff)
    (hhl : row.hl.length = row.rsize) :
    (∀ (n j : Nat) (cur : Int) (ab : List Nat) (v : Nat),
      arrayAt row.render (E.coloff + j) = some v → iscntrl v = true →
      XeditDrawRows.walk row.render row.hl E.coloff (n + 1) j cur ab =
        XeditDrawRows.walk row.render row.hl E.coloff n (j + 1) cur
          (ab ++ [27, 91, 55, 109] ++ [if v ≤ 26 then 64 + v else 63] ++ [27, 91, 109] ++
            (if cur ≠ -1 then colorEscape cur else []))) ∧
    ∃ out, XeditDrawRows.walk row.render row.hl E.coloff (XeditDrawRows.len E row).toNat 0 (-1)
        [] = some out ∧
      shown 0 [] { fg := -1, inverse := false } out =
        cellsFrom (-1) (((row.render.drop E.coloff.toNat).take (XeditDrawRows.len E row).toNat).zip
          ((row.hl.drop E.coloff.toNat).take (XeditDrawRows.len E row).toNat)) ∧
      (shown 0 [] { fg := -1, inverse := false } out).filter (fun cell => !cell.2.2) =
        ((((row.render.drop E.coloff.toNat).take (XeditDrawRows.len E row).toNat).zip
          ((row.hl.drop E.coloff.toNat).take (XeditDrawRows.len E row).toNat)).filter
            (fun p => !iscntrl p.1)).map (fun p => (p.1, colorOf p.2, false)) := by
  constructor
  · intro n j cur ab v hv hc
    rw [XeditDrawRows.walk, hv]
    simp only [hc, if_true, abAppend]
    have hs : (schar v ≤ 26) = (v ≤ 26) := propext (cntrl_schar_le v hc)
    simp only [hs]
    split_ifs <;> simp [List.append_assoc]
  · have hc : E.coloff = (E.coloff.toNat : Int) := by omega
    have key : ∃ out, XeditDrawRows.walk row.render row.hl E.coloff
        (XeditDrawRows.len E row).toNat 0 (-1) [] = some out ∧
        shown 0 [] { fg := -1, inverse := false } out =
          cellsFrom (-1) (((row.render.drop E.coloff.toNat).take
            (XeditDrawRows.len E row).toNat).zip
            ((row.hl.drop E.coloff.toNat).take (XeditDrawRows.len E row).toNat)) := by
      by_cases hn : (XeditDrawRows.len E row).toNat = 0
      · rw [hn]
        exact ⟨[], rfl, by simp [shown, cellsFrom]⟩
      · have hb := drawLen_le E row h0 hn
        obtain ⟨out, ho⟩ := walk_total row.render row.hl E.coloff.toNat
          (XeditDrawRows.len E row).toNat 0 (-1) hhl hb
        refine ⟨out, by rw [hc]; exact ho, ?_⟩
        exact walk_shown row.render row.hl E.coloff.toNat hhl _ 0 (-1) out (Or.inl rfl) hb ho
    obtain ⟨out, ho, hs⟩ := key
    refine ⟨out, ho, hs, ?_⟩
    rw [hs]
    exact cellsFrom_filter _ _

theorem C20_control_glyph_keeps_colour_witness :
    (0 : Int) ≤ docCtrlString.coloff ∧ rowCtrlString.hl.length = rowCtrlString.rsize ∧
      ∃ out, XeditDrawRows.walk rowCtrlString.render rowCtrlString.hl docCtrlString.coloff
          (XeditDrawRows.len docCtrlString rowCtrlString).toNat 0 (-1) [] = some out ∧
        shown 0 [] { fg := -1, inverse := false } out =
          [(34, 35, false), (65, 35, true), (65, 35, true), (34, 35, false)] ∧
        (shown 0 [] { fg := -1, inverse := false } out).filter (fun cell => !cell.2.2) =
          [(34, 35, false), (34, 35, false)] :=
  ⟨by decide, by decide,
    (C20_control_glyph_keeps_colour docCtrlString rowCtrlString (by decide) (by decide)).2⟩

/-! ## Shared facts about row arrays -/

theorem numberedRows_set (rows : List erow) (p : Nat) (row r1 : erow)
    (hp : rows[p]? = some row) (hi : r1.idx = row.idx) (hn : numberedRows rows) :
    numberedRows (rows.set p r1) := by
  intro k r hr
  rw [List.getElem?_set] at hr
  split_ifs at hr with h1 h2
  · subst h1
    injection hr with hr
    rw [← hr, hi]
    exact hn p row hp
  · exact hn k r hr

/-! ## Keywords: at most one matches -/

theorem byteAt_tail (s : List Nat) (k : Nat) : byteAt s.tail k = byteAt s (k + 1) := by
  cases s <;> simp [byteAt]

theorem strncmpEq_bytes (s1 s2 : List Nat) (n : Nat) (h : strncmpEq s1 s2 n = true)
    (hnz : ∀ k, k < n → byteAt s2 k ≠ 0) : ∀ k, k < n → byteAt s1 k = byteAt s2 k := by
  induction n generalizing s1 s2 with
  | zero => intro k hk; omega
  | succ m ih =>
    intro k hk
    unfold strncmpEq at h
    by_cases h0 : byteAt s1 0 = byteAt s2 0
    · have hz : byteAt s1 0 ≠ 0 := by rw [h0]; exact hnz 0 (by omega)
      simp only [h0, ne_eq, not_true_eq_false, if_false] at h
      rw [if_neg (by rw [← h0]; exact hz)] at h
      cases k with
      | zero => exact h0
      | succ j =>
        have := ih s1.tail s2.tail h (fun k hk => by rw [byteAt_tail]; exact hnz (k + 1) (by omega))
          j (by omega)
        rwa [byteAt_tail, byteAt_tail] at this
    · simp [h0] at h

theorem matchKeyword_cons (render : List Nat) (i : Nat) (kw : List Nat) (rest : List (List Nat)) :
    matchKeyword render i (kw :: rest) =
      if keywordMatches render i kw = true then some (keywordLen kw, keywordType kw)
      else matchKeyword render i rest := rfl

theorem matchKeyword_of_unique (render : List Nat) (i : Nat) (kws : List (List Nat))
    (kw : List Nat) (hkw : kw ∈ kws) (hm : keywordMatches render i kw = true)
    (hu : ∀ kw2, kw2 ∈ kws → keywordMatches render i kw2 = true → kw2 = kw) :
    matchKeyword render i kws = some (keywordLen kw, keywordType kw) := by
  induction kws with
  | nil => simp at hkw
  | cons k rest ih =>
    rw [matchKeyword_cons]
    by_cases hk : keywordMatches render i k = true
    · rw [if_pos hk, hu k (List.mem_cons_self _ _) hk]
    · rw [if_neg hk]
      rcases List.mem_cons.mp hkw with h | h
      · subst h; exact absurd hm hk
      · exact ih h (fun kw2 h2 => hu kw2 (List.mem_cons_of_mem _ h2))

theorem keywordMatches_same (render : List Nat) (i : Nat) (kw1 kw2 : List Nat)
    (hw1 : keywordWord kw1) (hw2 : keywordWord kw2)
    (h1 : keywordMatches render i kw1 = true) (h2 : keywordMatches render i kw2 = true) :
    kw1.take (keywordLen kw1) = kw2.take (keywordLen kw2) := by
  simp only [keywordMatches, Bool.and_eq_true] at h1 h2
  have nz : ∀ kw, keywordWord kw → ∀ k, k < keywordLen kw → byteAt kw k ≠ 0 := by
    intro kw hw k hk h0
    have := hw.2 k hk
    rw [h0] at this
    revert this
    decide
  have b1 := strncmpEq_bytes _ _ _ h1.1 (nz kw1 hw1)
  have b2 := strncmpEq_bytes _ _ _ h2.1 (nz kw2 hw2)
  simp only [byteAt_drop] at b1 b2
  have hlen : keywordLen kw1 = keywordLen kw2 := by
    rcases Nat.lt_trichotomy (keywordLen kw1) (keywordLen kw2) with h | h | h
    · have := hw2.2 _ h
      rw [← b2 _ h, h1.2] at this
      exact absurd this (by decide)
    · exact h
    · have := hw1.2 _ h
      rw [← b1 _ h, h2.2] at this
      exact absurd this (by decide)
  apply List.ext_getElem
  · simp only [List.length_take]
    have := hw1.1
    have := hw2.1
    omega
  · intro k hk1 hk2
    simp only [List.length_take] at hk1 hk2
    have e1 := b1 k (by omega)
    have e2 := b2 k (by omega)
    rw [e1] at e2
    simp only [byteAt, List.getD_eq_getElem?_getD] at e2
    have hb1 : k < kw1.length := by have := hw1.1; omega
    have hb2 : k < kw2.length := by have := hw2.1; omega
    have g1 : kw1[k]? = some kw1[k] := List.getElem?_eq_getElem hb1
    have g2 : kw2[k]? = some kw2[k] := List.getElem?_eq_getElem hb2
    rw [g1, g2] at e2
    simpa using e2

theorem C_HL_keywords_word : ∀ kw, kw ∈ C_HL_keywords → keywordLen kw ≤ kw.length ∧
    1 ≤ keywordLen kw ∧ 97 ≤ byteAt kw 0 ∧ byteAt kw 0 ≤ 122 ∧
    (List.range (keywordLen kw)).all (fun k => !IsSeperator (byteAt kw k)) = true := by
  decide

theorem C_HL_keywords_keywordWord (kw : List Nat) (h : kw ∈ C_HL_keywords) : keywordWord kw := by
  obtain ⟨h1, _, _, _, h5⟩ := C_HL_keywords_word kw h
  refine ⟨h1, fun k hk => ?_⟩
  rw [List.all_eq_true] at h5
  have := h5 k (List.mem_range.mpr hk)
  simpa using this

theorem C_HL_keywords_distinct : ∀ kw1, kw1 ∈ C_HL_keywords → ∀ kw2, kw2 ∈ C_HL_keywords →
    kw1.take (keywordLen kw1) = kw2.take (keywordLen kw2) → kw1 = kw2 := by
  decide

theorem letter_not_separator (c : Nat) (h1 : 97 ≤ c) (h2 : c ≤ 122) : IsSeperator c = false := by
  interval_cases c <;> decide

theorem letter_not_comment_start (render : List Nat) (i b : Nat) (h1 : 97 ≤ byteAt render i) :
    ¬ strncmpEq (render.drop i) [47, b] 2 = true := by
  intro h
  unfold strncmpEq at h
  have e : byteAt (render.drop i) 0 = byteAt render i := by rw [byteAt_drop]; rfl
  have e2 : byteAt [47, b] 0 = 47 := rfl
  rw [e, e2] at h
  have : byteAt render i ≠ 47 := by omega
  simp [this] at h

/-- The scan step of the C profile at a letter, outside strings and comments: the keyword
loop decides. -/
theorem scanStep_c_letter (render : List Nat) (st : ScanState) (hs : st.in_string = 0)
    (hc : st.in_comment = false) (h1 : 97 ≤ byteAt render st.i) (h2 : byteAt render st.i ≤ 122) :
    scanStep HLDB_c render st =
      match (if st.prev_sep = true then matchKeyword render st.i C_HL_keywords else none) with
      | some (klen, type) =>
        .next { st with
          hl := memsetHl st.hl st.i (if type then HL_TYPES else HL_KEYWORDS) klen
          i := st.i + klen
          prev_sep := false }
      | none => .next { st with prev_sep := IsSeperator (byteAt render st.i), i := st.i + 1 } := by
  have n1 := letter_not_comment_start render st.i 47 h1
  have n2 := letter_not_comment_start render st.i 42 h1
  have d1 : isdigit (byteAt render st.i) = false := by
    simp only [isdigit, Bool.and_eq_false_iff, decide_eq_false_iff_not]
    right; omega
  have c1 : byteAt render st.i ≠ 34 := by omega
  have c2 : byteAt render st.i ≠ 39 := by omega
  have c3 : byteAt render st.i ≠ 46 := by omega
  unfold scanStep
  simp only [HLDB_c_scs, HLDB_c_mcs, HLDB_c_mce, cstrlen, hc, hs, Option.getD_some,
    List.length_cons, List.length_nil, n1, n2, d1, c1, c2, c3]
  simp
  rfl

/-- C21: with the keyword table of the C profile, a keyword that matches at a position (its
bytes without the tag are there and the byte after them is a separator or the end of the row)
is the only keyword of the table that matches there, so none of the matching keywords is
longer; the first-match loop returns exactly this keyword, and when the position follows a
separator (`prev_sep` set, outside strings and comments) the step classifies its bytes as
`HL_TYPES` if it carries the tag `|` and as `HL_KEYWORDS` otherwise, and continues behind it.
At a letter that does not follow a separator the keyword loop is not entered: the step
leaves `hl` as it is and advances by one byte with `prev_sep` still clear.  The rows
`integer`, `iffy` and `xint` stay `HL_NORMAL` throughout, and in `int if` the word `int` is
`HL_TYPES` and `if` is `HL_KEYWORDS`. -/
theorem C21_keyword_match_unique (render : List Nat) (i : Nat) (kw : List Nat)
    (hkw : kw ∈ C_HL_keywords) (hm : keywordMatches render i kw = true) :
    (∀ kw2, kw2 ∈ C_HL_keywords → keywordMatches render i kw2 = true → kw2 = kw) ∧
    (∀ kw2, kw2 ∈ C_HL_keywords → keywordMatches render i kw2 = true →
      keywordLen kw2 ≤ keywordLen kw) ∧
    matchKeyword render i C_HL_keywords = some (keywordLen kw, keywordType kw) ∧
    (∀ st : ScanState, st.i = i → st.prev_sep = true → st.in_string = 0 →
      st.in_comment = false →
      scanStep HLDB_c render st =
        .next { st with
          hl := memsetHl st.hl i (if keywordType kw then HL_TYPES else HL_KEYWORDS)
            (keywordLen kw)
          i := i + keywordLen kw
          prev_sep := false }) ∧
    (∀ st : ScanState, st.i = i → st.prev_sep = false → st.in_string = 0 →
      st.in_comment = false →
      scanStep HLDB_c render st = .next { st with prev_sep := false, i := i + 1 }) ∧
    highlightRow HLDB_c rowInteger false = some (List.replicate 7 HL_NORMAL, false) ∧
    highlightRow HLDB_c rowIffy false = some (List.replicate 4 HL_NORMAL, false) ∧
    highlightRow HLDB_c rowXint false = some (List.replicate 4 HL_NORMAL, false) ∧
    highlightRow HLDB_c rowIntIf false =
      some ([HL_TYPES, HL_TYPES, HL_TYPES, HL_NORMAL, HL_KEYWORDS, HL_KEYWORDS], false) := by
  have hu : ∀ kw2, kw2 ∈ C_HL_keywords → keywordMatches render i kw2 = true → kw2 = kw :=
    fun kw2 h2 hm2 => C_HL_keywords_distinct kw2 h2 kw hkw
      (keywordMatches_same render i kw2 kw (C_HL_keywords_keywordWord kw2 h2)
        (C_HL_keywords_keywordWord kw hkw) hm2 hm)
  have hmk := matchKeyword_of_unique render i C_HL_keywords kw hkw hm hu
  obtain ⟨_, hl1, hl2, hl3, _⟩ := C_HL_keywords_word kw hkw
  have hb : byteAt render i = byteAt kw 0 := by
    simp only [keywordMatches, Bool.and_eq_true] at hm
    have nz : ∀ k, k < keywordLen kw → byteAt kw k ≠ 0 := by
      intro k hk h0
      have := (C_HL_keywords_keywordWord kw hkw).2 k hk
      rw [h0] at this
      revert this
      decide
    have := strncmpEq_bytes _ _ _ hm.1 nz 0 (by omega)
    rwa [byteAt_drop] at this
  refine ⟨hu, fun kw2 h2 hm2 => by rw [hu kw2 h2 hm2], hmk, ?_, ?_, by decide, by decide,
    by decide, by decide⟩
  · intro st hi hp hs hc
    subst hi
    rw [scanStep_c_letter render st hs hc (by omega) (by omega), if_pos hp, hmk]
  · intro st hi hp hs hc
    subst hi
    rw [scanStep_c_letter render st hs hc (by omega) (by omega)]
    have hf : ¬ st.prev_sep = true := by simp [hp]
    rw [if_neg hf, letter_not_separator _ (by omega) (by omega)]

theorem C21_keyword_match_unique_witness :
    matchKeyword rowIntIf 0 C_HL_keywords = some (3, true) ∧
    matchKeyword rowIntIf 4 C_HL_keywords = some (2, false) :=
  ⟨(C21_keyword_match_unique rowIntIf 0 (cstr ['i', 'n', 't', '|']) (by decide)
      (by decide)).2.2.1,
   (C21_keyword_match_unique rowIntIf 4 (cstr ['i', 'f']) (by decide) (by decide)).2.2.1⟩

/-! ## What one pass of the scan writes -/

theorem memsetHl_length (hl : List xeditHighlight) (i : Nat) (v : xeditHighlight) (n : Nat) :
    (memsetHl hl i v n).length = hl.length := by
  induction n generalizing hl i with
  | zero => rfl
  | succ m ih => simp only [memsetHl, ih, List.length_set]

theorem memsetHl_getElem? (hl : List xeditHighlight) (i : Nat) (v : xeditHighlight) (n k : Nat) :
    (memsetHl hl i v n)[k]? =
      if i ≤ k ∧ k < i + n ∧ k < hl.length then some v else hl[k]? := by
  induction n generalizing hl i with
  | zero =>
    simp only [memsetHl]
    rw [if_neg (by omega)]
  | succ m ih =>
    simp only [memsetHl, ih, List.length_set, List.getElem?_set]
    by_cases h1 : i = k
    · subst h1
      by_cases h2 : i < hl.length
      · simp [h2]
      · have : hl[i]? = none := List.getElem?_eq_none_iff.mpr (by omega)
        simp [h2, this]
    · by_cases h2 : i + 1 ≤ k ∧ k < i + 1 + m ∧ k < hl.length
      · rw [if_pos h2, if_pos (by omega)]
      · rw [if_neg h2, if_neg h1]
        by_cases h3 : i ≤ k ∧ k < i + (m + 1) ∧ k < hl.length
        · omega
        · rw [if_neg h3]

theorem hl_set_getElem? (hl : List xeditHighlight) (i k : Nat) (v : xeditHighlight) :
    (hl.set i v)[k]? = if i = k ∧ k < hl.length then some v else hl[k]? := by
  rw [List.getElem?_set]
  by_cases h1 : i = k
  · subst h1
    by_cases h2 : i < hl.length
    · simp [h2]
    · simp [h2, List.getElem?_eq_none_iff.mpr (Nat.le_of_not_lt h2)]
  · simp [h1]

theorem scanStep_next_writes (syn : xeditSyntax) (render : List Nat) (st st1 : ScanState)
    (h : scanStep syn render st = ScanStep.next st1) :
    st1.hl.length = st.hl.length ∧ st.i ≤ st1.i ∧
    (∀ k, k < st.i ∨ st1.i ≤ k → st1.hl[k]? = st.hl[k]?) ∧
    (∀ k, st.i ≤ k → k < st1.i →
      st1.hl[k]? = st.hl[k]? ∨ (∃ v, st1.hl[k]? = some v ∧ v ≠ HL_NUMBER) ∨
      (k = st.i ∧ (byteAt render k = 46 → 0 < k ∧ st.hl[k - 1]? = some HL_NUMBER))) := by
  unfold scanStep at h
  dsimp only at h
  generalize hprev : (if st.i > 0 then st.hl.getD (st.i - 1) HL_NORMAL else HL_NORMAL) = prev_hl
    at h
  split_ifs at h with h1 h2 h3 h4 h5 h6 h7 h8 h9
  all_goals (try (injection h with h; subst h))
  · have hz := h2.2.1
    refine ⟨by simp [memsetHl_length], by simp, ?_, ?_⟩
    · intro k hk
      dsimp only at hk ⊢
      simp only [memsetHl_getElem?, hl_set_getElem?, List.length_set]
      split_ifs <;> first | rfl | omega
    · intro k hk1 hk2
      dsimp only at hk1 hk2 ⊢
      simp only [memsetHl_getElem?, hl_set_getElem?, List.length_set]
      split_ifs <;> first | (left; rfl) | (right; left; exact ⟨_, rfl, by decide⟩)
  · refine ⟨by simp [memsetHl_length], by simp, ?_, ?_⟩
    · intro k hk
      dsimp only at hk ⊢
      simp only [memsetHl_getElem?, hl_set_getElem?, List.length_set]
      split_ifs <;> first | rfl | omega
    · intro k hk1 hk2
      dsimp only at hk1 hk2 ⊢
      simp only [memsetHl_getElem?, hl_set_getElem?, List.length_set]
      split_ifs <;> first | (left; rfl) | (right; left; exact ⟨_, rfl, by decide⟩)
  · refine ⟨by simp [memsetHl_length], by simp, ?_, ?_⟩
    · intro k hk
      dsimp only at hk ⊢
      simp only [memsetHl_getElem?, hl_set_getElem?, List.length_set]
      split_ifs <;> first | rfl | omega
    · intro k hk1 hk2
      dsimp only at hk1 hk2 ⊢
      simp only [memsetHl_getElem?, hl_set_getElem?, List.length_set]
      split_ifs <;> first | (left; rfl) | (right; left; exact ⟨_, rfl, by decide⟩)
  · refine ⟨by simp [memsetHl_length], by simp, ?_, ?_⟩
    · intro k hk
      dsimp only at hk ⊢
      simp only [memsetHl_getElem?, hl_set_getElem?, List.length_set]
      split_ifs <;> first | rfl | omega
    · intro k hk1 hk2
      dsimp only at hk1 hk2 ⊢
      simp only [memsetHl_getElem?, hl_set_getElem?, List.length_set]
      split_ifs <;> first | (left; rfl) | (right; left; exact ⟨_, rfl, by decide⟩)
  · refine ⟨by simp [memsetHl_length], by simp, ?_, ?_⟩
    · intro k hk
      dsimp only at hk ⊢
      simp only [memsetHl_getElem?, hl_set_getElem?, List.length_set]
      split_ifs <;> first | rfl | omega
    · intro k hk1 hk2
      dsimp only at hk1 hk2 ⊢
      simp only [memsetHl_getElem?, hl_set_getElem?, List.length_set]
      split_ifs <;> first | (left; rfl) | (right; left; exact ⟨_, rfl, by decide⟩)
  · refine ⟨by simp [memsetHl_length], by simp, ?_, ?_⟩
    · intro k hk
      dsimp only at hk ⊢
      simp only [memsetHl_getElem?, hl_set_getElem?, List.length_set]
      split_ifs <;> first | rfl | omega
    · intro k hk1 hk2
      dsimp only at hk1 hk2 ⊢
      simp only [memsetHl_getElem?, hl_set_getElem?, List.length_set]
      split_ifs <;> first | (left; rfl) | (right; left; exact ⟨_, rfl, by decide⟩)
  · refine ⟨by simp [memsetHl_length], by simp, ?_, ?_⟩
    · intro k hk
      dsimp only at hk ⊢
      simp only [memsetHl_getElem?, hl_set_getElem?, List.length_set]
      split_ifs <;> first | rfl | omega
    · intro k hk1 hk2
      dsimp only at hk1 hk2 ⊢
      simp only [memsetHl_getElem?, hl_set_getElem?, List.length_set]
      split_ifs <;> first | (left; rfl) | (right; left; exact ⟨_, rfl, by decide⟩)
  · refine ⟨by simp, by simp, ?_, ?_⟩
    · intro k hk
      dsimp only at hk ⊢
      rw [List.getElem?_set_ne (by omega)]
    · intro k hk1 hk2
      dsimp only at hk1 hk2 ⊢
      have hk : k = st.i := by omega
      subst hk
      right; right
      refine ⟨rfl, fun hc => ?_⟩
      rcases h9.2 with ⟨hd, _⟩ | ⟨_, hp⟩
      · rw [hc] at hd
        exact absurd hd (by decide)
      · rw [hp] at hprev
        split_ifs at hprev with hpos
        · refine ⟨hpos, ?_⟩
          cases hq : st.hl[st.i - 1]? with
          | none => simp [List.getD_eq_getElem?_getD, hq] at hprev
          | some v =>
            simp only [List.getD_eq_getElem?_getD, hq, Option.getD_some] at hprev
            rw [hprev]
  · split at h
    · injection h with h
      subst h
      refine ⟨by simp [memsetHl_length], by simp, ?_, ?_⟩
      · intro k hk
        dsimp only at hk ⊢
        simp only [memsetHl_getElem?]
        split_ifs <;> first | rfl | omega
      · intro k hk1 hk2
        dsimp only at hk1 hk2 ⊢
        simp only [memsetHl_getElem?]
        split_ifs <;> first | (left; rfl) | (right; left; exact ⟨_, rfl, by decide⟩)
    · injection h with h
      subst h
      exact ⟨rfl, by simp, fun k _ => rfl, fun k _ _ => Or.inl rfl⟩
  · exact ⟨rfl, by simp, fun k _ => rfl, fun k _ _ => Or.inl rfl⟩

theorem scanStep_stop_writes (syn : xeditSyntax) (render : List Nat) (st st1 : ScanState)
    (h : scanStep syn render st = ScanStep.stop st1) :
    st1.hl.length = st.hl.length ∧
    (∀ k, k < st.i → st1.hl[k]? = st.hl[k]?) ∧
    (∀ k, st.i ≤ k → st1.hl[k]? = st.hl[k]? ∨ st1.hl[k]? = some HL_COMMENT) := by
  unfold scanStep at h
  dsimp only at h
  split_ifs at h
  all_goals (try (injection h with h; subst h))
  · refine ⟨by simp [memsetHl_length], ?_, ?_⟩
    · intro k hk
      dsimp only at hk ⊢
      simp only [memsetHl_getElem?]
      split_ifs <;> first | rfl | omega
    · intro k hk
      dsimp only at hk ⊢
      simp only [memsetHl_getElem?]
      split_ifs <;> first | (left; rfl) | (right; rfl)
  all_goals (split at h <;> injection h)

theorem scanLoop_dots (syn : xeditSyntax) (render : List Nat) (fuel : Nat) (st res : ScanState)
    (h2 : ∀ k, st.i ≤ k → st.hl[k]? ≠ some HL_NUMBER)
    (h3 : ∀ k, k < st.i → byteAt render k = 46 → st.hl[k]? = some HL_NUMBER →
      0 < k ∧ st.hl[k - 1]? = some HL_NUMBER)
    (h : scanLoop syn render fuel st = some res) :
    ∀ k, byteAt render k = 46 → res.hl[k]? = some HL_NUMBER →
      0 < k ∧ res.hl[k - 1]? = some HL_NUMBER := by
  induction fuel generalizing st with
  | zero => simp [scanLoop] at h
  | succ f ih =>
    unfold scanLoop at h
    split_ifs at h with hi
    · cases hs : scanStep syn render st with
      | next st1 =>
        rw [hs] at h
        obtain ⟨_, w2, w3, w4⟩ := scanStep_next_writes syn render st st1 hs
        refine ih st1 ?_ ?_ h
        · intro k hk
          rw [w3 k (Or.inr hk)]
          exact h2 k (by omega)
        · intro k hk hd hn
          by_cases hlt : k < st.i
          · rw [w3 k (Or.inl hlt)] at hn
            obtain ⟨a, b⟩ := h3 k hlt hd hn
            exact ⟨a, by rw [w3 (k - 1) (Or.inl (by omega))]; exact b⟩
          · rcases w4 k (by omega) hk with e | ⟨v, e, hv⟩ | ⟨e, hc⟩
            · rw [e] at hn
              exact absurd hn (h2 k (by omega))
            · rw [e] at hn
              injection hn with hn
              exact absurd hn hv
            · obtain ⟨a, b⟩ := hc hd
              exact ⟨a, by rw [w3 (k - 1) (Or.inl (by omega))]; exact b⟩
      | stop st1 =>
        rw [hs] at h
        injection h with h
        subst h
        obtain ⟨_, w2, w3⟩ := scanStep_stop_writes syn render st st1 hs
        intro k hd hn
        by_cases hlt : k < st.i
        · rw [w2 k hlt] at hn
          obtain ⟨a, b⟩ := h3 k hlt hd hn
          exact ⟨a, by rw [w2 (k - 1) (by omega)]; exact b⟩
        · rcases w3 k (by omega) with e | e
          · rw [e] at hn
            exact absurd hn (h2 k (by omega))
          · rw [e] at hn
            injection hn with hn
            exact absurd hn (by decide)
    · injection h with h
      subst h
      intro k hd hn
      by_cases hlt : k < st.i
      · exact h3 k hlt hd hn
      · exact absurd hn (h2 k (by omega))

/-- C22 (as stated, refuted): under the C profile the row `1.2.3` is classified `HL_NUMBER`
from its first to its last byte, one run with two `.` bytes; in `x 1..2` the run `1..2` holds
two as well. -/
theorem C22_number_run_two_dots :
    Nat.land HLDB_c.flags HL_HIGHLIGHT_NUMBERS ≠ 0 ∧
    highlightRow HLDB_c rowVersion false = some (List.replicate 5 HL_NUMBER, false) ∧
    dotsIn rowVersion 0 4 = 2 ∧
    highlightRow HLDB_c rowDotDot false =
      some ([HL_NORMAL, HL_NORMAL, HL_NUMBER, HL_NUMBER, HL_NUMBER, HL_NUMBER], false) ∧
    ¬ (∀ (render : List Nat) (hl : List xeditHighlight) (b : Bool),
        highlightRow HLDB_c render false = some (hl, b) →
        ∀ i j, numberRun hl i j → dotsIn render i j ≤ 1) := by
  refine ⟨by decide, by decide, by decide, by decide, ?_⟩
  intro h
  have h1 := h rowVersion (List.replicate 5 HL_NUMBER) false (by decide) 0 4
    (fun k _ hk => by
      have : k < 5 := by omega
      interval_cases k <;> rfl)
  revert h1
  decide

/-- C22 (amended): under every profile and for every row, a `.` byte that the scan classifies
`HL_NUMBER` is not the first byte of the row and the byte before it is classified `HL_NUMBER`
too; so a run of `HL_NUMBER` bytes never starts with `.`, while the number of `.` bytes in a
run is not bounded. -/
theorem C22_dot_follows_number (syn : xeditSyntax) (render : List Nat) (b flag : Bool)
    (hl : List xeditHighlight) (h : highlightRow syn render b = some (hl, flag)) (k : Nat)
    (hd : byteAt render k = 46) (hn : hl[k]? = some HL_NUMBER) :
    0 < k ∧ hl[k - 1]? = some HL_NUMBER := by
  unfold highlightRow at h
  cases hs : scanLoop syn render (2 * render.length + 2) (scanInit render b) with
  | none => simp [hs] at h
  | some st =>
    simp only [hs, Option.map_some', Option.some.injEq, Prod.mk.injEq] at h
    obtain ⟨h1, _⟩ := h
    subst h1
    refine scanLoop_dots syn render _ _ st ?_ ?_ hs k hd hn
    · intro j _ hj
      simp only [scanInit, List.getElem?_replicate] at hj
      split_ifs at hj
      injection hj with hj
      exact absurd hj (by decide)
    · intro j hj
      simp [scanInit] at hj

theorem C22_dot_follows_number_witness :
    0 < 3 ∧ (List.replicate 5 HL_NUMBER)[3 - 1]? = some HL_NUMBER :=
  C22_dot_follows_number HLDB_c rowVersion false false (List.replicate 5 HL_NUMBER)
    (by decide) 3 (by decide) (by decide)

/-! ## Escapes inside strings -/

/-- C23: under a profile that highlights strings, inside a string (`in_string` set) a
backslash that is not the last byte of the row classifies itself and the byte after it as
`HL_STRING` and skips both, leaving `in_string` as it is, so an escaped quote does not close
the string; any other byte is classified `HL_STRING` and closes the string exactly when it
equals the opening quote.  For the row `"a\"b" x` under the C profile the bytes 0..5 are
`HL_STRING` and the two bytes after them are `HL_NORMAL`. -/
theorem C23_escape_in_string (syn : xeditSyntax) (render : List Nat) (st : ScanState)
    (hflag : Nat.land syn.flags HL_HIGHLIGHT_STRINGS ≠ 0) (hin : st.in_string ≠ 0) :
    (byteAt render st.i = 92 → st.i + 1 < render.length →
      scanStep syn render st =
        .next { st with hl := (st.hl.set st.i HL_STRING).set (st.i + 1) HL_STRING,
                        i := st.i + 2 }) ∧
    (¬ (byteAt render st.i = 92 ∧ st.i + 1 < render.length) →
      scanStep syn render st =
        .next { st with hl := st.hl.set st.i HL_STRING,
                        in_string := if byteAt render st.i = st.in_string then 0
                                     else st.in_string,
                        i := st.i + 1, prev_sep := true }) ∧
    highlightRow HLDB_c rowEscapedQuote false =
      some (List.replicate 6 HL_STRING ++ List.replicate 2 HL_NORMAL, false) := by
  refine ⟨?_, ?_, by decide⟩
  · intro h1 h2
    simp [scanStep, hflag, hin, h1, h2]
  · intro h
    simp only [scanStep, hin, false_and, and_false, if_false, hflag, ne_eq, not_false_eq_true,
      and_self, if_true, h]

theorem C23_escape_in_string_witness :
    scanStep HLDB_c rowEscapedQuote
        { i := 2, prev_sep := false, in_string := 34, in_comment := false,
          hl := [HL_STRING, HL_STRING, HL_NORMAL, HL_NORMAL, HL_NORMAL, HL_NORMAL, HL_NORMAL,
            HL_NORMAL] } =
      .next { i := 4, prev_sep := false, in_string := 34, in_comment := false,
              hl := [HL_STRING, HL_STRING, HL_STRING, HL_STRING, HL_NORMAL, HL_NORMAL,
                HL_NORMAL, HL_NORMAL] } :=
  (C23_escape_in_string HLDB_c rowEscapedQuote
    { i := 2, prev_sep := false, in_string := 34, in_comment := false,
      hl := [HL_STRING, HL_STRING, HL_NORMAL, HL_NORMAL, HL_NORMAL, HL_NORMAL, HL_NORMAL,
        HL_NORMAL] } (by decide) (by decide)).1 (by decide) (by decide)

/-! ## The scan stays inside `render` and `hl` -/

theorem cString_byteAt (s : List Nat) (hs : cString s) (k : Nat) (hk : k < s.length) :
    byteAt s k ≠ 0 := by
  have : byteAt s k = s[k] := by
    simp [byteAt, List.getD_eq_getElem?_getD, List.getElem?_eq_getElem hk]
  rw [this]
  exact hs _ (List.getElem_mem hk)

theorem byteAt_ne_zero_lt (s : List Nat) (k : Nat) (h : byteAt s k ≠ 0) : k < s.length := by
  by_contra hk
  apply h
  simp [byteAt, List.getD_eq_getElem?_getD, List.getElem?_eq_none_iff.mpr (Nat.le_of_not_lt hk)]

theorem strncmpChecked_eq (render : List Nat) (i : Nat) (s : List Nat) (n : Nat)
    (hi : i ≤ render.length) (hnz : ∀ k, k < n → byteAt s k ≠ 0) :
    strncmpChecked render i s n = some (strncmpEq (render.drop i) s n) := by
  induction n generalizing i s with
  | zero => rfl
  | succ m ih =>
    have e : byteAt (render.drop i) 0 = byteAt render i := by rw [byteAt_drop]; rfl
    simp only [strncmpChecked, strncmpEq, readRender, if_pos hi, e]
    by_cases h0 : byteAt render i = byteAt s 0
    · have hz : byteAt render i ≠ 0 := by rw [h0]; exact hnz 0 (by omega)
      have hlt := byteAt_ne_zero_lt render i hz
      simp only [h0, ne_eq, not_true_eq_false, if_false]
      rw [if_neg (by rw [← h0]; exact hz), if_neg (by rw [← h0]; exact hz)]
      rw [ih (i + 1) s.tail (by omega)
        (fun k hk => by rw [byteAt_tail]; exact hnz (k + 1) (by omega))]
      rw [List.tail_drop]
    · simp [h0]

theorem strncmpEq_in_bounds (render : List Nat) (i : Nat) (s : List Nat) (n : Nat)
    (hi : i ≤ render.length) (hnz : ∀ k, k < n → byteAt s k ≠ 0)
    (h : strncmpEq (render.drop i) s n = true) : i + n ≤ render.length := by
  have hb := strncmpEq_bytes _ _ _ h hnz
  cases n with
  | zero => exact hi
  | succ m =>
    have h1 := hb m (by omega)
    rw [byteAt_drop] at h1
    have := byteAt_ne_zero_lt render (i + m) (by rw [h1]; exact hnz m (by omega))
    omega

theorem memsetChecked_eq (hl : List xeditHighlight) (i : Nat) (v : xeditHighlight) (n : Nat)
    (h : i + n ≤ hl.length) : memsetChecked hl i v n = some (memsetHl hl i v n) := by
  induction n generalizing hl i with
  | zero => rfl
  | succ m ih =>
    simp only [memsetChecked, memsetHl, writeHl]
    rw [if_pos (by omega)]
    exact ih _ _ (by simp only [List.length_set]; omega)

theorem matchKeywordChecked_eq (render : List Nat) (i : Nat) (kws : List (List Nat))
    (hi : i ≤ render.length) (hk : ∀ kw, kw ∈ kws → cString kw) :
    matchKeywordChecked render i kws = some (matchKeyword render i kws) ∧
    ∀ klen type, matchKeyword render i kws = some (klen, type) → i + klen ≤ render.length := by
  induction kws with
  | nil => exact ⟨rfl, fun _ _ h => by simp [matchKeyword] at h⟩
  | cons kw rest ih =>
    obtain ⟨ih1, ih2⟩ := ih (fun k h => hk k (List.mem_cons_of_mem _ h))
    have hnz : ∀ k, k < keywordLen kw → byteAt kw k ≠ 0 := by
      intro k hk1
      refine cString_byteAt kw (hk kw (List.mem_cons_self _ _)) k ?_
      unfold keywordLen at hk1
      split_ifs at hk1 <;> omega
    have hc := strncmpChecked_eq render i kw (keywordLen kw) hi hnz
    rw [matchKeyword_cons]
    have hdef : matchKeywordChecked render i (kw :: rest) =
        match strncmpChecked render i kw (keywordLen kw) with
        | none => none
        | some false => matchKeywordChecked render i rest
        | some true =>
          match readRender render (i + keywordLen kw) with
          | none => none
          | some c1 =>
            if IsSeperator c1 then some (some (keywordLen kw, keywordType kw))
            else matchKeywordChecked render i rest := rfl
    rw [hdef, hc]
    by_cases hm : strncmpEq (render.drop i) kw (keywordLen kw) = true
    · have hb := strncmpEq_in_bounds render i kw (keywordLen kw) hi hnz hm
      simp only [hm, readRender, if_pos hb]
      by_cases hsep : IsSeperator (byteAt render (i + keywordLen kw)) = true
      · have hkm : keywordMatches render i kw = true := by
          simp [keywordMatches, hm, hsep]
        rw [if_pos hsep, if_pos hkm]
        refine ⟨rfl, fun klen type h => ?_⟩
        injection h with h
        injection h with h1 h2
        omega
      · have hkm : ¬ keywordMatches render i kw = true := by
          simp [keywordMatches, hm, hsep]
        rw [if_neg hsep, if_neg hkm]
        exact ⟨ih1, ih2⟩
    · have hkm : ¬ keywordMatches render i kw = true := by
        simp [keywordMatches, hm]
      have hf : strncmpEq (render.drop i) kw (keywordLen kw) = false := by
        simpa using hm
      rw [if_neg hkm]
      simp only [hf]
      exact ⟨ih1, ih2⟩

theorem cstrlen_eq (p : Option (List Nat)) : cstrlen p = (p.getD []).length := by
  cases p <;> rfl

theorem test_false (c : Prop) [Decidable c] (b : Bool) (h : ¬ (c ∧ b = true)) :
    (if c then some b else some false) = some false := by
  by_cases hc : c
  · rw [if_pos hc]
    cases b with
    | false => rfl
    | true => exact absurd ⟨hc, rfl⟩ h
  · rw [if_neg hc]

theorem scanStepChecked_eq (syn : xeditSyntax) (render : List Nat) (st : ScanState)
    (hwf : syn.cStrings) (hi : st.i < render.length) (hlen : st.hl.length = render.length) :
    scanStepChecked syn render st = some (scanStep syn render st) := by
  obtain ⟨w1, w2, w3, w4⟩ := hwf
  have hr : readRender render st.i = some (byteAt render st.i) := by
    simp only [readRender, if_pos (Nat.le_of_lt hi)]
  have hp : (if st.i > 0 then readHl st.hl (st.i - 1) else some HL_NORMAL) =
      some (if st.i > 0 then st.hl.getD (st.i - 1) HL_NORMAL else HL_NORMAL) := by
    split_ifs with h0
    · have hlt : st.i - 1 < st.hl.length := by omega
      simp [readHl, List.getD_eq_getElem?_getD, List.getElem?_eq_getElem hlt]
    · rfl
  have hscs := strncmpChecked_eq render st.i (syn.singleline_comment_start.getD [])
    (cstrlen syn.singleline_comment_start) (Nat.le_of_lt hi)
    (fun k hk => cString_byteAt _ w1 k (by rw [← cstrlen_eq]; exact hk))
  have hmcs := strncmpChecked_eq render st.i (syn.multiline_comment_start.getD [])
    (cstrlen syn.multiline_comment_start) (Nat.le_of_lt hi)
    (fun k hk => cString_byteAt _ w2 k (by rw [← cstrlen_eq]; exact hk))
  have hmce := strncmpChecked_eq render st.i (syn.multiline_comment_end.getD [])
    (cstrlen syn.multiline_comment_end) (Nat.le_of_lt hi)
    (fun k hk => cString_byteAt _ w3 k (by rw [← cstrlen_eq]; exact hk))
  have bmcs := strncmpEq_in_bounds render st.i (syn.multiline_comment_start.getD [])
    (cstrlen syn.multiline_comment_start) (Nat.le_of_lt hi)
    (fun k hk => cString_byteAt _ w2 k (by rw [← cstrlen_eq]; exact hk))
  have bmce := strncmpEq_in_bounds render st.i (syn.multiline_comment_end.getD [])
    (cstrlen syn.multiline_comment_end) (Nat.le_of_lt hi)
    (fun k hk => cString_byteAt _ w3 k (by rw [← cstrlen_eq]; exact hk))
  obtain ⟨hkw, bkw⟩ := matchKeywordChecked_eq render st.i syn.keywords (Nat.le_of_lt hi) w4
  have hw : ∀ v, writeHl st.hl st.i v = some (st.hl.set st.i v) := by
    intro v
    simp only [writeHl]
    rw [if_pos (by omega)]
  unfold scanStepChecked scanStep
  simp only [hr, hp, hscs, hmcs, hmce, hkw, hw]
  generalize (if st.i > 0 then st.hl.getD (st.i - 1) HL_NORMAL else HL_NORMAL) = prev_hl
  by_cases h1 : cstrlen syn.singleline_comment_start ≠ 0 ∧ st.in_string = 0 ∧
      st.in_comment = false ∧
      strncmpEq (render.drop st.i) (syn.singleline_comment_start.getD [])
        (cstrlen syn.singleline_comment_start) = true
  · rw [if_pos h1, if_pos ⟨h1.1, h1.2.1, h1.2.2.1⟩, h1.2.2.2]
    simp only []
    rw [memsetChecked_eq _ _ _ _ (by omega)]
    rfl
  · rw [if_neg h1, test_false _ _ (fun h => h1 ⟨h.1.1, h.1.2.1, h.1.2.2, h.2⟩)]
    simp only []
    by_cases h2 : cstrlen syn.multiline_comment_start ≠ 0 ∧
        cstrlen syn.multiline_comment_end ≠ 0 ∧ st.in_string = 0 ∧ st.in_comment = true
    · simp only [if_pos h2]
      by_cases h3 : strncmpEq (render.drop st.i) (syn.multiline_comment_end.getD [])
          (cstrlen syn.multiline_comment_end) = true
      · simp only [h3, if_true]
        rw [memsetChecked_eq _ _ _ _ (by have := bmce h3; simp only [List.length_set]; omega)]
        rfl
      · have hf : strncmpEq (render.drop st.i) (syn.multiline_comment_end.getD [])
            (cstrlen syn.multiline_comment_end) = false := by simpa using h3
        simp only [hf]
        rfl
    · simp only [if_neg h2]
      by_cases h4 : cstrlen syn.multiline_comment_start ≠ 0 ∧
          cstrlen syn.multiline_comment_end ≠ 0 ∧ st.in_string = 0 ∧
          strncmpEq (render.drop st.i) (syn.multiline_comment_start.getD [])
            (cstrlen syn.multiline_comment_start) = true
      · rw [if_pos h4, if_pos ⟨h4.1, h4.2.1, h4.2.2.1⟩, h4.2.2.2]
        simp only []
        rw [memsetChecked_eq _ _ _ _ (by have := bmcs h4.2.2.2; omega)]
        rfl
      · rw [if_neg h4, test_false _ _ (fun h => h4 ⟨h.1.1, h.1.2.1, h.1.2.2, h.2⟩)]
        simp only []
        by_cases h5 : Nat.land syn.flags HL_HIGHLIGHT_STRINGS ≠ 0 ∧ st.in_string ≠ 0
        · simp only [if_pos h5]
          by_cases h6 : byteAt render st.i = 92 ∧ st.i + 1 < render.length
          · simp only [if_pos h6, writeHl, List.length_set]
            rw [if_pos (by omega)]
            rfl
          · simp only [if_neg h6]
        · simp only [if_neg h5]
          by_cases h7 : Nat.land syn.flags HL_HIGHLIGHT_STRINGS ≠ 0 ∧
              (byteAt render st.i = 34 ∨ byteAt render st.i = 39)
          · simp only [if_pos h7]
            rfl
          · simp only [if_neg h7]
            by_cases h8 : Nat.land syn.flags HL_HIGHLIGHT_NUMBERS ≠ 0 ∧
                ((isdigit (byteAt render st.i) = true ∧
                    (st.prev_sep = true ∨ prev_hl = HL_NUMBER)) ∨
                  (byteAt render st.i = 46 ∧ prev_hl = HL_NUMBER))
            · simp only [if_pos h8]
              rfl
            · simp only [if_neg h8]
              by_cases h9 : st.prev_sep = true
              · simp only [if_pos h9]
                cases hm : matchKeyword render st.i syn.keywords with
                | none => rfl
                | some p =>
                  obtain ⟨klen, type⟩ := p
                  simp only []
                  rw [memsetChecked_eq _ _ _ _ (by have := bkw klen type hm; omega)]
                  rfl
              · simp only [if_neg h9]

theorem scanLoop_length (syn : xeditSyntax) (render : List Nat) (fuel : Nat) (st res : ScanState)
    (hlen : st.hl.length = render.length) (h : scanLoop syn render fuel st = some res) :
    res.hl.length = render.length := by
  induction fuel generalizing st with
  | zero => simp [scanLoop] at h
  | succ f ih =>
    unfold scanLoop at h
    split_ifs at h with hi
    · cases hs : scanStep syn render st with
      | next st1 =>
        rw [hs] at h
        exact ih st1 (by rw [(scanStep_next_writes syn render st st1 hs).1, hlen]) h
      | stop st1 =>
        rw [hs] at h
        injection h with h
        subst h
        rw [(scanStep_stop_writes syn render st st1 hs).1, hlen]
    · injection h with h
      subst h
      exact hlen

theorem scanLoopChecked_eq (syn : xeditSyntax) (render : List Nat) (fuel : Nat) (st : ScanState)
    (hwf : syn.cStrings) (hlen : st.hl.length = render.length) :
    scanLoopChecked syn render fuel st = scanLoop syn render fuel st := by
  induction fuel generalizing st with
  | zero => rfl
  | succ f ih =>
    unfold scanLoopChecked scanLoop
    split_ifs with hi
    · rw [scanStepChecked_eq syn render st hwf hi hlen]
      cases hs : scanStep syn render st with
      | next st1 =>
        exact ih st1 (by rw [(scanStep_next_writes syn render st st1 hs).1, hlen])
      | stop st1 => rfl
    · rfl

theorem HLDB_c_cStrings : HLDB_c.cStrings := by
  unfold xeditSyntax.cStrings cString
  decide

theorem highlightRow_length (syn : xeditSyntax) (render : List Nat) (b flag : Bool)
    (hl : List xeditHighlight) (h : highlightRow syn render b = some (hl, flag)) :
    hl.length = render.length := by
  unfold highlightRow at h
  cases hs : scanLoop syn render (2 * render.length + 2) (scanInit render b) with
  | none => simp [hs] at h
  | some st =>
    simp only [hs, Option.map_some', Option.some.injEq, Prod.mk.injEq] at h
    rw [← h.1]
    exact scanLoop_length syn render _ _ st (by simp [scanInit]) hs

/-- C24: under a profile whose strings are C strings, for every row and every incoming
comment flag the scan of `XeditUpdateSyntax` run with each access checked (a read of `render`
at an index above `rsize`, or a read or write of `hl` at an index of `rsize` or more, makes
the checked scan fail) returns, with the same result as the scan itself; each single pass
of the loop body from a state with `i < rsize` and `rsize` entries in `hl` stays inside both
arrays, the delimiter, keyword and escaped-byte writes included; and `hl` has `rsize` entries
afterwards.  On a document numbered exactly, whatever the profile, every row on which a call
of `XeditUpdateSyntax` and its cascade run ends with `len(hl) == rsize`. -/
theorem C24_scan_stays_in_bounds (syn : xeditSyntax) (hwf : syn.cStrings) :
    (∀ (render : List Nat) (b : Bool), ∃ st,
      scanLoopChecked syn render (2 * render.length + 2) (scanInit render b) = some st ∧
      scanLoop syn render (2 * render.length + 2) (scanInit render b) = some st ∧
      highlightRow syn render b = some (st.hl, st.in_comment) ∧
      st.hl.length = render.length) ∧
    (∀ (render : List Nat) (st : ScanState), st.i < render.length →
      st.hl.length = render.length →
      scanStepChecked syn render st = some (scanStep syn render st)) ∧
    (∀ (E : xeditConfig) (p : Nat), numbered E → p < E.row.length →
      ∃ E1 k, XeditUpdateSyntax (E.row.length + 1) E p = some E1 ∧
        XeditUpdateSyntax.calls (E.row.length + 1) E p = some (List.range' p k) ∧
        ∀ q r1, p ≤ q → q < p + k → E1.row[q]? = some r1 → r1.hl.length = r1.rsize) := by
  refine ⟨?_, fun render st hi hlen => scanStepChecked_eq syn render st hwf hi hlen, ?_⟩
  · intro render b
    obtain ⟨st, hst⟩ := scanLoop_total syn render _ _ (scanInit_measure render b)
    refine ⟨st, ?_, hst, ?_, scanLoop_length syn render _ _ st (by simp [scanInit]) hst⟩
    · rw [scanLoopChecked_eq syn render _ _ hwf (by simp [scanInit]), hst]
    · simp [highlightRow, hst]
  · intro E p hE hp
    obtain ⟨E1, k, c1, c2, _, c4, _, _, _, _, c9⟩ := cascade_spec (E.row.length + 1) E p hE.2
      hE.1 hp (by omega)
    refine ⟨E1, k, c1, c2, ?_⟩
    intro q r1 h1 h2 hq
    have hlt : q < E.row.length := by omega
    obtain ⟨r1', v1, _, _, v4, v5, v6, _, _⟩ := c9 q E.row[q] h1 h2
      (List.getElem?_eq_getElem hlt)
    rw [hq] at v1
    injection v1 with v1
    subst v1
    have hcases : E.syn = none ∨ ∃ s, E.syn = some s := by
      cases E.syn with
      | none => exact Or.inl rfl
      | some s => exact Or.inr ⟨s, rfl⟩
    rcases hcases with hn | ⟨s, hs⟩
    · rw [(v5 hn).1, List.length_replicate, erow.rsize, erow.rsize, v4]
    · have := highlightRow_length s _ _ _ _ (v6 s hs)
      rw [this, erow.rsize, v4]

theorem C24_scan_stays_in_bounds_witness :
    ∃ st, scanLoopChecked HLDB_c rowEscapedQuote (2 * rowEscapedQuote.length + 2)
        (scanInit rowEscapedQuote false) = some st ∧
      scanLoop HLDB_c rowEscapedQuote (2 * rowEscapedQuote.length + 2)
        (scanInit rowEscapedQuote false) = some st ∧
      highlightRow HLDB_c rowEscapedQuote false = some (st.hl, st.in_comment) ∧
      st.hl.length = rowEscapedQuote.length :=
  (C24_scan_stays_in_bounds HLDB_c HLDB_c_cStrings).1 rowEscapedQuote false

/-! ## The incremental cascade against a full pass -/

theorem prevFlag_cons (r : erow) (rs : List erow) (j : Nat) :
    prevFlag (r :: rs) (j + 1) = if j = 0 then r.hl_open_comment else prevFlag rs j := by
  cases j with
  | zero => simp [prevFlag]
  | succ i => simp [prevFlag]

theorem fullPass_pointwise (syn : xeditSyntax) (rows : List erow) (b : Bool) :
    fullPass syn b (rows.map (fun r => r.render)) =
        some (rows.map (fun r => (r.hl, r.hl_open_comment))) ↔
      ∀ (q : Nat) (r : erow), rows[q]? = some r →
        highlightRow syn r.render (if q = 0 then b else prevFlag rows q) =
          some (r.hl, r.hl_open_comment) := by
  induction rows generalizing b with
  | nil => simp [fullPass]
  | cons r rs ih =>
    simp only [List.map_cons, fullPass]
    constructor
    · intro h q r1 hq
      cases hr : highlightRow syn r.render b with
      | none => simp [hr] at h
      | some res =>
        obtain ⟨hl, b1⟩ := res
        simp only [hr] at h
        cases hf : fullPass syn b1 (rs.map (fun r => r.render)) with
        | none => simp [hf] at h
        | some rest =>
          simp only [hf, Option.map_some', Option.some.injEq, List.cons.injEq,
            Prod.mk.injEq] at h
          obtain ⟨⟨h1, h2⟩, h3⟩ := h
          subst h1 h2 h3
          cases q with
          | zero =>
            simp only [List.getElem?_cons_zero, Option.some.injEq] at hq
            subst hq
            simpa using hr
          | succ j =>
            simp only [List.getElem?_cons_succ] at hq
            have := (ih r.hl_open_comment).mp hf j r1 hq
            rw [if_neg (by omega), prevFlag_cons]
            exact this
    · intro h
      have h0 := h 0 r (by simp)
      simp only [if_true] at h0
      rw [h0]
      have hrest := (ih r.hl_open_comment).mpr (fun j r1 hj => by
        have := h (j + 1) r1 (by simpa using hj)
        rw [if_neg (by omega), prevFlag_cons] at this
        exact this)
      simp only [hrest, Option.map_some']

theorem prevFlag_if (rows : List erow) (q : Nat) :
    (if q = 0 then false else prevFlag rows q) = prevFlag rows q := by
  cases q with
  | zero => rfl
  | succ j => rw [if_neg (by omega)]

theorem prevFlag_of_flag (rows1 rows2 : List erow) (j : Nat) (r1 r2 : erow)
    (h1 : rows1[j]? = some r1) (h2 : rows2[j]? = some r2)
    (h : r1.hl_open_comment = r2.hl_open_comment) :
    prevFlag rows1 (j + 1) = prevFlag rows2 (j + 1) := by
  simp [prevFlag, h1, h2, h]

/-- The row edit that `XeditRowInsertChar`, `XeditRowDelChar` and `XeditRowAppendString`
share: new raw bytes for the row at `p`, then `XeditUpdateRow`. -/
theorem rowEdit_highlighted (E : xeditConfig) (p : Nat) (row : erow) (cs : List Nat)
    (hE : highlighted E) (hrow : E.row[p]? = some row) :
    ∃ E1, XeditUpdateRow { E with row := E.row.set p { row with chars := cs } } p = some E1 ∧
      E1 = { E with row := E1.row } ∧ highlighted E1 ∧
      E1.row.map erow.text = (E.row.map erow.text).set p (row.idx, cs) ∧
      E1.row.map (fun r => r.render) =
        (E.row.map (fun r => r.render)).set p (XeditUpdateRow.render cs cs.length) := by
  obtain ⟨⟨hlen, hnum⟩, hsome, hnone⟩ := hE
  have hp : p < E.row.length := (List.getElem?_eq_some.mp hrow).1
  have hnum2 : numberedRows
      (E.row.set p { row with chars := cs, render := XeditUpdateRow.render cs cs.length }) :=
    numberedRows_set E.row p row _ hrow rfl hnum
  obtain ⟨E1, k, c1, _, c3, c4, c5, c6, c7, c8, c9⟩ := cascade_spec (E.row.length + 1)
    { E with row := E.row.set p { row with chars := cs, render := XeditUpdateRow.render cs cs.length } }
    p hnum2 (by simpa using hlen) (by simpa using hp) (by simp only [List.length_set]; omega)
  simp only [List.length_set] at c4 c6
  have hget : ∀ j, j ≠ p →
      (E.row.set p { row with chars := cs, render := XeditUpdateRow.render cs cs.length })[j]? =
        E.row[j]? := by
    intro j hj
    rw [List.getElem?_set_ne (Ne.symm hj)]
  have hgetp :
      (E.row.set p { row with chars := cs, render := XeditUpdateRow.render cs cs.length })[p]? =
        some { row with chars := cs, render := XeditUpdateRow.render cs cs.length } := by
    rw [List.getElem?_set_self hp]
  have hrun : XeditUpdateRow { E with row := E.row.set p { row with chars := cs } } p =
      some E1 := by
    rw [← c1]
    unfold XeditUpdateRow
    simp only [List.getElem?_set_self hp, List.set_set, List.length_set]
    rfl
  obtain ⟨_, hframe⟩ := XeditUpdateSyntax_frame _ _ _ _ c1
  have hnum1 : numberedRows E1.row := numberedRows_of_map_text _ _ hframe hnum2
  -- every row of the result: untouched, or visited by the cascade
  have tri : ∀ q r1, E1.row[q]? = some r1 →
      ((q < p ∨ p + k ≤ q) ∧ E.row[q]? = some r1) ∨
      (p ≤ q ∧ q < p + k ∧ ∃ r0, E.row[q]? = some r0 ∧
        r1.render = (if q = p then XeditUpdateRow.render cs cs.length else r0.render) ∧
        (E.syn = none → r1.hl = List.replicate r1.rsize HL_NORMAL) ∧
        (∀ syn, E.syn = some syn →
          highlightRow syn r1.render (prevFlag E1.row q) = some (r1.hl, r1.hl_open_comment)) ∧
        (q + 1 = p + k → q + 1 < E.row.length →
          r1.hl_open_comment = r0.hl_open_comment)) := by
    intro q r1 hq
    by_cases h1 : q < p
    · left
      refine ⟨Or.inl h1, ?_⟩
      rw [← hget q (by omega), ← c7 q h1, hq]
    · by_cases h2 : p + k ≤ q
      · left
        refine ⟨Or.inr h2, ?_⟩
        rw [← hget q (by omega), ← c8 q h2, hq]
      · right
        have hqlt : q < E.row.length := by omega
        refine ⟨by omega, by omega, ?_⟩
        by_cases hqp : q = p
        · subst hqp
          obtain ⟨r1', v1, _, _, v4, v5, v6, _, v8⟩ := c9 q _ (Nat.le_refl _) (by omega) hgetp
          rw [hq] at v1
          injection v1 with v1
          subst v1
          refine ⟨row, hrow, ?_, ?_, ?_, ?_⟩
          · rw [if_pos rfl, v4]
          · intro hs
            rw [(v5 hs).1, erow.rsize, erow.rsize, v4]
          · intro syn hs
            rw [v4]
            exact v6 syn hs
          · intro e1 e2
            rcases v8 e1 with h | h
            · simp only [List.length_set] at h
              omega
            · exact h
        · have hr0 : E.row[q]? = some E.row[q] := List.getElem?_eq_getElem hqlt
          obtain ⟨r1', v1, _, _, v4, v5, v6, _, v8⟩ := c9 q E.row[q] (by omega) (by omega)
            (by rw [hget q hqp, hr0])
          rw [hq] at v1
          injection v1 with v1
          subst v1
          refine ⟨E.row[q], hr0, ?_, ?_, ?_, ?_⟩
          · rw [if_neg hqp, v4]
          · intro hs
            rw [(v5 hs).1, erow.rsize, erow.rsize, v4]
          · intro syn hs
            rw [v4]
            exact v6 syn hs
          · intro e1 e2
            rcases v8 e1 with h | h
            · simp only [List.length_set] at h
              omega
            · exact h
  have hsyn1 : E1.syn = E.syn := by rw [c5]
  refine ⟨E1, hrun, ?_, ⟨⟨?_, hnum1⟩, ?_, ?_⟩, ?_, ?_⟩
  · rw [c5]
  · rw [c6, c5]
    exact hlen
  · intro syn hs
    rw [hsyn1] at hs
    have hpt := (fullPass_pointwise syn E.row false).mp (hsome syn hs)
    apply (fullPass_pointwise syn E1.row false).mpr
    intro q r1 hq
    rw [prevFlag_if]
    rcases tri q r1 hq with ⟨hout, hq0⟩ | ⟨_, _, r0, _, _, _, hv, _⟩
    · have h0 := hpt q r1 hq0
      rw [prevFlag_if] at h0
      rw [← h0]
      congr 1
      rcases hout with hlt | hge
      · exact prevFlag_congr _ _ q (fun j hj => by
          rw [c7 j (by omega), hget j (by omega)])
      · -- the row before `q` is the last visited row or lies behind it
        cases q with
        | zero => rfl
        | succ j =>
          have hj : j < E1.row.length := by
            have := (List.getElem?_eq_some.mp hq).1
            omega
          have hj1 : E1.row[j]? = some E1.row[j] := List.getElem?_eq_getElem hj
          rcases tri j E1.row[j] hj1 with ⟨_, hj0⟩ | ⟨_, _, r0, hr0, _, _, _, hflag⟩
          · exact prevFlag_of_flag _ _ j _ _ hj1 hj0 rfl
          · have hl := (List.getElem?_eq_some.mp hq0).1
            have : j + 1 = p + k := by omega
            exact prevFlag_of_flag _ _ j _ _ hj1 hr0 (hflag this hl)
    · exact hv syn hs
  · intro hs q r1 hq
    rw [hsyn1] at hs
    rcases tri q r1 hq with ⟨_, hq0⟩ | ⟨_, _, r0, _, _, hv, _, _⟩
    · exact hnone hs q r1 hq0
    · exact hv hs
  · rw [hframe, List.map_set]
    rfl
  · apply List.ext_getElem?
    intro q
    rw [List.getElem?_map, List.getElem?_set, List.getElem?_map]
    cases hq : E1.row[q]? with
    | none =>
      have hge : E.row.length ≤ q := by
        rw [← c6]
        exact List.getElem?_eq_none_iff.mp hq
      have : E.row[q]? = none := List.getElem?_eq_none_iff.mpr hge
      simp only [Option.map_none', this, List.length_map]
      split_ifs <;> first | rfl | omega
    | some r1 =>
      rcases tri q r1 hq with ⟨hout, hq0⟩ | ⟨_, _, r0, hr0, hrender, _, _, _⟩
      · rw [if_neg (by omega), hq0]
      · by_cases hqp : q = p
        · subst hqp
          rw [if_pos rfl, if_pos (by simpa using hp)]
          simp only [Option.map_some', hrender, if_true]
        · rw [if_neg (Ne.symm hqp), hr0]
          simp only [Option.map_some', hrender, if_neg hqp]

theorem highlighted_congr (E1 E2 : xeditConfig) (h1 : E2.numrows = E1.numrows)
    (h2 : E2.row = E1.row) (h3 : E2.syn = E1.syn) (h : highlighted E1) : highlighted E2 := by
  unfold highlighted numbered at *
  rw [h1, h2, h3]
  exact h

/-- C25: on a consistently highlighted document (rows numbered exactly, every `hl` and
`hl_open_comment` equal to a pass of the highlight engine over all rows from row 0), each of
`XeditRowInsertChar`, `XeditRowDelChar` and `XeditRowAppendString` on a row of the document
returns, and the incremental cascade it starts leaves a consistently highlighted document
again: every row's `hl` and `hl_open_comment` equal what the full pass gives on the edited
document, whose rows are the old ones with the raw bytes of the edited row changed and its
render built anew. -/
theorem C25_incremental_equals_full_pass (E : xeditConfig) (p : Nat) (row : erow)
    (hE : highlighted E) (hrow : E.row[p]? = some row) :
    (∀ (at_ : Int) (c : Nat), ∃ E1 cs, XeditRowInsertChar E p at_ c = some E1 ∧
      cs = row.chars.take (if at_ < 0 ∨ at_ > row.size then row.size else at_.toNat) ++
        (c % 256) :: row.chars.drop (if at_ < 0 ∨ at_ > row.size then row.size else at_.toNat) ∧
      highlighted E1 ∧
      E1.row.map erow.text = (E.row.map erow.text).set p (row.idx, cs) ∧
      E1.row.map (fun r => r.render) =
        (E.row.map (fun r => r.render)).set p (XeditUpdateRow.render cs cs.length)) ∧
    (∀ at_ : Int, at_ < 0 ∨ at_ ≥ row.size →
      XeditRowDelChar E p at_ = some E) ∧
    (∀ at_ : Int, 0 ≤ at_ → at_ < row.size →
      ∃ E1 cs, XeditRowDelChar E p at_ = some E1 ∧ cs = row.chars.eraseIdx at_.toNat ∧
      highlighted E1 ∧
      E1.row.map erow.text = (E.row.map erow.text).set p (row.idx, cs) ∧
      E1.row.map (fun r => r.render) =
        (E.row.map (fun r => r.render)).set p (XeditUpdateRow.render cs cs.length)) ∧
    (∀ s : List Nat, ∃ E1 cs, XeditRowAppendString E p s = some E1 ∧ cs = row.chars ++ s ∧
      highlighted E1 ∧
      E1.row.map erow.text = (E.row.map erow.text).set p (row.idx, cs) ∧
      E1.row.map (fun r => r.render) =
        (E.row.map (fun r => r.render)).set p (XeditUpdateRow.render cs cs.length)) := by
  refine ⟨?_, ?_, ?_, ?_⟩
  · intro at_ c
    obtain ⟨E1, h1, h2, h3, h4, h5⟩ := rowEdit_highlighted E p row
      (row.chars.take (if at_ < 0 ∨ at_ > row.size then row.size else at_.toNat) ++
        (c % 256) :: row.chars.drop (if at_ < 0 ∨ at_ > row.size then row.size else at_.toNat))
      hE hrow
    refine ⟨{ E1 with dirty := E1.dirty + 1 }, _, ?_, rfl,
      highlighted_congr E1 _ rfl rfl rfl h3, h4, h5⟩
    simp only [XeditRowInsertChar, hrow, h1]
  · intro at_ h
    simp only [XeditRowDelChar, hrow, if_pos h]
  · intro at_ h0 h1
    obtain ⟨E1, e1, e2, e3, e4, e5⟩ := rowEdit_highlighted E p row
      (row.chars.eraseIdx at_.toNat) hE hrow
    refine ⟨{ E1 with dirty := E1.dirty + 1 }, _, ?_, rfl,
      highlighted_congr E1 _ rfl rfl rfl e3, e4, e5⟩
    simp only [XeditRowDelChar, hrow, e1]
    rw [if_neg (by omega)]
  · intro s
    obtain ⟨E1, e1, e2, e3, e4, e5⟩ := rowEdit_highlighted E p row (row.chars ++ s) hE hrow
    refine ⟨{ E1 with dirty := E1.dirty + 1 }, _, ?_, rfl,
      highlighted_congr E1 _ rfl rfl rfl e3, e4, e5⟩
    simp only [XeditRowAppendString, hrow, e1]

theorem C25_incremental_equals_full_pass_witness :
    highlighted docSlash ∧
    ∃ E1 cs, XeditRowAppendString docSlash 0 [42] = some E1 ∧ cs = [47] ++ [42] ∧
      highlighted E1 ∧
      E1.row.map erow.text = (docSlash.row.map erow.text).set 0 (0, cs) ∧
      E1.row.map (fun r => r.render) =
        (docSlash.row.map (fun r => r.render)).set 0 (XeditUpdateRow.render cs cs.length) :=
  have h : highlighted docSlash :=
    ⟨numbered_of_check docSlash (by decide) (by decide), fun syn hs => by
      have e : syn = HLDB_c := by
        have : some HLDB_c = some syn := hs
        injection this with this
        exact this.symm
      subst e
      decide, fun hn => absurd hn (by decide)⟩
  ⟨h, (C25_incremental_equals_full_pass docSlash 0
    { idx := 0, chars := [47], render := [47], hl := [HL_NORMAL], hl_open_comment := false }
    h (by decide)).2.2.2 [42]⟩

/-! ## The cursor column is the length of the render of the prefix -/

/-- C27: when `ESC` is followed by two available bytes `a b` that are not a recognised
sequence (and not `[` with a digit, which makes the decoder read a fourth byte),
`XeditReadKey` consumes all three bytes and returns the single key `ESC`; for `ESC [ digit x`
with `x` other than `~`, or with a digit that has no mapping, it consumes four bytes and
returns the single key `ESC`.  The bytes after `ESC` are therefore never delivered as keys:
on `ESC a b c` two successive calls return `ESC` and then `c`. -/
theorem C27_unrecognised_escape_consumed :
    (∀ (a b : Nat) (rest : List ReadResult),
      (a = 91 → ¬ (48 ≤ b ∧ b ≤ 57) ∧ XeditReadKey.csi b = none) →
      (a = 79 → XeditReadKey.ss3 b = none) →
      XeditReadKey (keys [27, a, b] ++ rest) = Except.ok (27, rest)) ∧
    (∀ (d x : Nat) (rest : List ReadResult), 48 ≤ d → d ≤ 57 →
      x ≠ 126 ∨ XeditReadKey.tilde d = none →
      XeditReadKey (keys [27, 91, d, x] ++ rest) = Except.ok (27, rest)) ∧
    (∀ rest : List ReadResult,
      XeditReadKey (keys [27, 97, 98] ++ rest) = Except.ok (27, rest)) ∧
    XeditReadKey.events 2 (keys [27, 97, 98, 99]) = [27, 99] ∧
    XeditReadKey.events 2 (keys [27, 91, 49, 120, 99]) = [27, 99] ∧
    XeditReadKey.events 2 (keys [27, 91, 50, 126, 99]) = [27, 99] := by
  refine ⟨?_, ?_, fun rest => rfl, by decide, by decide, by decide⟩
  · intro a b rest h1 h2
    by_cases ha : a = 91
    · subst ha
      obtain ⟨hd, hc⟩ := h1 rfl
      simp [XeditReadKey, XeditReadKey.wait, read1, keys, hd, hc]
    · by_cases hb : a = 79
      · subst hb
        simp [XeditReadKey, XeditReadKey.wait, read1, keys, h2 rfl]
      · simp [XeditReadKey, XeditReadKey.wait, read1, keys, ha, hb]
  · intro d x rest h1 h2 h3
    by_cases hx : x = 126
    · subst hx
      rcases h3 with h3 | h3
      · exact absurd rfl h3
      · simp [XeditReadKey, XeditReadKey.wait, read1, keys, h1, h2, h3]
    · simp [XeditReadKey, XeditReadKey.wait, read1, keys, h1, h2, hx]

theorem C27_unrecognised_escape_consumed_witness :
    XeditReadKey (keys [27, 91, 90] ++ keys [65]) = Except.ok (27, keys [65]) ∧
    XeditReadKey (keys [27, 91, 57, 126] ++ keys [65]) = Except.ok (27, keys [65]) :=
  ⟨C27_unrecognised_escape_consumed.1 91 90 (keys [65]) (fun _ => ⟨by decide, by decide⟩)
      (fun h => absurd h (by decide)),
   C27_unrecognised_escape_consumed.2.1 57 126 (keys [65]) (by decide) (by decide)
      (Or.inr (by decide))⟩

/-! ## Row edits on the text of a document -/

theorem map_text_set_chars (rows : List erow) (p : Nat) (row : erow) (cs : List Nat) :
    (rows.set p { row with chars := cs }).map erow.text =
      (rows.map erow.text).set p (row.idx, cs) := by
  rw [List.map_set]
  rfl

theorem XeditUpdateRow_set_spec (E : xeditConfig) (p : Nat) (row : erow) (cs : List Nat)
    (hnum : numberedRows E.row) (hn : E.numrows ≤ (E.row.length : Int))
    (hrow : E.row[p]? = some row) :
    ∃ E1, XeditUpdateRow { E with row := E.row.set p { row with chars := cs } } p = some E1 ∧
      E1 = { E with row := E1.row } ∧ numberedRows E1.row ∧ E1.row.length = E.row.length ∧
      E1.row.map erow.text = (E.row.map erow.text).set p (row.idx, cs) := by
  have hp : p < E.row.length := (List.getElem?_eq_some.mp hrow).1
  have hnum1 : numberedRows (E.row.set p { row with chars := cs }) :=
    numberedRows_set E.row p row _ hrow rfl hnum
  obtain ⟨E1, h1, h2, h3⟩ := XeditUpdateRow_spec
    { E with row := E.row.set p { row with chars := cs } } p hnum1
    (by simpa using hn) (by simpa using hp)
  refine ⟨E1, h1, ?_, numberedRows_of_map_text _ _ h3 hnum1, ?_, ?_⟩
  · rw [h2]
  · have := congrArg List.length h3
    simpa using this
  · rw [h3]
    exact map_text_set_chars E.row p row cs

theorem XeditRowAppendString_spec (E : xeditConfig) (p : Nat) (row : erow) (s : List Nat)
    (hnum : numberedRows E.row) (hn : E.numrows ≤ (E.row.length : Int))
    (hrow : E.row[p]? = some row) :
    ∃ E1, XeditRowAppendString E p s = some E1 ∧
      E1 = { E with row := E1.row, dirty := E.dirty + 1 } ∧ numberedRows E1.row ∧
      E1.row.length = E.row.length ∧
      E1.row.map erow.text = (E.row.map erow.text).set p (row.idx, row.chars ++ s) := by
  obtain ⟨E1, h1, h2, h3, h4, h5⟩ := XeditUpdateRow_set_spec E p row (row.chars ++ s) hnum hn hrow
  refine ⟨{ E1 with dirty := E1.dirty + 1 }, ?_, ?_, h3, h4, h5⟩
  · simp only [XeditRowAppendString, hrow, h1]
  · rw [h2]

theorem XeditInsertRow_text (E : xeditConfig) (at_ : Int) (s : List Nat) (hE : numbered E)
    (h0 : 0 ≤ at_) (h1 : at_ ≤ E.numrows) :
    ∃ E1, XeditInsertRow E at_ s = some E1 ∧
      E1 = { E with row := E1.row, numrows := E.numrows + 1, dirty := E.dirty + 1 } ∧
      numbered E1 ∧
      E1.row.map erow.text =
        (E.row.map erow.text).take at_.toNat ++ (at_, s) ::
          ((E.row.map erow.text).drop at_.toNat).map (fun t => (t.1 + 1, t.2)) := by
  obtain ⟨E1, e1, e2, e3⟩ := XeditInsertRow_spec E at_ s hE h0 h1
  obtain ⟨E2, f1, f2⟩ := XeditInsertRow_numbered E at_ s hE
  rw [e1] at f1
  injection f1 with f1
  subst f1
  refine ⟨E1, e1, e2, f2, ?_⟩
  rw [e3]
  simp [erow.text, mkRow, Function.comp_def, List.map_take, List.map_drop]

theorem XeditDelRow_text (E : xeditConfig) (at_ : Int) (h0 : 0 ≤ at_) (h1 : at_ < E.numrows) :
    XeditDelRow E at_ =
      { E with row := (XeditDelRow E at_).row, numrows := E.numrows - 1, dirty := E.dirty + 1 } ∧
    (XeditDelRow E at_).row.map erow.text =
      (E.row.map erow.text).take at_.toNat ++
        ((E.row.map erow.text).drop (at_.toNat + 1)).map (fun t => (t.1 - 1, t.2)) := by
  unfold XeditDelRow
  rw [if_neg (by omega)]
  refine ⟨rfl, ?_⟩
  simp [erow.text, Function.comp_def, List.map_take, List.map_drop]

theorem list_split_at {α : Type} (T : List α) (c : Nat) (x : α) (h : T[c]? = some x) :
    (T.take c).length = c ∧ T.drop c = x :: T.drop (c + 1) ∧ T.take (c + 1) = T.take c ++ [x] := by
  obtain ⟨hlt, hx⟩ := List.getElem?_eq_some.mp h
  refine ⟨?_, ?_, ?_⟩
  · rw [List.length_take]; omega
  · rw [List.drop_eq_getElem_cons hlt, hx]
  · rw [List.take_succ, h]; rfl

theorem set_append_cons {α : Type} (A : List α) (x v : α) (R : List α) (c : Nat)
    (hA : A.length = c) : (A ++ x :: R).set c v = A ++ v :: R := by
  subst hA
  induction A with
  | nil => rfl
  | cons a A ih => simp [ih]

theorem getElem?_append_cons {α : Type} (A : List α) (x : α) (R : List α) (c : Nat)
    (hA : A.length = c) : (A ++ x :: R)[c]? = some x := by
  subst hA
  rw [List.getElem?_append_right (Nat.le_refl _)]
  simp

theorem getElem?_append_cons_succ {α : Type} (A : List α) (x y : α) (R : List α) (c : Nat)
    (hA : A.length = c) : (A ++ x :: y :: R)[c + 1]? = some y := by
  subst hA
  rw [List.getElem?_append_right (by omega)]
  simp

theorem row_of_text (rows : List erow) (T : List (Int × List Nat)) (k : Nat) (t : Int × List Nat)
    (h : rows.map erow.text = T) (ht : T[k]? = some t) :
    ∃ r, rows[k]? = some r ∧ r.idx = t.1 ∧ r.chars = t.2 := by
  have h1 : (rows.map erow.text)[k]? = some t := by rw [h, ht]
  rw [List.getElem?_map] at h1
  cases hr : rows[k]? with
  | none => simp [hr] at h1
  | some r =>
    simp only [hr, Option.map_some', Option.some.injEq] at h1
    refine ⟨r, rfl, ?_, ?_⟩
    · rw [← h1]; rfl
    · rw [← h1]; rfl

/-- What `XeditInsertNewLine` does to the text of a numbered document: the cursor row is split
at `cx` into two rows and the cursor moves to the start of the second. -/
theorem XeditInsertNewLine_spec (E : xeditConfig) (row : erow) (hE : numbered E)
    (hcy : 0 ≤ E.cy) (hrow : E.row[E.cy.toNat]? = some row) (hcx0 : 0 ≤ E.cx)
    (hcx1 : E.cx ≤ (row.size : Int)) :
    ∃ E1, XeditInsertNewLine E = some E1 ∧ E1.cy = E.cy + 1 ∧ E1.cx = 0 ∧
      E1.numrows = E.numrows + 1 ∧ numbered E1 ∧
      E1.row.map erow.text =
        (E.row.map erow.text).take E.cy.toNat ++ (E.cy, row.chars.take E.cx.toNat) ::
          (E.cy + 1, row.chars.drop E.cx.toNat) ::
          ((E.row.map erow.text).drop (E.cy.toNat + 1)).map (fun t => (t.1 + 1, t.2)) := by
  obtain ⟨hlen, hnum⟩ := hE
  have hlt : E.cy.toNat < E.row.length := (List.getElem?_eq_some.mp hrow).1
  have hidx : row.idx = E.cy := by
    rw [hnum _ _ hrow]; omega
  have hT : (E.row.map erow.text)[E.cy.toNat]? = some (E.cy, row.chars) := by
    rw [List.getElem?_map, hrow, ← hidx]; rfl
  obtain ⟨hA, hdrop, htake⟩ := list_split_at _ _ _ hT
  by_cases h0 : E.cx = 0
  · obtain ⟨E1, e1, e2, e3, e4⟩ := XeditInsertRow_text E E.cy [] ⟨hlen, hnum⟩ hcy (by omega)
    refine ⟨{ E1 with cy := E1.cy + 1, cx := 0 }, ?_, ?_, rfl, ?_, ⟨e3.1, e3.2⟩, ?_⟩
    · simp only [XeditInsertNewLine, h0, if_true, e1, Option.map_some']
    · show E1.cy + 1 = E.cy + 1
      rw [e2]
    · show E1.numrows = E.numrows + 1
      rw [e2]
    · show E1.row.map erow.text = _
      rw [e4, hdrop, h0]
      simp
  · have ha : arrayAt E.row E.cy = some row := by
      simp only [arrayAt, if_neg (not_lt.mpr hcy), hrow]
    obtain ⟨E1, e1, e2, e3, e4⟩ := XeditInsertRow_text E (E.cy + 1)
      (row.chars.drop E.cx.toNat) ⟨hlen, hnum⟩ (by omega) (by omega)
    have hcy1 : E1.cy = E.cy := by rw [e2]
    have hcx1' : E1.cx = E.cx := by rw [e2]
    have htn : (E.cy + 1).toNat = E.cy.toNat + 1 := by omega
    rw [htn, htake, List.append_assoc, List.singleton_append] at e4
    obtain ⟨row1, r1, r2, r3⟩ := row_of_text E1.row _ E.cy.toNat _ e4
      (getElem?_append_cons _ _ _ _ hA)
    have r1c : E1.row[E1.cy.toNat]? = some row1 := by rw [hcy1]; exact r1
    have ha1 : arrayAt E1.row E1.cy = some row1 := by
      simp only [arrayAt, r1c]
      rw [if_neg (by omega)]
    obtain ⟨E2, f1, f2, f3, f4, f5⟩ := XeditUpdateRow_set_spec E1 E1.cy.toNat row1
      (row1.chars.take E1.cx.toNat) e3.2 (le_of_eq e3.1) r1c
    refine ⟨{ E2 with cy := E2.cy + 1, cx := 0 }, ?_, ?_, rfl, ?_, ⟨?_, f3⟩, ?_⟩
    · simp only [XeditInsertNewLine, h0, if_false, ha, e1, ha1, f1, Option.map_some']
      rw [if_neg (by omega)]
      rfl
    · show E2.cy + 1 = E.cy + 1
      rw [f2, hcy1]
    · show E2.numrows = E.numrows + 1
      rw [f2]
      show E1.numrows = _
      rw [e2]
    · show E2.numrows = (E2.row.length : Int)
      rw [f4, f2]
      exact e3.1
    · show E2.row.map erow.text = _
      rw [f5, e4, hcy1, hcx1', set_append_cons _ _ _ _ _ hA, r2, r3]

/-- What `XeditDelChar` does at the start of a row that has a row above it, on the text of
a numbered document: the two rows are joined and the cursor moves to the joint. -/
theorem XeditDelChar_join (E : xeditConfig) (A : List (Int × List Nat)) (x1 x2 : Int)
    (a b : List Nat) (R : List (Int × List Nat)) (d : Nat) (hE : numbered E)
    (hcy : E.cy = (d : Int) + 1) (hcx : E.cx = 0) (hA : A.length = d)
    (hT : E.row.map erow.text = A ++ (x1, a) :: (x2, b) :: R) :
    ∃ E1, XeditDelChar E = some E1 ∧ E1.cy = (d : Int) ∧ E1.cx = (a.length : Int) ∧
      E1.numrows = E.numrows - 1 ∧
      E1.row.map erow.text = A ++ (x1, a ++ b) :: R.map (fun t => (t.1 - 1, t.2)) := by
  obtain ⟨hlen, hnum⟩ := hE
  have hlenT : E.row.length = d + 2 + R.length := by
    have := congrArg List.length hT
    simp only [List.length_map, List.length_append, List.length_cons] at this
    omega
  have hd1 : (E.cy - 1).toNat = d := by omega
  have hd2 : E.cy.toNat = d + 1 := by omega
  obtain ⟨prev, p1, p2, p3⟩ := row_of_text E.row _ d _ hT (getElem?_append_cons _ _ _ _ hA)
  obtain ⟨rw1, q1, q2, q3⟩ := row_of_text E.row _ (d + 1) _ hT
    (getElem?_append_cons_succ _ _ _ _ _ hA)
  have hp : arrayAt E.row (E.cy - 1) = some prev := by
    simp only [arrayAt, hd1, p1]
    rw [if_neg (by omega)]
  have hr : arrayAt E.row E.cy = some rw1 := by
    simp only [arrayAt, hd2, q1]
    rw [if_neg (by omega)]
  obtain ⟨E2, g1, g2, g3, g4, g5⟩ := XeditRowAppendString_spec
    { E with cx := (prev.size : Int) } (E.cy - 1).toNat prev rw1.chars hnum (le_of_eq hlen)
    (by rw [hd1]; exact p1)
  have hcy2 : E2.cy = (d : Int) + 1 := by rw [g2]; exact hcy
  have hn2 : E2.numrows = E.numrows := by rw [g2]
  have hcx2 : E2.cx = (prev.size : Int) := by rw [g2]
  obtain ⟨k1, k2⟩ := XeditDelRow_text E2 E2.cy (by omega) (by omega)
  refine ⟨{ XeditDelRow E2 E2.cy with cy := (XeditDelRow E2 E2.cy).cy - 1 }, ?_, ?_, ?_, ?_, ?_⟩
  · unfold XeditDelChar
    rw [if_neg (by omega), if_neg (by omega), if_neg (by omega), if_neg (by omega)]
    simp only [hp, hr, g1]
  · show (XeditDelRow E2 E2.cy).cy - 1 = (d : Int)
    rw [k1]
    show E2.cy - 1 = _
    omega
  · show (XeditDelRow E2 E2.cy).cx = _
    rw [k1]
    show E2.cx = _
    rw [hcx2, erow.size, p3]
  · show (XeditDelRow E2 E2.cy).numrows = _
    rw [k1]
    show E2.numrows - 1 = _
    rw [hn2]
  · show (XeditDelRow E2 E2.cy).row.map erow.text = _
    have hc : E2.cy.toNat = d + 1 := by omega
    rw [k2, g5, hc]
    show List.take (d + 1) ((E.row.map erow.text).set (E.cy - 1).toNat _) ++ _ = _
    rw [hd1, hT, set_append_cons _ _ _ _ _ hA, p2, p3, q3]
    have e1 : A ++ (x1, a ++ b) :: (x2, b) :: R = (A ++ [(x1, a ++ b)]) ++ (x2, b) :: R := by simp
    have hl : (A ++ [(x1, a ++ b)]).length = d + 1 := by simp [hA]
    rw [e1, List.take_left' hl]
    have e2 : (A ++ [(x1, a ++ b)]) ++ (x2, b) :: R = (A ++ [(x1, a ++ b), (x2, b)]) ++ R := by simp
    have hl2 : (A ++ [(x1, a ++ b), (x2, b)]).length = d + 1 + 1 := by simp [hA]
    rw [e2, List.drop_left' hl2]
    simp

/-- C28: on a document whose rows are numbered exactly, with the cursor on a row
(`0 <= cy < numrows`) at a column `0 <= cx <= size` of that row, `XeditInsertNewLine` returns,
`XeditDelChar` called next returns, and `numrows`, the raw bytes and the `idx` of every row
and the cursor `(cy, cx)` are then what they were before the two calls. -/
theorem C28_newline_then_delete_restores (E : xeditConfig) (hE : numbered E)
    (hcy0 : 0 ≤ E.cy) (hcy1 : E.cy < E.numrows) (hcx0 : 0 ≤ E.cx)
    (hcx : ∀ row, E.row[E.cy.toNat]? = some row → E.cx ≤ (row.size : Int)) :
    ∃ E1 E2, XeditInsertNewLine E = some E1 ∧ XeditDelChar E1 = some E2 ∧
      E1.numrows = E.numrows + 1 ∧ E1.cy = E.cy + 1 ∧ E1.cx = 0 ∧
      E2.numrows = E.numrows ∧
      E2.row.map (fun r => r.chars) = E.row.map (fun r => r.chars) ∧
      E2.row.map (fun r => r.idx) = E.row.map (fun r => r.idx) ∧
      E2.cy = E.cy ∧ E2.cx = E.cx := by
  have hlt : E.cy.toNat < E.row.length := by
    have := hE.1
    omega
  obtain ⟨row, hrow⟩ : ∃ row, E.row[E.cy.toNat]? = some row :=
    ⟨_, List.getElem?_eq_getElem hlt⟩
  have hcx1 := hcx row hrow
  obtain ⟨E1, a1, a2, a3, a4, a5, a6⟩ := XeditInsertNewLine_spec E row hE hcy0 hrow hcx0 hcx1
  have hidx : row.idx = E.cy := by
    rw [hE.2 _ _ hrow]; omega
  have hT : (E.row.map erow.text)[E.cy.toNat]? = some (E.cy, row.chars) := by
    rw [List.getElem?_map, hrow, ← hidx]; rfl
  obtain ⟨hA, hdrop, _⟩ := list_split_at _ _ _ hT
  obtain ⟨E2, b1, b2, b3, b4, b5⟩ := XeditDelChar_join E1 _ _ _ _ _ _ E.cy.toNat a5
    (by rw [a2]; omega) a3 hA a6
  have htext : E2.row.map erow.text = E.row.map erow.text := by
    rw [b5, List.map_map]
    have hid : ((fun t : Int × List Nat => (t.1 - 1, t.2)) ∘ fun t => (t.1 + 1, t.2)) = id := by
      funext t
      simp
    rw [hid, List.map_id, List.take_append_drop, ← hdrop, List.take_append_drop]
  refine ⟨E1, E2, a1, b1, a4, a2, a3, by omega, ?_, ?_, by omega, ?_⟩
  · have := congrArg (List.map Prod.snd) htext
    simpa [erow.text, Function.comp_def] using this
  · have := congrArg (List.map Prod.fst) htext
    simpa [erow.text, Function.comp_def] using this
  · rw [b3, List.length_take]
    simp only [erow.size] at hcx1
    omega

theorem C28_newline_then_delete_restores_witness :
    ∃ E1 E2, XeditInsertNewLine docNewLine = some E1 ∧ XeditDelChar E1 = some E2 ∧
      E1.numrows = docNewLine.numrows + 1 ∧ E1.cy = docNewLine.cy + 1 ∧ E1.cx = 0 ∧
      E2.numrows = docNewLine.numrows ∧
      E2.row.map (fun r => r.chars) = docNewLine.row.map (fun r => r.chars) ∧
      E2.row.map (fun r => r.idx) = docNewLine.row.map (fun r => r.idx) ∧
      E2.cy = docNewLine.cy ∧ E2.cx = docNewLine.cx :=
  C28_newline_then_delete_restores docNewLine
    (numbered_of_check docNewLine (by decide) (by decide)) (by decide) (by decide) (by decide)
    (by decide)

/-! ## Row numbers after inserts and deletes -/

/-- C4: starting from the empty document, every sequence of `XeditInsertRow` and `XeditDelRow`
calls, at arbitrary positions, returns with `E.row[i].idx == i` for all `0 <= i < numrows`.
On a document numbered exactly, an insert at a valid position `at` adds one row, puts the new
row with `idx == at` and the given bytes at offset `at`, leaves every row before `at` at its
offset with its bytes and its `idx`, and moves every row from `at` on one offset up with its
bytes and with 1 added to its `idx`; a delete at a valid position removes one row, leaves the
rows before `at` as they are and moves every later row one offset down, unchanged but for 1
subtracted from its `idx`. -/
theorem C4_idx_equals_position :
    (∀ (E0 : xeditConfig) (ops : List RowOp), E0.numrows = 0 → E0.row = [] →
      ∃ E, applyRowOps E0 ops = some E ∧ E.numrows = (E.row.length : Int) ∧
        ∀ (i : Nat) (r : erow), E.row[i]? = some r → r.idx = (i : Int)) ∧
    (∀ (E : xeditConfig) (at_ : Int) (s : List Nat), numbered E → 0 ≤ at_ → at_ ≤ E.numrows →
      ∃ E1, XeditInsertRow E at_ s = some E1 ∧ E1.numrows = E.numrows + 1 ∧
        E1.row.length = E.row.length + 1 ∧
        (∃ r0, E1.row[at_.toNat]? = some r0 ∧ r0.idx = at_ ∧ r0.chars = s) ∧
        ∀ (j : Nat) (r : erow), E.row[j]? = some r →
          ∃ r1, E1.row[if j < at_.toNat then j else j + 1]? = some r1 ∧
            r1.chars = r.chars ∧
            r1.idx = (if j < at_.toNat then r.idx else r.idx + 1)) ∧
    (∀ (E : xeditConfig) (at_ : Int), numbered E → 0 ≤ at_ → at_ < E.numrows →
      (XeditDelRow E at_).numrows = E.numrows - 1 ∧
      (XeditDelRow E at_).row.length + 1 = E.row.length ∧
      ∀ (j : Nat) (r : erow), E.row[j]? = some r → j ≠ at_.toNat →
        (XeditDelRow E at_).row[if j < at_.toNat then j else j - 1]? =
          some (if j < at_.toNat then r else { r with idx := r.idx - 1 })) := by
  refine ⟨?_, ?_, ?_⟩
  · intro E0 ops h0 h1
    have hE0 : numbered E0 := by
      refine ⟨by simp [h0, h1], ?_⟩
      intro k r hr
      simp [h1] at hr
    obtain ⟨E, hE, hnum⟩ := applyRowOps_numbered ops E0 hE0
    exact ⟨E, hE, hnum.1, hnum.2⟩
  · intro E at_ s hE h0 h1
    obtain ⟨E1, e1, e2, e3, e4⟩ := XeditInsertRow_text E at_ s hE h0 h1
    have hlen := hE.1
    have ha : at_.toNat ≤ E.row.length := by omega
    have hA : ((E.row.map erow.text).take at_.toNat).length = at_.toNat := by
      simp only [List.length_take, List.length_map]
      omega
    have hn1 : E1.numrows = E.numrows + 1 := by rw [e2]
    refine ⟨E1, e1, hn1, ?_, ?_, ?_⟩
    · have := e3.1
      omega
    · obtain ⟨r0, a1, a2, a3⟩ := row_of_text E1.row _ at_.toNat _ e4
        (getElem?_append_cons _ _ _ _ hA)
      exact ⟨r0, a1, a2, a3⟩
    · intro j r hr
      obtain ⟨hj, _⟩ := List.getElem?_eq_some.mp hr
      have hT : (E.row.map erow.text)[j]? = some (r.idx, r.chars) := by
        rw [List.getElem?_map, hr]
        rfl
      by_cases hlt : j < at_.toNat
      · simp only [if_pos hlt]
        obtain ⟨r1, a1, a2, a3⟩ := row_of_text E1.row _ j (r.idx, r.chars) e4 (by
          rw [List.getElem?_append_left (by omega), List.getElem?_take_of_lt hlt, hT])
        exact ⟨r1, a1, a3, a2⟩
      · simp only [if_neg hlt]
        obtain ⟨r1, a1, a2, a3⟩ := row_of_text E1.row _ (j + 1) (r.idx + 1, r.chars) e4 (by
          rw [List.getElem?_append_right (by omega), hA]
          obtain ⟨d, hd⟩ : ∃ d, j + 1 - at_.toNat = d + 1 := ⟨j - at_.toNat, by omega⟩
          rw [hd, List.getElem?_cons_succ, List.getElem?_map, List.getElem?_drop]
          have hjd : at_.toNat + d = j := by omega
          rw [hjd, hT]
          rfl)
        exact ⟨r1, a1, a3, a2⟩
  · intro E at_ hE h0 h1
    have hlen := hE.1
    have ha : at_.toNat < E.row.length := by omega
    unfold XeditDelRow
    rw [if_neg (by omega)]
    dsimp only
    refine ⟨rfl, ?_, ?_⟩
    · simp only [List.length_append, List.length_take, List.length_map, List.length_drop]
      omega
    · intro j r hr hne
      obtain ⟨hj, _⟩ := List.getElem?_eq_some.mp hr
      by_cases hlt : j < at_.toNat
      · simp only [if_pos hlt]
        rw [List.getElem?_append_left (by simp; omega), List.getElem?_take_of_lt hlt, hr]
      · simp only [if_neg hlt]
        rw [List.getElem?_append_right (by simp; omega)]
        simp only [List.length_take, Nat.min_eq_left (Nat.le_of_lt ha), List.getElem?_map,
          List.getElem?_drop]
        have hjd : at_.toNat + 1 + (j - 1 - at_.toNat) = j := by omega
        rw [hjd, hr]
        rfl

theorem C4_idx_equals_position_witness :
    (∃ E, applyRowOps (emptyConfig (some HLDB_c))
        [RowOp.insert 0 [47, 42], RowOp.insert 5 [1], RowOp.insert 0 [120], RowOp.delete 1,
          RowOp.delete (-1)] = some E ∧
      E.numrows = (E.row.length : Int) ∧
      ∀ (i : Nat) (r : erow), E.row[i]? = some r → r.idx = (i : Int)) ∧
    (∃ E1, XeditInsertRow docOpenComment 1 [42, 47] = some E1 ∧
      E1.numrows = docOpenComment.numrows + 1 ∧
      E1.row.length = docOpenComment.row.length + 1 ∧
      (∃ r0, E1.row[(1 : Int).toNat]? = some r0 ∧ r0.idx = 1 ∧ r0.chars = [42, 47]) ∧
      ∀ (j : Nat) (r : erow), docOpenComment.row[j]? = some r →
        ∃ r1, E1.row[if j < (1 : Int).toNat then j else j + 1]? = some r1 ∧
          r1.chars = r.chars ∧
          r1.idx = (if j < (1 : Int).toNat then r.idx else r.idx + 1)) ∧
    ((XeditDelRow docOpenComment 0).numrows = docOpenComment.numrows - 1 ∧
      (XeditDelRow docOpenComment 0).row.length + 1 = docOpenComment.row.length ∧
      ∀ (j : Nat) (r : erow), docOpenComment.row[j]? = some r → j ≠ (0 : Int).toNat →
        (XeditDelRow docOpenComment 0).row[if j < (0 : Int).toNat then j else j - 1]? =
          some (if j < (0 : Int).toNat then r else { r with idx := r.idx - 1 })) :=
  ⟨C4_idx_equals_position.1 (emptyConfig (some HLDB_c)) _ rfl rfl,
   C4_idx_equals_position.2.1 docOpenComment 1 [42, 47] docOpenComment_numbered (by decide)
     (by decide),
   C4_idx_equals_position.2.2 docOpenComment 0 docOpenComment_numbered (by decide)
     (by decide)⟩

/-! ## Selecting a profile re-highlights every row -/

theorem map_render_set (rows : List erow) (p : Nat) (row r1 : erow) (hp : rows[p]? = some row)
    (ht : r1.render = row.render) :
    (rows.set p r1).map (fun r => r.render) = rows.map (fun r => r.render) := by
  apply List.ext_getElem?
  intro k
  simp only [List.getElem?_map, List.getElem?_set]
  split_ifs with h1 h2
  · subst h1
    simp [hp, ht]
  · subst h1
    obtain ⟨hlt, _⟩ := List.getElem?_eq_some.mp hp
    omega
  · rfl

theorem XeditUpdateSyntax_render (fuel : Nat) (E E1 : xeditConfig) (p : Nat)
    (h : XeditUpdateSyntax fuel E p = some E1) :
    E1.row.map (fun r => r.render) = E.row.map (fun r => r.render) := by
  induction fuel generalizing E p with
  | zero => simp [XeditUpdateSyntax] at h
  | succ f ih =>
    unfold XeditUpdateSyntax at h
    split at h
    · simp at h
    · rename_i row hrow
      split at h
      · injection h with h
        subst h
        exact map_render_set _ _ _ _ hrow rfl
      · rename_i syn hsyn
        split at h
        · simp at h
        · split at h
          · simp at h
          · rename_i st hst
            dsimp only at h
            split_ifs at h with hc hneg
            · rw [ih _ _ h]
              exact map_render_set _ _ _ _ hrow rfl
            · injection h with h
              subst h
              exact map_render_set _ _ _ _ hrow rfl

theorem selectLoop_spec (n : Nat) (E : xeditConfig) (i : Nat) (syn : xeditSyntax)
    (hsyn : E.syn = some syn) (hE : numbered E) (hn : i + n = E.row.length)
    (hinv : ∀ q r, q < i → E.row[q]? = some r →
      highlightRow syn r.render (prevFlag E.row q) = some (r.hl, r.hl_open_comment)) :
    ∃ E1, XeditSelectSyntaxHighlight.loop n E i = some E1 ∧ E1.syn = E.syn ∧ numbered E1 ∧
      E1.row.map erow.text = E.row.map erow.text ∧
      E1.row.map (fun r => r.render) = E.row.map (fun r => r.render) ∧
      ∀ q r, E1.row[q]? = some r →
        highlightRow syn r.render (prevFlag E1.row q) = some (r.hl, r.hl_open_comment) := by
  induction n generalizing E i with
  | zero =>
    refine ⟨E, rfl, rfl, hE, rfl, rfl, ?_⟩
    intro q r hq
    exact hinv q r (by have := (List.getElem?_eq_some.mp hq).1; omega) hq
  | succ m ih =>
    have hp : i < E.row.length := by omega
    have hrow : E.row[i]? = some E.row[i] := List.getElem?_eq_getElem hp
    obtain ⟨E2, k, c1, _, c3, c4, c5, c6, c7, c8, c9⟩ := cascade_spec (E.row.length + 1) E i
      hE.2 hE.1 hp (by omega)
    obtain ⟨_, ftext⟩ := XeditUpdateSyntax_frame _ _ _ _ c1
    have frender := XeditUpdateSyntax_render _ _ _ _ c1
    have hsyn2 : E2.syn = E.syn := by rw [c5]
    have hnum2 : numbered E2 := by
      refine ⟨?_, numberedRows_of_map_text _ _ ftext hE.2⟩
      rw [c6, c5]
      exact hE.1
    obtain ⟨E1, l1, l2, l3, l4, l5, l6⟩ := ih E2 (i + 1) (by rw [hsyn2]; exact hsyn) hnum2
      (by rw [c6]; omega) (by
        intro q r hq hr
        by_cases hlt : q < i
        · rw [c7 q hlt] at hr
          rw [prevFlag_congr E2.row E.row q (fun j hj => c7 j (by omega))]
          exact hinv q r hlt hr
        · have hqi : q = i := by omega
          subst hqi
          obtain ⟨r1, v1, _, _, v4, _, v6, _, _⟩ := c9 q E.row[q] (Nat.le_refl _) (by omega) hrow
          rw [hr] at v1
          injection v1 with v1
          subst v1
          rw [v4]
          exact v6 syn hsyn)
    refine ⟨E1, ?_, ?_, l3, ?_, ?_, l6⟩
    · simp only [XeditSelectSyntaxHighlight.loop, c1, l1]
    · rw [l2, hsyn2]
    · rw [l4, ftext]
    · rw [l5, frender]

/-- C6 (amended): on a document numbered exactly, whatever highlighting its rows carry: when
the file name matches a profile, `XeditSelectSyntaxHighlight` returns with that profile
selected and every row's `hl` and `hl_open_comment` equal to what a pass of the highlight
engine over all rows gives under it, the raw bytes and the renders unchanged; when there is
no file name or it matches no profile, it clears `E.syntax` and leaves every row as it is.
On a document without rows, as at the call in `XeditOpen`, the result is consistently
highlighted on either path. -/
theorem C6_select_rehighlights_on_match (E : xeditConfig) (hE : numbered E) :
    (∀ (filename : List Nat) (s : xeditSyntax), E.filename = some filename →
      XeditSelectSyntaxHighlight.find filename HLDB = some s →
      ∃ E1, XeditSelectSyntaxHighlight E = some E1 ∧ E1.syn = some s ∧ highlighted E1 ∧
        E1.row.map erow.text = E.row.map erow.text ∧
        E1.row.map (fun r => r.render) = E.row.map (fun r => r.render)) ∧
    (E.filename = none ∨
        (∃ filename, E.filename = some filename ∧
          XeditSelectSyntaxHighlight.find filename HLDB = none) →
      XeditSelectSyntaxHighlight E = some { E with syn := none }) ∧
    (E.row = [] → ∃ E1, XeditSelectSyntaxHighlight E = some E1 ∧ highlighted E1) := by
  have hmatch : ∀ (filename : List Nat) (s : xeditSyntax), E.filename = some filename →
      XeditSelectSyntaxHighlight.find filename HLDB = some s →
      ∃ E1, XeditSelectSyntaxHighlight E = some E1 ∧ E1.syn = some s ∧ highlighted E1 ∧
        E1.row.map erow.text = E.row.map erow.text ∧
        E1.row.map (fun r => r.render) = E.row.map (fun r => r.render) := by
    intro filename s hf hfind
    have hlen := hE.1
    obtain ⟨E1, l1, l2, l3, l4, l5, l6⟩ := selectLoop_spec E.row.length
      { E with syn := some s } 0 s rfl ⟨hE.1, hE.2⟩ (by simp) (fun q r hq _ => by omega)
    have hs1 : E1.syn = some s := l2
    refine ⟨E1, ?_, hs1, ⟨l3, ?_, ?_⟩, l4, l5⟩
    · simp only [XeditSelectSyntaxHighlight, hf, hfind]
      have : E.numrows.toNat = E.row.length := by omega
      rw [this]
      rw [hf] at l1
      exact l1
    · intro syn1 h1
      rw [hs1] at h1
      injection h1 with h1
      subst h1
      apply (fullPass_pointwise s E1.row false).mpr
      intro q r hq
      rw [prevFlag_if]
      exact l6 q r hq
    · intro hn
      rw [hs1] at hn
      exact absurd hn (by simp)
  have hnone : E.filename = none ∨
      (∃ filename, E.filename = some filename ∧
        XeditSelectSyntaxHighlight.find filename HLDB = none) →
      XeditSelectSyntaxHighlight E = some { E with syn := none } := by
    rintro (h | ⟨filename, h1, h2⟩)
    · simp only [XeditSelectSyntaxHighlight, h]
    · simp only [XeditSelectSyntaxHighlight, h1, h2]
  refine ⟨hmatch, hnone, ?_⟩
  intro hrows
  cases hf : E.filename with
  | none =>
    refine ⟨_, hnone (Or.inl hf), ⟨hE.1, hE.2⟩, fun syn h => by simp at h, ?_⟩
    intro _ q r hq
    simp [hrows] at hq
  | some filename =>
    cases hfind : XeditSelectSyntaxHighlight.find filename HLDB with
    | none =>
      refine ⟨_, hnone (Or.inr ⟨filename, hf, hfind⟩), ⟨hE.1, hE.2⟩,
        fun syn h => by simp at h, ?_⟩
      intro _ q r hq
      simp [hrows] at hq
    | some s =>
      obtain ⟨E1, h1, _, h3, _, _⟩ := hmatch filename s hf hfind
      exact ⟨E1, h1, h3⟩

theorem C6_select_rehighlights_on_match_witness :
    ∃ E1, XeditSelectSyntaxHighlight docIntPlainC = some E1 ∧ E1.syn = some HLDB_c ∧
      highlighted E1 ∧ E1.row.map erow.text = docIntPlainC.row.map erow.text ∧
      E1.row.map (fun r => r.render) = docIntPlainC.row.map (fun r => r.render) :=
  (C6_select_rehighlights_on_match docIntPlainC
    (numbered_of_check docIntPlainC (by decide) (by decide))).1 (cstr ['a', '.', 'c']) HLDB_c
    rfl (by decide)
end Xedit
